import Mathlib

/-!
# Verification of the PDD (Polynomial Decision Diagram) package

This file gives a shallow embedding in Lean 4 of the PDD manager found in
`src/src/sat/smt/fpa_solver.h` (the `dd::pdd_manager` implementation,
`dd_pdd.cpp`), together with theorems settling the frozen claims about it.

The embedding has two layers.

* A *functional* layer: because the manager hash-conses nodes (invariant I4
  of the spec, maintained by `insert_node`), two node ids are equal iff the
  trees below them are structurally equal.  We therefore model a pdd as an
  inductive tree `PDD` and node-id equality as structural equality.  The
  arithmetic workers (`apply_rec` for add/mul/reduce, `minus_rec`,
  `reduce_on_match`, `lt_quotient`, `common_factors`, `spoly`, `lt`,
  `lm_divides`, `to_monomials`) are translated function by function.
  Recursions that the C++ performs with unbounded loops or non-structural
  recursion are given an explicit fuel parameter and return `Option`;
  `none` means the computation did not finish within the given fuel (or, in
  the mod-2 multiplication branch, that the evaluation-stack read went out
  of bounds, which in C++ is undefined behaviour).  The evaluation stack of
  the manager is semantically irrelevant for every branch except the mod-2
  multiplication branch, which reads `read(3)` after a single push; for
  that operation the stack is threaded explicitly.

* A *stateful* layer: the node store, unique table, refcounts, free lists,
  value pool and op cache are modelled as an explicit `MState` record with
  `insert_node`, `gc`, `try_gc`, `reserve_var`, `set_level2var` and the
  constructor translated operation by operation, again with fuel for the
  worklist loop inside `gc`.

Variable/level maps: the functional layer models a manager whose
`var2level`/`level2var` maps are the identity (their initial state), so
`var(p) = level(p)` and `m_var2pdd[v]` is the node `(v, 0, 1)`.
-/

namespace DD

/-- A pdd node: either a value node carrying a rational constant, or a
decision node `x_lvl * hi + lo` (source: `pdd_node`, with hash-consing
making structural equality coincide with node-id equality). -/
inductive PDD : Type
  | val (r : ℚ)
  | node (lvl : Nat) (lo hi : PDD)
deriving DecidableEq

/-- The node id 0, the constant zero polynomial (`zero_pdd`). -/
def pddZero : PDD := .val 0

/-- The node id 1, the constant one polynomial (`one_pdd`). -/
def pddOne : PDD := .val 1

/-- `is_val`: value nodes are exactly those with `m_hi == 0`. -/
def PDD.isVal : PDD → Bool
  | .val _ => true
  | .node _ _ _ => false

/-- `level`: value nodes are stored with `m_level = 0`. -/
def PDD.level : PDD → Nat
  | .val _ => 0
  | .node l _ _ => l

/-- `lo`: for a value node the `m_lo` field holds the value index; it is
never dereferenced as a pdd, so we return the node itself as a junk value. -/
def PDD.lo : PDD → PDD
  | .val r => .val r
  | .node _ l _ => l

/-- `hi`: for a value node the `m_hi` field is the id 0, i.e. the zero pdd. -/
def PDD.hi : PDD → PDD
  | .val _ => pddZero
  | .node _ _ h => h

/-- `val(p)`: the rational carried by a value node (junk 0 on decision
nodes, which the source never queries). -/
def PDD.value : PDD → ℚ
  | .val r => r
  | .node _ _ _ => 0

/-- Modelled from the spec: the bignum `mod(r, rational(2))` used by
`imk_val` in mod-2 mode comes from the external Rational package (spec §1
lists it as out of scope).  On integers it is the usual remainder in
`{0, 1}`; non-integral rationals are returned unchanged. -/
def ratMod2 (r : ℚ) : ℚ := if r.den = 1 then ((r.num % 2 : ℤ) : ℚ) else r

/-- `imk_val`: canonicalises constants — 0 and 1 map to the reserved ids,
mod-2 mode first reduces modulo 2 (the source performs this by a recursive
call `imk_val(mod(r, rational(2)))`, unfolded here once since the reduced
value is a fixed point of `ratMod2`). -/
def imkVal (m2 : Bool) (r : ℚ) : PDD :=
  if r = 0 then pddZero
  else if r = 1 then pddOne
  else if m2 then
    let r' := ratMod2 r
    if r' = 0 then pddZero else if r' = 1 then pddOne else .val r'
  else .val r

/-- `make_node`: zero-suppression — `hi == 0` collapses to `lo`; otherwise
the node is interned (hash-consing makes this plain construction here).
The source additionally *asserts* invariant I2 on the arguments. -/
def mkNode (lvl : Nat) (l h : PDD) : PDD :=
  if h = pddZero then l else .node lvl l h

/-- The pinned variable node `m_var2pdd[v]` created by `reserve_var`:
`make_node(v, zero_pdd, one_pdd)` (identity variable-to-level map). -/
def mkVar (v : Nat) : PDD := PDD.node v pddZero pddOne

/-- The canonical argument reordering performed by `apply_rec` for `add`
and `mul` before recursing (the two sequential `std::swap(p, q)` lines):
swap if `p` is a non-value of smaller level, then swap if (the possibly
already swapped) `p` is a value. -/
def canonSwap (p q : PDD) : PDD × PDD :=
  let s := if !p.isVal && decide (p.level < q.level) then (q, p) else (p, q)
  if s.1.isVal then (s.2, s.1) else s

/-- `apply_rec` for `pdd_add_op` (fuel-indexed; the C++ recursion is
structural but passes through the swap, so we meter it with fuel).  The
final `else` corresponds to the source's `level_p > level_q` branch; the
remaining case is `UNREACHABLE()` in the source. -/
def padd (m2 : Bool) : Nat → PDD → PDD → Option PDD
  | 0, _, _ => none
  | fuel+1, p, q =>
    if p = pddZero then some q
    else if q = pddZero then some p
    else if p.isVal && q.isVal then some (imkVal m2 (p.value + q.value))
    else
      match canonSwap p q with
      | (p, q) =>
        if q.isVal then do
          let l ← padd m2 fuel p.lo q
          some (mkNode p.level l p.hi)
        else if p.level = q.level then do
          let l ← padd m2 fuel p.lo q.lo
          let h ← padd m2 fuel p.hi q.hi
          some (mkNode p.level l h)
        else do
          let l ← padd m2 fuel p.lo q
          some (mkNode p.level l p.hi)

/-- `apply_rec` for `pdd_mul_op` in the default Q-mode
(`m_mod2_semantics == false`).  Fuel-indexed: the equal-level case
recurses on results of additions, which is not structurally decreasing. -/
def pmulQ : Nat → PDD → PDD → Option PDD
  | 0, _, _ => none
  | fuel+1, p, q =>
    if p = pddZero || q = pddZero then some pddZero
    else if p = pddOne then some q
    else if q = pddOne then some p
    else if p.isVal && q.isVal then some (imkVal false (p.value * q.value))
    else
      match canonSwap p q with
      | (p, q) =>
        if q.isVal then do
          let l ← pmulQ fuel p.lo q
          let h ← pmulQ fuel p.hi q
          some (mkNode p.level l h)
        else if p.level = q.level then do
          let ac ← pmulQ fuel p.hi q.hi
          let ad ← pmulQ fuel p.hi q.lo
          let bc ← pmulQ fuel p.lo q.hi
          let bd ← pmulQ fuel p.lo q.lo
          let n ← padd false fuel ad bc
          if !n.isVal && n.level = p.level then do
            let h ← padd false fuel ac n.hi
            some (mkNode p.level bd (mkNode p.level n.lo h))
          else
            some (mkNode p.level bd (mkNode p.level n ac))
        else do
          let l ← pmulQ fuel p.lo q
          let h ← pmulQ fuel p.hi q
          some (mkNode p.level l h)

/-- `read(i)` on the evaluation stack: `m_pdd_stack[m_pdd_stack.size() - i]`,
i.e. the `i`-th entry from the top (1-based).  Out of bounds is undefined
behaviour in C++ and maps to `none` here. -/
def stackRead (st : List PDD) (i : Nat) : Option PDD := st.get? (i - 1)

/-- `apply_rec` for `pdd_mul_op` with `m_mod2_semantics == true`.  The
equal-level branch of the source reads `read(3)` when only one value has
been pushed in the current frame, so the result depends on the evaluation
stack below the frame; the stack is therefore threaded explicitly
(`st`, top at the head).  All other branches only read their own pushes. -/
def pmulM2 : Nat → PDD → PDD → List PDD → Option PDD
  | 0, _, _, _ => none
  | fuel+1, p, q, st =>
    if p = pddZero || q = pddZero then some pddZero
    else if p = pddOne then some q
    else if q = pddOne then some p
    else if p.isVal && q.isVal then some (imkVal true (p.value * q.value))
    else
      match canonSwap p q with
      | (p, q) =>
        if q.isVal then do
          let l ← pmulM2 fuel p.lo q st
          let h ← pmulM2 fuel p.hi q (l :: st)
          some (mkNode p.level l h)
        else if p.level = q.level then do
          -- push(apply_rec(lo(p), lo(q), pdd_mul_op));
          -- unsigned bd = read(3);             -- out-of-frame read
          let bd0 ← pmulM2 fuel p.lo q.lo st
          let bd ← stackRead (bd0 :: st) 3
          let u ← padd true fuel p.hi p.lo
          let v ← padd true fuel q.hi q.lo
          let uv ← pmulM2 fuel v u (v :: u :: bd0 :: st)
          let w ← padd true fuel uv bd
          some (mkNode p.level bd w)
        else do
          let l ← pmulM2 fuel p.lo q st
          let h ← pmulM2 fuel p.hi q (l :: st)
          some (mkNode p.level l h)

/-- `minus_rec`: recursive negation of the value leaves (only called in
Q-mode; mod-2 mode short-circuits in `minus`). -/
def pminusRec : PDD → PDD
  | .val r => if r = 0 then pddZero else imkVal false (-r)
  | .node lvl l h => mkNode lvl (pminusRec l) (pminusRec h)

/-- `pdd_manager::minus`: identity in mod-2 mode, else `minus_rec`. -/
def pminus (m2 : Bool) (a : PDD) : PDD :=
  if m2 then a else pminusRec a

/-- `pdd_manager::sub(a, b)`: `minus(b)` followed by `apply(a, ·, pdd_add_op)`. -/
def psub (m2 : Bool) (fuel : Nat) (a b : PDD) : Option PDD :=
  padd m2 fuel a (pminus m2 b)

/-- `to_monomials`: a value contributes one constant monomial (dropped when
zero); a decision node extends each monomial of `hi` by its variable
(`push_back`, i.e. appended at the end) and appends the monomials of `lo`.
Identity variable map: `p.var() = p.level()`. -/
def toMonomials : PDD → List (ℚ × List Nat)
  | .val r => if r = 0 then [] else [(r, [])]
  | .node lvl l h =>
      (toMonomials h).map (fun m => (m.1, m.2 ++ [lvl])) ++ toMonomials l

/-- `lm_divides(p, q)`: true iff the leading monomial of `p` divides the
leading monomial of `q` (walk of both `hi` spines). -/
def lmDivides : PDD → PDD → Bool
  | .val _, _ => true
  | .node _ _ _, .val _ => false
  | .node lp lop hp, .node lq _ hq =>
    if lp > lq then false
    else if lp = lq then lmDivides hp hq
    else lmDivides (.node lp lop hp) hq

/-- The loop of `pdd_manager::lt` (after the initial `x == y` test). -/
def ltRec : PDD → PDD → Bool
  | .val r, y => !y.isVal || decide (r < y.value)
  | .node _ _ _, .val _ => false
  | .node lx lox hx, .node ly loy hy =>
    if lx = ly then
      if hx = hy then ltRec lox loy else ltRec hx hy
    else decide (lx > ly)

/-- `pdd_manager::lt(a, b)`: compare leading monomials; note that the
unequal-level case of the source returns `level(x) > level(y)`. -/
def ltFn (a b : PDD) : Bool :=
  if a = b then false else ltRec a b

/-- `different_leading_term(a, b)`. -/
def differentLeadingTerm : PDD → PDD → Bool
  | x, y =>
    if x = y then false
    else match x, y with
      | .val _, _ => true
      | _, .val _ => true
      | .node lx _ hx, .node ly _ hy =>
        if lx = ly then differentLeadingTerm hx hy else true
  termination_by x => x

/-- The product of variables along the `hi` spine: the leading monomial,
as the list of levels visited from the root (weakly decreasing for
well-formed pdds).  This is also what the flush loops
`while (!is_val(x)) p.push_back(var(x)), x = hi(x);` of `common_factors`
collect. -/
def spine : PDD → List Nat
  | .val _ => []
  | .node lvl _ h => lvl :: spine h

/-- The leading coefficient: the value at the end of the `hi` spine. -/
def lc : PDD → ℚ
  | .val r => r
  | .node _ _ h => lc h

/-- `lt_quotient(p, q)`: returns `-lt(q)/lt(p)` assuming
`lm_divides(p, q)`; builds the variable prefix with `apply(_, _, mul)`
(Q-mode, identity variable map, so `m_var2pdd[var(q)]` is `mkVar q.level`). -/
def ltQuotient : Nat → PDD → PDD → Option PDD
  | 0, _, _ => none
  | fuel+1, p, q =>
    if p.isVal && q.isVal then some (imkVal false (-q.value / p.value))
    else if !p.isVal && p.level = q.level then ltQuotient fuel p.hi q.hi
    else do
      let t ← ltQuotient fuel p q.hi
      pmulQ fuel (mkVar q.level) t

/-- The `while (lm_divides(b, a))` loop of `reduce_on_match` (Q-mode);
each iteration forms `q = lt_quotient(b, a)`, `r = q * b`, `a = a + r`.
One unit of fuel is spent per iteration. -/
def reduceOnMatch : Nat → PDD → PDD → Option PDD
  | 0, _, _ => none
  | fuel+1, a, b =>
    if lmDivides b a then do
      let q ← ltQuotient (fuel+1) b a
      let r ← pmulQ (fuel+1) q b
      let a' ← padd false (fuel+1) a r
      reduceOnMatch fuel a' b
    else some a

/-- `apply_rec` for `pdd_reduce_op` (Q-mode). -/
def preduce : Nat → PDD → PDD → Option PDD
  | 0, _, _ => none
  | fuel+1, p, q =>
    if q = pddZero then some p
    else if p.isVal then some p
    else if p.level < q.level then some p
    else if p.level > q.level then do
      let l ← preduce fuel p.lo q
      let h ← preduce fuel p.hi q
      some (mkNode p.level l h)
    else reduceOnMatch fuel p q

/-- Modelled from the spec: `gcd` on the abstract `Rational` type (spec §1;
the bignum package is out of scope).  On integers — the only case the
source applies it to — it is the non-negative integer gcd; the standard
extension `gcd(numerators)/lcm(denominators)` is used elsewhere. -/
def ratGcd (a b : ℚ) : ℚ :=
  (Int.gcd a.num b.num : ℚ) / (Nat.lcm a.den b.den : ℚ)

/-- The loop of `common_factors`, with accumulators for `p` and `q`
(`push_back` = append).  Result `some none` models `return false`
(leading monomials share no variable); `some (some _)` carries
`(p, q, pc, qc)`; the outer `none` is fuel exhaustion. -/
def cfWalk (md : Bool) :
    Nat → PDD → PDD → List Nat → List Nat → Bool →
    Option (Option (List Nat × List Nat × ℚ × ℚ))
  | 0, _, _, _, _, _ => none
  | fuel+1, x, y, pl, ql, hasCommon =>
    if x.isVal || y.isVal then
      if !hasCommon then some none
      else
        let ql' := ql ++ spine y
        let pl' := pl ++ spine x
        let pc := lc x
        let qc := lc y
        if !md && pc.isInt && qc.isInt then
          some (some (pl', ql', pc / ratGcd pc qc, qc / ratGcd pc qc))
        else
          some (some (pl', ql', pc, qc))
    else if x.level = y.level then cfWalk md fuel x.hi y.hi pl ql true
    else if x.level > y.level then cfWalk md fuel x.hi y (pl ++ [x.level]) ql hasCommon
    else cfWalk md fuel x y.hi pl (ql ++ [y.level]) hasCommon

/-- `common_factors(a, b, p, q, pc, qc)` with freshly reset accumulators. -/
def commonFactors (md : Bool) (fuel : Nat) (a b : PDD) :
    Option (Option (List Nat × List Nat × ℚ × ℚ)) :=
  cfWalk md fuel a b [] [] false

/-- The public `pdd_manager::mul` entry as called from `spoly` (and by
clients): in mod-2 mode the evaluation stack is empty at entry. -/
def pmulEntry (md : Bool) (fuel : Nat) (a b : PDD) : Option PDD :=
  if md then pmulM2 fuel a b [] else pmulQ fuel a b

/-- `spoly(a, b, p, q, pc, qc)`: builds `a*(x^q*qc) + b*(x^p*(-pc))`, each
monomial by the right fold `r = mul(mk_var(l[i]), r)` for `i` descending. -/
def spolyFn (md : Bool) (fuel : Nat) (a b : PDD) (pl ql : List Nat)
    (pc qc : ℚ) : Option PDD := do
  let mq ← ql.foldr (fun v acc => do
      let r ← acc
      pmulEntry md fuel (mkVar v) r) (some (imkVal md qc))
  let r1 ← pmulEntry md fuel a mq
  let mp ← pl.foldr (fun v acc => do
      let r ← acc
      pmulEntry md fuel (mkVar v) r) (some (imkVal md (-pc)))
  let r2 ← pmulEntry md fuel b mp
  padd md fuel r1 r2

/-- `try_spoly(a, b, r)`: `common_factors` followed by `spoly` on success. -/
def trySpoly (md : Bool) (fuel : Nat) (a b : PDD) : Option (Option PDD) := do
  let cf ← commonFactors md fuel a b
  match cf with
  | none => some none
  | some (pl, ql, pc, qc) => do
    let r ← spolyFn md fuel a b pl ql pc qc
    some (some r)

/-! ## The stateful layer: node store, unique table, GC -/

/-- `max_rc`, the saturating refcount ceiling that pins a node.
Modelled from the spec (§3: "saturating 32-bit counter"; the `pdd_node`
declaration itself is not in `src/`). -/
def maxRc : Nat := 2 ^ 32 - 1

/-- `pdd_no_op`.  Modelled from the spec: ids 0 and 1 are the constants
and "a small prefix of further ids is reserved as op-cache sentinels";
the operation constants `pdd_add_op .. pdd_no_op` occupy 2..7. -/
def pddNoOp : Nat := 7

/-- A slot of `m_nodes`.  Value nodes store their `value_index` in the
`lo` field and have `hi = 0` (modelled from the spec §3; the `pdd_node`
declaration is not in `src/`). -/
structure PNode where
  level : Nat
  lo : Nat
  hi : Nat
  refcount : Nat
  index : Nat
deriving DecidableEq

instance : Inhabited PNode := ⟨⟨0, 0, 0, 0, 0⟩⟩

/-- `pdd_node::is_val`: `m_hi == 0`. -/
def isValN (n : PNode) : Bool := n.hi == 0

/-- `set_internal`: returns the slot to the free-slot shape
(`lo = hi = 0`, cf. the free-node check in `well_formed`).  Modelled from
the spec ("internal flag — set while the slot sits in the free list"). -/
def setInternal (n : PNode) : PNode := { n with lo := 0, hi := 0 }

/-- An op-cache entry `(pdd1, pdd2, op, result)`; `result = none` models
the `null_pdd` sentinel of a pending entry (spec §3). -/
structure OpEntry where
  pdd1 : Nat
  pdd2 : Nat
  op : Nat
  result : Option Nat
deriving DecidableEq

/-- The mutable state of a `pdd_manager`. -/
structure MState where
  nodes : List PNode
  values : List ℚ
  freeValues : List Nat
  /-- `m_mpq_table`: rational → `(value_index, node_index)` (`const_info`). -/
  mpqTable : List (ℚ × Nat × Nat)
  /-- `m_node_table`: the unique table; keyed by `(level, lo, hi)`. -/
  nodeTable : List PNode
  /-- `m_free_nodes`; a vector, its back is the last list element. -/
  freeNodes : List Nat
  /-- `m_pdd_stack`, the evaluation stack (used by `gc` as a root set). -/
  pddStack : List Nat
  opCache : List OpEntry
  freezeValue : ℚ
  maxNodes : Nat
  disableGc : Bool
  mod2 : Bool
  var2pdd : List Nat
  var2level : List Nat
  level2var : List Nat
deriving DecidableEq

/-- Content equality on the unique-table key `(level, lo, hi)`. -/
def nodeKeyEq (a b : PNode) : Bool :=
  a.level == b.level && a.lo == b.lo && a.hi == b.hi

/-- `insert_if_not_there2`: return the entry with the content of `n` if
present, else insert `n` itself (whose `index` is 0 at this point). -/
def tableInsertIfNotThere (t : List PNode) (n : PNode) : PNode × List PNode :=
  match t.find? (fun e => nodeKeyEq e n) with
  | some e => (e, t)
  | none => (n, t ++ [n])

/-- In-place mutation of the (unique, by invariant I4) table entry whose
content equals `n`. -/
def tableUpdate (t : List PNode) (n : PNode) (f : PNode → PNode) : List PNode :=
  t.map (fun e => if nodeKeyEq e n then f e else e)

/-- `alloc_free_nodes(n)`: append `n` default slots to `m_nodes`, push
their ids onto the free list, then reverse the (whole) free list. -/
def allocFreeNodes (s : MState) (n : Nat) : MState :=
  let newIds := List.range' s.nodes.length n
  { s with
    nodes := s.nodes ++ newIds.map (fun i => { level := 0, lo := 0, hi := 0, refcount := 0, index := i }),
    freeNodes := (s.freeNodes ++ newIds).reverse }

/-- One child visit of the marking loop of `gc`:
`if (!reachable[c]) { reachable[c] = true; m_todo.push_back(c); }`
(an out-of-bounds test reads as marked, mirroring that the C++ vector is
sized to the node store). -/
def markChild (rt : List Bool × List Nat) (c : Nat) : List Bool × List Nat :=
  if rt.1.getD c true then rt else (rt.1.set c true, c :: rt.2)

/-- The marking loop of `gc`: pop the todo stack (its head is the vector's
back); values have no children; unmarked children are marked and pushed,
`lo` first.  Out-of-bounds node ids are undefined behaviour, modelled as
`none`. -/
def closeF (s : MState) : Nat → List Bool → List Nat → Option (List Bool)
  | 0, _, _ => none
  | _+1, reach, [] => some reach
  | fuel+1, reach, p :: rest =>
    match s.nodes.get? p with
    | none => none
    | some np =>
      if isValN np then closeF s fuel reach rest
      else
        let st2 := markChild (markChild (reach, rest) np.lo) np.hi
        closeF s fuel st2.1 st2.2

/-- One step of the sweep loop of `gc` at node id `i` (iterated for
`i = m_nodes.size()-1` down to `2`): unreachable value nodes release
their value slot unless frozen; unreachable slots are made internal and
returned to the free list.  The frozen-value case is a `continue`. -/
def sweepStep (reach : List Bool) (acc : MState) (i : Nat) : MState :=
  if reach.getD i false then acc
  else
    match acc.nodes.get? i with
    | none => acc
    | some ni =>
      if isValN ni && decide (acc.freezeValue = acc.values.getD ni.lo 0) then acc
      else
        let acc :=
          if isValN ni then
            let v := acc.values.getD ni.lo 0
            let vi := ((acc.mpqTable.find? (fun e => e.1 = v)).map (fun e => e.2.1)).getD 0
            { acc with freeValues := acc.freeValues ++ [vi],
                       mpqTable := acc.mpqTable.filter (fun e => ¬(e.1 = v)) }
          else acc
        { acc with nodes := acc.nodes.set i (setInternal ni),
                   freeNodes := acc.freeNodes ++ [i] }

/-- The node ids `m_nodes.size()-1, …, 2` in iteration order. -/
def idsDesc (s : MState) : List Nat :=
  ((List.range s.nodes.length).reverse).filter (fun i => 2 ≤ i)

/-- Insert into an ascending list (helper for `sortAsc`). -/
def insertSorted (x : Nat) : List Nat → List Nat
  | [] => [x]
  | y :: l => if x ≤ y then x :: y :: l else y :: insertSorted x l

/-- Ascending sort (the `std::sort` call of `gc`), as insertion sort. -/
def sortAsc (l : List Nat) : List Nat := l.foldr insertSorted []

/-- One iteration of the first seeding loop of `gc`: mark and push the
evaluation-stack entry at position `i`. -/
def stackSeedStep (s : MState) (rt : List Bool × List Nat) (i : Nat) :
    List Bool × List Nat :=
  (rt.1.set (s.pddStack.getD i 0) true, s.pddStack.getD i 0 :: rt.2)

/-- One iteration of the second seeding loop of `gc`: mark and push id
`i` when its refcount is positive. -/
def rcSeedStep (s : MState) (rt : List Bool × List Nat) (i : Nat) :
    List Bool × List Nat :=
  if 0 < ((s.nodes.getD i default).refcount) then
    (rt.1.set i true, i :: rt.2)
  else rt

/-- The two seeding loops of `gc`: mark and push every id on the
evaluation stack (iterated from its top), then every id `≥ 2` with a
positive refcount (iterated from the highest id down). -/
def seedReach (s : MState) : List Bool × List Nat :=
  (idsDesc s).foldl (rcSeedStep s)
    (((List.range s.pddStack.length).reverse).foldl (stackSeedStep s)
      (List.replicate s.nodes.length false, []))

/-- The post-marking phase of `gc`: sweep unreachable slots, sort the
free list ascending and reverse it, drop completed op-cache entries,
rebuild the unique table from the reachable slots. -/
def gcSweep (s0 : MState) (reach : List Bool) : MState :=
  let s1 := (idsDesc s0).foldl (sweepStep reach) s0
  let s2 := { s1 with freeNodes := (sortAsc s1.freeNodes).reverse }
  let s3 := { s2 with opCache := s2.opCache.filter (fun e => e.result = none) }
  { s3 with
    nodeTable :=
      ((idsDesc s3).filter (fun i => reach.getD i false)).filterMap
        (fun i => s3.nodes.get? i) }

/-- `pdd_manager::gc()`: reset the free list; seed reachability from the
evaluation stack and from every id `≥ 2` with positive refcount; close
over `lo`/`hi`; then sweep.  Fuel meters the marking loop. -/
def gcF (fuel : Nat) (s : MState) : Option MState :=
  let s0 := { s with freeNodes := [] }
  match closeF s0 fuel (seedReach s0).1 (seedReach s0).2 with
  | none => none
  | some reach => some (gcSweep s0 reach)

/-- `try_gc()`: a `gc` followed by flushing the whole op cache. -/
def tryGcF (fuel : Nat) (s : MState) : Option MState :=
  (gcF fuel s).map (fun s => { s with opCache := [] })

/-- `insert_node(n)`.  Outer `none` is fuel exhaustion inside `gc`;
`some none` models `throw mem_out()`; `some (some (i, s'))` returns the
id of the (found or created) node.  Note that the source decides growth
and the ceiling check on `do_gc`, the emptiness of the free list *before*
the collection. -/
def insertNodeF (gfuel : Nat) (s : MState) (n : PNode) :
    Option (Option (Nat × MState)) :=
  let et := tableInsertIfNotThere s.nodeTable n
  if et.1.index ≠ 0 then some (some (et.1.index, { s with nodeTable := et.2 }))
  else
    let s := { s with nodeTable := tableUpdate et.2 n (fun e => { e with refcount := 0 }) }
    let doGc := s.freeNodes.isEmpty
    let afterGc : Option MState :=
      if doGc && !s.disableGc then
        (gcF gfuel s).map (fun s' =>
          let et' := tableInsertIfNotThere s'.nodeTable n
          { s' with nodeTable := tableUpdate et'.2 n (fun e => { e with refcount := 0 }) })
      else some s
    match afterGc with
    | none => none
    | some s =>
      if doGc && decide (s.nodes.length > s.maxNodes) then some none
      else
        let s := if doGc then allocFreeNodes s (s.nodes.length / 2) else s
        let result := s.freeNodes.getLastD 0
        let s := { s with freeNodes := s.freeNodes.dropLast }
        let data : PNode := { level := n.level, lo := n.lo, hi := n.hi, refcount := 0, index := result }
        let s := { s with nodeTable := tableUpdate s.nodeTable n (fun e => { e with index := result }),
                          nodes := s.nodes.set result data }
        some (some (result, s))

/-- The intermediate state of `insert_node` after the fresh entry has
been placed in the unique table with its refcount cleared and before the
collection runs (`e->get_data().m_refcount = 0`). -/
def pendingInsert (s : MState) (n : PNode) : MState :=
  { s with nodeTable := tableUpdate (s.nodeTable ++ [n]) n (fun e => { e with refcount := 0 }) }

/-- The state `insert_node` produces on the fast path: unique-table miss
with a non-empty free list (no collection, no growth): pop the back of
the free list, point the table entry at it and write the node record. -/
def insertedState (s : MState) (n : PNode) : MState :=
  { s with
    nodeTable := tableUpdate (tableUpdate (s.nodeTable ++ [n]) n (fun e => { e with refcount := 0 })) n (fun e => { e with index := s.freeNodes.getLastD 0 }),
    freeNodes := s.freeNodes.dropLast,
    nodes := s.nodes.set (s.freeNodes.getLastD 0) { level := n.level, lo := n.lo, hi := n.hi, refcount := 0, index := s.freeNodes.getLastD 0 } }

/-- `init_value(info, r)`: take a value slot from the free list (its back)
or extend the pool, freeze `r`, intern the value node and record the
`const_info` in the rational lookup table. -/
def initValueF (gfuel : Nat) (s : MState) (r : ℚ) :
    Option (Option (Nat × MState)) :=
  let vs : Nat × MState :=
    if s.freeValues.isEmpty then
      (s.values.length, { s with values := s.values ++ [r] })
    else
      (s.freeValues.getLastD 0,
       { s with freeValues := s.freeValues.dropLast,
                values := s.values.set (s.freeValues.getLastD 0) r })
  let vi := vs.1
  let s := { vs.2 with freezeValue := r }
  match insertNodeF gfuel s { level := 0, lo := vi, hi := 0, refcount := 0, index := 0 } with
  | none => none
  | some none => some none
  | some (some (ni, s)) =>
      some (some (ni, { s with mpqTable := s.mpqTable ++ [(r, vi, ni)] }))

/-- One iteration of the `reserve_var` loop: create and pin the node
`(v, 0, 1)` for the next variable `v` and extend the three maps. -/
def reserveVarStep (gfuel : Nat) (s : MState) : Option (Option MState) :=
  let v := s.var2level.length
  -- make_node(v, zero_pdd, one_pdd): hi = 1 is not zero, so insert_node
  match insertNodeF gfuel s { level := v, lo := 0, hi := 1, refcount := 0, index := 0 } with
  | none => none
  | some none => some none
  | some (some (id, s)) =>
      some (some { s with
        var2pdd := s.var2pdd ++ [id],
        nodes := s.nodes.set id { (s.nodes.getD id default) with refcount := maxRc },
        var2level := s.var2level ++ [v],
        level2var := s.level2var ++ [v] })

/-- `reserve_var(i)`: run the loop `while (m_var2level.size() <= i)`. -/
def reserveVarF (gfuel : Nat) : Nat → MState → Nat → Option (Option MState)
  | 0, s, _ => some (some s)
  | rfuel+1, s, i =>
    if s.var2level.length ≤ i then
      match reserveVarStep gfuel s with
      | none => none
      | some none => some none
      | some (some s') => reserveVarF gfuel rfuel s' i
    else some (some s)

/-- The `pdd_manager(num_vars)` constructor: preallocate `1024 + num_vars`
free slots, intern the constants 0 and 1 and pin them, append the
`pdd_no_op + 1` dummy sentinel slots, then reserve the variables. -/
def mkManagerF (gfuel : Nat) (numVars : Nat) : Option (Option MState) :=
  let s : MState :=
    { nodes := [], values := [], freeValues := [], mpqTable := [],
      nodeTable := [], freeNodes := [], pddStack := [], opCache := [],
      freezeValue := 0, maxNodes := 2 ^ 24, disableGc := false,
      mod2 := false, var2pdd := [], var2level := [], level2var := [] }
  let s := allocFreeNodes s (1024 + numVars)
  match initValueF gfuel s 0 with
  | none => none
  | some none => some none
  | some (some (_, s)) =>
    match initValueF gfuel s 1 with
    | none => none
    | some none => some none
    | some (some (_, s)) =>
      let s := { s with nodes := s.nodes.set 0 { (s.nodes.getD 0 default) with refcount := maxRc } }
      let s := { s with nodes := s.nodes.set 1 { (s.nodes.getD 1 default) with refcount := maxRc } }
      -- for (unsigned i = 2; i <= pdd_no_op + 2; ++i) push a pinned dummy
      let s := (List.range (pddNoOp + 1)).foldl
        (fun s _ => { s with nodes := s.nodes ++
          [{ level := 0, lo := 0, hi := 0, refcount := maxRc, index := s.nodes.length }] }) s
      -- for (unsigned i = 0; i < num_vars; ++i) reserve_var(i)
      (List.range numVars).foldl
        (fun acc i =>
          match acc with
          | none => none
          | some none => some none
          | some (some s) => reserveVarF gfuel (i + 1) s i)
        (some (some s))

/-- `set_level2var(level2var)`: remap the two vectors; the pinned
`var2pdd` nodes are *not* touched. -/
def setLevel2Var (s : MState) (l2v : List Nat) : MState :=
  (List.range l2v.length).foldl
    (fun s i =>
      let v := l2v.getD i 0
      { s with var2level := s.var2level.set v i,
               level2var := s.level2var.set i v }) s

/-- `to_monomials` read off the node store (used to state GC soundness);
`var(p) = m_level2var[level(p)]`. -/
def toMonF (s : MState) : Nat → Nat → Option (List (ℚ × List Nat))
  | 0, _ => none
  | fuel+1, i =>
    match s.nodes.get? i with
    | none => none
    | some ni =>
      if isValN ni then
        let r := s.values.getD ni.lo 0
        some (if r = 0 then [] else [(r, [])])
      else do
        let mh ← toMonF s fuel ni.hi
        let ml ← toMonF s fuel ni.lo
        some (mh.map (fun m => (m.1, m.2 ++ [s.level2var.getD ni.level 0])) ++ ml)

/-- The failure kinds that can unwind out of `apply_rec`/`minus_rec`:
the `mem_out` thrown by `insert_node`, or any foreign exception
(`other`), which the `catch (const mem_out&)` clause does not match. -/
inductive AErr
  | memOut
  | other
deriving DecidableEq

/-- The retry loop shared by `pdd_manager::apply` and `pdd_manager::minus`
(`while (true) { try { return worker(); } catch (const mem_out&)
{ try_gc(); if (!first) throw; first = false; } }`), over an arbitrary
worker `w` and collector `g`; the counter holds the remaining retries
(the `first` flag corresponds to one remaining retry). -/
def applyLoop (w : σ → Except AErr α × σ) (g : σ → σ) :
    Nat → σ → Except AErr α × σ
  | retries, s =>
    match w s with
    | (.ok v, s') => (.ok v, s')
    | (.error e, s') =>
      if e = .memOut then
        match retries with
        | r + 1 => applyLoop w g r (g s')
        | 0 => (.error .memOut, g s')
      else (.error e, s')

/-- The entry points `apply`/`minus` start with `first = true`: one retry. -/
def applyEntry (w : σ → Except AErr α × σ) (g : σ → σ) (s : σ) :
    Except AErr α × σ :=
  applyLoop w g 1 s

/-! ## Analysis vocabulary

Well-formedness of pdds (the data-model invariants I2/I3 of the spec, which
`make_node` asserts), and the lexicographic order on monomials used to
state the amended leading-term claims.  A monomial is written as its list
of levels in the (weakly) descending order in which the `hi` spine visits
them, exactly what `spine` returns. -/

/-- Invariants I2 and I3 on a pdd tree: no decision node has `hi = 0`,
`lo` is a value or of strictly smaller level, `hi` is a value or of
weakly smaller level. -/
def wfb : PDD → Bool
  | .val _ => true
  | .node lvl l h =>
    wfb l && wfb h && decide (h ≠ pddZero) &&
    (l.isVal || decide (l.level < lvl)) && (h.isVal || decide (h.level ≤ lvl))

/-- Strict lexicographic order on monomials given as descending level
lists; the empty monomial (a constant) is below every variable term and
a higher level dominates. -/
def monLt : List Nat → List Nat → Bool
  | [], [] => false
  | [], _ :: _ => true
  | _ :: _, [] => false
  | a :: s, b :: t => if a = b then monLt s t else decide (a < b)

/-- Inner loop of the monomial product: merge the level `a` followed by
the already-merged `ms` into the second list (structured so that the
whole merge is a structural recursion and computes in the kernel). -/
def monMulA (a : Nat) (ms : List Nat → List Nat) : List Nat → List Nat
  | [] => a :: ms []
  | b :: t => if b ≤ a then a :: ms (b :: t) else b :: monMulA a ms t

/-- The product of two monomials in descending-list form: the sorted
merge of the level lists. -/
def monMul : List Nat → List Nat → List Nat
  | [], t => t
  | a :: s, t => monMulA a (monMul s) t

/-- Inner loop of the monomial lcm (structured like `monMulA`). -/
def monLcmA (a : Nat) (ms : List Nat → List Nat) : List Nat → List Nat
  | [] => a :: ms []
  | b :: t =>
    if a = b then a :: ms t
    else if b < a then a :: ms (b :: t)
    else b :: monLcmA a ms t

/-- The least common multiple of two monomials in descending-list form:
per level the maximum multiplicity. -/
def monLcm : List Nat → List Nat → List Nat
  | [], t => t
  | a :: s, t => monLcmA a (monLcm s) t

/-- The pdd denoting a single monomial with coefficient 1, for a
descending level list (used to phrase "less than `lcm(lm(a), lm(b))`"
as a comparison the manager's `lt` can be applied to). -/
def monPdd : List Nat → PDD
  | [] => pddOne
  | v :: rest => PDD.node v pddZero (monPdd rest)

/-- Weakly descending level list: the shape of `hi` spines of well-formed
pdds and of the variable lists `common_factors` returns. -/
def desc : List Nat → Bool
  | [] => true
  | [_] => true
  | a :: b :: t => decide (b ≤ a) && desc (b :: t)

/-- The pdd `x^m * c` for a descending level list `m`: the shape of the
monomials the `spoly` folds build from a factor list and a coefficient. -/
def monChain : List Nat → ℚ → PDD
  | [], c => .val c
  | v :: t, c => .node v pddZero (monChain t c)

/-- The leading-term behaviour of `apply_rec` for `pdd_add_op`: the sum
keeps the larger leading term, and on equal leading monomials the leading
coefficients add — or cancel, strictly dropping the leading monomial. -/
def PaddLeadS (u v w : PDD) : Prop :=
  (monLt (spine u) (spine v) = true → spine w = spine v ∧ lc w = lc v) ∧
  (monLt (spine v) (spine u) = true → spine w = spine u ∧ lc w = lc u) ∧
  (spine u = spine v →
    (lc u + lc v = 0 → w = pddZero ∨ monLt (spine w) (spine u) = true) ∧
    (lc u + lc v ≠ 0 → spine w = spine u ∧ lc w = lc u + lc v))

/-- Reachability in the node store from a root id, following `lo`/`hi`
of decision nodes — the set `gc` must preserve. -/
inductive ReachRel (s : MState) (root : Nat) : Nat → Prop
  | refl : ReachRel s root root
  | toLo {i} (n : PNode) (h : ReachRel s root i)
      (hn : s.nodes.get? i = some n) (hv : isValN n = false) :
      ReachRel s root n.lo
  | toHi {i} (n : PNode) (h : ReachRel s root i)
      (hn : s.nodes.get? i = some n) (hv : isValN n = false) :
      ReachRel s root n.hi

/-- The concrete state used to exercise `insert_node` out of memory: the
two constants, one unreferenced garbage node, an empty free list and a
node ceiling of 2 (already exceeded by the three slots). -/
def cexState : MState :=
  { nodes := [⟨0, 0, 0, maxRc, 0⟩, ⟨0, 1, 0, maxRc, 1⟩, ⟨1, 0, 1, 0, 2⟩],
    values := [0, 1], freeValues := [], mpqTable := [(0, 0, 0), (1, 1, 1)],
    nodeTable := [⟨0, 0, 0, maxRc, 0⟩, ⟨0, 1, 0, maxRc, 1⟩, ⟨1, 0, 1, 0, 2⟩],
    freeNodes := [], pddStack := [], opCache := [], freezeValue := 0,
    maxNodes := 2, disableGc := false, mod2 := false,
    var2pdd := [], var2level := [], level2var := [] }

/-- `cexState` with a high ceiling, exercising the growth branch of
`insert_node`. -/
def growState : MState := { cexState with maxNodes := 100 }

/-- A small state with one free slot (id 3) and no variables yet, used
to witness the `reserve_var` characterisation. -/
def reserveState : MState :=
  { nodes := [⟨0, 0, 0, maxRc, 0⟩, ⟨0, 1, 0, maxRc, 1⟩, ⟨1, 0, 1, 0, 2⟩, ⟨0, 0, 0, 0, 3⟩],
    values := [0, 1], freeValues := [], mpqTable := [(0, 0, 0), (1, 1, 1)],
    nodeTable := [⟨0, 0, 0, maxRc, 0⟩, ⟨0, 1, 0, maxRc, 1⟩, ⟨1, 0, 1, 0, 2⟩],
    freeNodes := [3], pddStack := [], opCache := [], freezeValue := 0,
    maxNodes := 100, disableGc := false, mod2 := false,
    var2pdd := [], var2level := [], level2var := [] }

/-- A live three-variable state for the GC-soundness witness: node 2 is a
refcounted handle root `x_1`, node 3 an unreachable value node. -/
def gcWitState : MState :=
  { nodes := [⟨0, 0, 0, maxRc, 0⟩, ⟨0, 1, 0, maxRc, 1⟩, ⟨1, 0, 1, 1, 2⟩, ⟨0, 2, 0, 0, 3⟩],
    values := [0, 1, 5], freeValues := [], mpqTable := [(0, 0, 0), (1, 1, 1), (5, 2, 3)],
    nodeTable := [⟨0, 0, 0, maxRc, 0⟩, ⟨0, 1, 0, maxRc, 1⟩, ⟨1, 0, 1, 1, 2⟩, ⟨0, 2, 0, 0, 3⟩],
    freeNodes := [], pddStack := [], opCache := [], freezeValue := 0,
    maxNodes := 100, disableGc := false, mod2 := false,
    var2pdd := [], var2level := [0, 1], level2var := [0, 1] }

/-! ## Theorems -/

/-- C10: `sub(a, b)` is by construction `apply(a, minus(b), pdd_add_op)`,
i.e. `add(a, minus(b))`; and since `minus` is the identity in mod-2 mode,
`sub` coincides with `add` there. -/
theorem sub_is_add_of_minus :
    (∀ (md : Bool) (fuel : Nat) (a b : PDD),
        psub md fuel a b = padd md fuel a (pminus md b)) ∧
    (∀ (fuel : Nat) (a b : PDD), psub true fuel a b = padd true fuel a b) := by
  refine ⟨fun _ _ _ _ => rfl, fun fuel a b => ?_⟩
  simp [psub, pminus]

/-- C5: the retry loop of `apply`/`minus`: a first out-of-memory runs
`try_gc` and retries the worker exactly once; an out-of-memory on the
retry is propagated (after the handler's `try_gc`); any other failure is
propagated immediately from either attempt without being caught. -/
theorem apply_retries_once (σ α : Type) (w : σ → Except AErr α × σ)
    (g : σ → σ) (s : σ) :
    applyEntry w g s =
      match w s with
      | (.ok v, s₁) => (.ok v, s₁)
      | (.error .other, s₁) => (.error .other, s₁)
      | (.error .memOut, s₁) =>
        match w (g s₁) with
        | (.ok v, s₂) => (.ok v, s₂)
        | (.error .other, s₂) => (.error .other, s₂)
        | (.error .memOut, s₂) => (.error .memOut, g s₂) := by
  unfold applyEntry
  unfold applyLoop
  rcases h1 : w s with ⟨r1, s₁⟩
  cases r1 with
  | ok v => rfl
  | error e =>
    cases e with
    | other => simp
    | memOut =>
      simp only [reduceCtorEq, if_pos rfl]
      unfold applyLoop
      rcases h2 : w (g s₁) with ⟨r2, s₂⟩
      cases r2 with
      | ok v => rfl
      | error e2 => cases e2 <;> simp

/-- The loop of `reduce_on_match` never terminates when the divisor is a
value node: `lm_divides` of a value against anything is `true`, so the
guard never clears (once `a` reaches 0 it stays there). -/
theorem reduceOnMatch_val_divisor_none :
    ∀ (f : Nat) (a : PDD) (c : ℚ), reduceOnMatch f a (PDD.val c) = none := by
  intro f
  induction f with
  | zero => intro a c; rfl
  | succ f ih =>
    intro a c
    have hdiv : lmDivides (PDD.val c) a = true := by cases a <;> rfl
    unfold reduceOnMatch
    rw [hdiv]
    simp only [if_true]
    cases hq : ltQuotient (f + 1) (PDD.val c) a with
    | none => simp [hq]
    | some q =>
      cases hr : pmulQ (f + 1) q (PDD.val c) with
      | none => simp [hq, hr]
      | some r =>
        cases ha : padd false (f + 1) a r with
        | none => simp [hq, hr, ha]
        | some a' => simp [hq, hr, ha, ih]

/-- C2: `reduce(mk_var(0), mk_val(2))` — a nonzero divisor — never
returns: `apply_rec` reaches `reduce_on_match(v0, val 2)` (violating its
assertion `!is_val(b)`), whose loop guard `lm_divides(b, a)` is
identically true for a value `b`, so no fuel suffices. -/
theorem reduce_val_divisor_diverges :
    ∀ fuel : Nat, preduce fuel (mkVar 0) (PDD.val 2) = none := by
  intro fuel
  cases fuel with
  | zero => rfl
  | succ f =>
    unfold preduce
    simp only [mkVar]
    rw [if_neg (by decide), if_neg (by decide), if_neg (by decide),
        if_neg (by decide)]
    exact reduceOnMatch_val_divisor_none f _ 2

unseal Rat.add Rat.mul in
/-- C1: in Q-mode, `(v0 + 1) · (v0 + 1)` has exactly the monomials
`v0·v0 + 2·v0 + 1`.  In mod-2 mode the same product never completes in
the model: the equal-level branch executes `read(3)` having pushed a
single value onto an empty evaluation stack, an out-of-bounds read
(undefined behaviour in C++); the comment in the source says the value
read should be `bd`, which would give `v0·v0 + 1`. -/
theorem square_of_v0_plus_one :
    (((padd false 10 (mkVar 0) pddOne).bind fun p => pmulQ 20 p p).map
        toMonomials = some [(1, [0, 0]), (2, [0]), (1, [])]) ∧
    padd true 10 (mkVar 0) pddOne = some (PDD.node 0 pddOne pddOne) ∧
    ∀ fuel : Nat,
      pmulM2 fuel (PDD.node 0 pddOne pddOne) (PDD.node 0 pddOne pddOne) []
        = none := by
  refine ⟨by decide, by decide, fun fuel => ?_⟩
  cases fuel with
  | zero => rfl
  | succ f =>
    have hstep :
        pmulM2 (f + 1) (PDD.node 0 pddOne pddOne) (PDD.node 0 pddOne pddOne) []
          = (do
            let bd0 ← pmulM2 f pddOne pddOne []
            let bd ← stackRead [bd0] 3
            let u ← padd true f pddOne pddOne
            let v ← padd true f pddOne pddOne
            let uv ← pmulM2 f v u [v, u, bd0]
            let w ← padd true f uv bd
            some (mkNode 0 bd w)) := rfl
    rw [hstep]
    cases f with
    | zero => rfl
    | succ f' =>
      have h1 : pmulM2 (f' + 1) pddOne pddOne [] = some pddOne := rfl
      rw [h1]
      rfl

/-- The canonical swap is insensitive to argument order except between
two decision nodes of equal level (where neither order swaps), and
between two values (where the callers have already returned). -/
theorem canonSwap_cases (p q : PDD) :
    canonSwap q p = canonSwap p q ∨
    (p.isVal = false ∧ q.isVal = false ∧ p.level = q.level ∧
      canonSwap p q = (p, q) ∧ canonSwap q p = (q, p)) ∨
    (p.isVal = true ∧ q.isVal = true) := by
  cases p with
  | val r =>
    cases q with
    | val s => exact Or.inr (Or.inr ⟨rfl, rfl⟩)
    | node lq ql qh =>
      left
      simp [canonSwap, PDD.isVal, PDD.level]
  | node lp pl ph =>
    cases q with
    | val s =>
      left
      simp [canonSwap, PDD.isVal, PDD.level]
    | node lq ql qh =>
      rcases Nat.lt_trichotomy lp lq with hlt | heq | hgt
      · left
        simp [canonSwap, PDD.isVal, PDD.level, hlt, Nat.not_lt.mpr (Nat.le_of_lt hlt)]
      · subst heq
        right; left
        refine ⟨rfl, rfl, rfl, ?_, ?_⟩ <;> simp [canonSwap, PDD.isVal, PDD.level]
      · left
        simp [canonSwap, PDD.isVal, PDD.level, hgt, Nat.not_lt.mpr (Nat.le_of_lt hgt)]

/-- `add` is insensitive to argument order (C9, `add` part, both modes). -/
theorem padd_comm (md : Bool) :
    ∀ (f : Nat) (p q : PDD), padd md f p q = padd md f q p := by
  intro f
  induction f with
  | zero => intro p q; rfl
  | succ f ih =>
    intro p q
    by_cases hp : p = pddZero
    · subst hp
      by_cases hq : q = pddZero <;> simp [padd, hq]
    · by_cases hq : q = pddZero
      · subst hq
        simp [padd, hp]
      · by_cases hv : (p.isVal && q.isVal) = true
        · have hv' : (q.isVal && p.isVal) = true := by
            rw [Bool.and_comm]; exact hv
          simp only [padd, if_neg hp, if_neg hq, hv, hv', if_true]
          rw [Rat.add_comm]
        · have hv' : ¬((q.isVal && p.isVal) = true) := by
            rw [Bool.and_comm]; exact hv
          simp only [padd, if_neg hp, if_neg hq, if_neg hv, if_neg hv']
          rcases canonSwap_cases p q with hcs | ⟨hpv, hqv, hlv, h1, h2⟩ | ⟨hp1, hq1⟩
          · rw [hcs]
          · rw [h1, h2]
            simp only [hqv, hpv, Bool.false_eq_true, if_false, hlv,
              eq_self_iff_true, if_true]
            rw [ih p.lo q.lo, ih p.hi q.hi]
          · exact absurd (by rw [hp1, hq1]; rfl) hv

/-- Independent `Option` computations commute across `bind`. -/
theorem optBind_comm {α β γ : Type} (a : Option α) (b : Option β)
    (k : α → β → Option γ) :
    (a.bind fun x => b.bind fun y => k x y)
      = b.bind fun y => a.bind fun x => k x y := by
  cases a <;> cases b <;> rfl

/-- Both orders of the four partial products feed the equal-level Q-mode
combination identically (the middle two binds commute, and the inner
`add` takes its operands in either order). -/
theorem mulEqLevel_comm (f : Nat) (A B C D : Option PDD) (lv : Nat) :
    (do
      let ac ← A
      let ad ← C
      let bc ← B
      let bd ← D
      let n ← padd false f ad bc
      if !n.isVal && n.level = lv then do
        let h ← padd false f ac n.hi
        some (mkNode lv bd (mkNode lv n.lo h))
      else some (mkNode lv bd (mkNode lv n ac)))
    = (do
      let ac ← A
      let ad ← B
      let bc ← C
      let bd ← D
      let n ← padd false f ad bc
      if !n.isVal && n.level = lv then do
        let h ← padd false f ac n.hi
        some (mkNode lv bd (mkNode lv n.lo h))
      else some (mkNode lv bd (mkNode lv n ac))) := by
  cases A <;> cases B <;> cases C <;> cases D <;> simp
  rw [padd_comm]

/-- Q-mode `mul` is insensitive to argument order (C9, `mul` part). -/
theorem pmulQ_comm : ∀ (f : Nat) (p q : PDD), pmulQ f p q = pmulQ f q p := by
  intro f
  induction f with
  | zero => intro p q; rfl
  | succ f ih =>
    intro p q
    by_cases hp0 : p = pddZero
    · subst hp0
      by_cases hq0 : q = pddZero <;> simp [pmulQ, hq0]
    · by_cases hq0 : q = pddZero
      · subst hq0
        simp [pmulQ, hp0]
      · by_cases hp1 : p = pddOne
        · subst hp1
          by_cases hq1 : q = pddOne
          · subst hq1; rfl
          · simp [pmulQ, hp0, hq0, hq1]
        · by_cases hq1 : q = pddOne
          · subst hq1
            simp [pmulQ, hp0, hq0, hp1]
          · by_cases hv : (p.isVal && q.isVal) = true
            · have hv' : (q.isVal && p.isVal) = true := by
                rw [Bool.and_comm]; exact hv
              simp [pmulQ, hp0, hq0, hp1, hq1, hv, hv', Rat.mul_comm]
            · have hv' : ¬((q.isVal && p.isVal) = true) := by
                rw [Bool.and_comm]; exact hv
              simp only [pmulQ, hp0, hq0, hp1, hq1, hv, hv',
                Bool.false_eq_true, if_false]
              rcases canonSwap_cases p q with hcs | ⟨hpv, hqv, hlv, h1, h2⟩
                  | ⟨hp1v, hq1v⟩
              · rw [hcs]
              · rw [h1, h2]
                simp only [hqv, hpv, Bool.false_eq_true, if_false, hlv,
                  eq_self_iff_true, if_true]
                rw [ih q.hi p.hi, ih q.hi p.lo, ih q.lo p.hi, ih q.lo p.lo]
                exact mulEqLevel_comm f _ _ _ _ q.level
              · exact absurd (by rw [hp1v, hq1v]; rfl) hv

/-- The mod-2 `mul` *model* treats the two argument orders alike on an
empty ambient evaluation stack: branches that would consult the deeper
stack die on the out-of-bounds `read(3)` in both orders.  (This is a
fact about the model only — both sides being `none` encodes undefined
behaviour, not a defined common result.) -/
theorem pmulM2_comm_nil :
    ∀ (f : Nat) (p q : PDD), pmulM2 f p q [] = pmulM2 f q p [] := by
  intro f
  induction f with
  | zero => intro p q; rfl
  | succ f ih =>
    intro p q
    by_cases hp0 : p = pddZero
    · subst hp0
      by_cases hq0 : q = pddZero <;> simp [pmulM2, hq0]
    · by_cases hq0 : q = pddZero
      · subst hq0
        simp [pmulM2, hp0]
      · by_cases hp1 : p = pddOne
        · subst hp1
          by_cases hq1 : q = pddOne
          · subst hq1; rfl
          · simp [pmulM2, hp0, hq0, hq1]
        · by_cases hq1 : q = pddOne
          · subst hq1
            simp [pmulM2, hp0, hq0, hp1]
          · by_cases hv : (p.isVal && q.isVal) = true
            · have hv' : (q.isVal && p.isVal) = true := by
                rw [Bool.and_comm]; exact hv
              simp [pmulM2, hp0, hq0, hp1, hq1, hv, hv', Rat.mul_comm]
            · have hv' : ¬((q.isVal && p.isVal) = true) := by
                rw [Bool.and_comm]; exact hv
              simp only [pmulM2, hp0, hq0, hp1, hq1, hv, hv',
                Bool.false_eq_true, if_false]
              rcases canonSwap_cases p q with hcs | ⟨hpv, hqv, hlv, h1, h2⟩
                  | ⟨hp1v, hq1v⟩
              · rw [hcs]
              · rw [h1, h2]
                simp only [hqv, hpv, Bool.false_eq_true, if_false, hlv,
                  eq_self_iff_true, if_true]
                rw [ih q.lo p.lo]
                have hsr : ∀ x : PDD, stackRead [x] 3 = none := fun _ => rfl
                simp [hsr]
              · exact absurd (by rw [hp1v, hq1v]; rfl) hv

/-- On an empty ambient stack, the mod-2 multiplication of `x0` by
itself reaches the equal-level branch, whose `read(3)` right after a
single push is out of bounds: the model yields no result at any fuel. -/
theorem pmulM2_square_none :
    ∀ f, pmulM2 f (mkVar 0) (mkVar 0) [] = none := by
  intro f
  cases f with
  | zero => rfl
  | succ f =>
    rw [pmulM2]
    rw [if_neg (by decide), if_neg (by decide), if_neg (by decide),
      if_neg (by decide)]
    rw [(by decide : canonSwap (mkVar 0) (mkVar 0) = (mkVar 0, mkVar 0))]
    show (do
        let bd0 ← pmulM2 f pddZero pddZero []
        let bd ← stackRead (bd0 :: ([] : List PDD)) 3
        let u ← padd true f pddOne pddZero
        let v ← padd true f pddOne pddZero
        let uv ← pmulM2 f v u (v :: u :: bd0 :: [])
        let w ← padd true f uv bd
        some (mkNode 0 bd w)) = none
    cases hbd0 : pmulM2 f pddZero pddZero [] with
    | none => rfl
    | some bd0 => rfl

unseal Rat.add Rat.mul Rat.inv in
/-- C9 as stated fails in mod-2 mode: for `a = b = x0` (an equal-level
pair), the mod-2 `mul` executes `read(3)` after a single push on the
empty evaluation stack of the public entry — an out-of-bounds read, so
no defined handle is returned in either argument order; the same pair
multiplies fine in Q-mode at the same fuel, so the failure is the
branch, not exhaustion. -/
theorem mulM2_square_out_of_frame :
    pmulM2 20 (mkVar 0) (mkVar 0) [] = none ∧
    pmulQ 20 (mkVar 0) (mkVar 0)
      = some (PDD.node 0 pddZero (PDD.node 0 pddZero pddOne)) ∧
    stackRead [pddZero] 3 = none := by
  exact ⟨by decide, by decide, rfl⟩

/-- C9 (amended): `add(a, b)` and `add(b, a)` produce the same canonical
root in both modes, and `mul(a, b)` and `mul(b, a)` produce the same
root in Q-mode.  In mod-2 mode the equal-level branch of `mul` performs
the out-of-bounds `read(3)`, so a pair whose recursion reaches it — such
as `x0 * x0` — produces no defined handle at all in either order (the
model yields no result at any fuel). -/
theorem add_mul_comm_roots_amended :
    (∀ (md : Bool) (f : Nat) (a b : PDD), padd md f a b = padd md f b a) ∧
    (∀ (f : Nat) (a b : PDD), pmulQ f a b = pmulQ f b a) ∧
    (∀ f : Nat, pmulM2 f (mkVar 0) (mkVar 0) [] = none) :=
  ⟨padd_comm, pmulQ_comm, pmulM2_square_none⟩

/-- The coefficients delivered by the `common_factors` walk are the
leading coefficients of the two arguments, gcd-reduced exactly when the
mode is Q and both are integral. -/
theorem cfWalk_coeffs :
    ∀ (md : Bool) (f : Nat) (x y : PDD) (pl ql : List Nat) (hc : Bool)
      (pl' ql' : List Nat) (pc qc : ℚ),
      cfWalk md f x y pl ql hc = some (some (pl', ql', pc, qc)) →
      ((!md && (lc x).isInt && (lc y).isInt) = true →
          pc = lc x / ratGcd (lc x) (lc y) ∧
          qc = lc y / ratGcd (lc x) (lc y)) ∧
      ((!md && (lc x).isInt && (lc y).isInt) = false →
          pc = lc x ∧ qc = lc y) := by
  intro md f
  induction f with
  | zero => intro x y pl ql hc pl' ql' pc qc h; exact absurd h (by simp [cfWalk])
  | succ f ih =>
    intro x y pl ql hc pl' ql' pc qc h
    rw [cfWalk] at h
    by_cases hxy : (x.isVal || y.isVal) = true
    · rw [if_pos hxy] at h
      by_cases hhc : (!hc) = true
      · rw [if_pos hhc] at h; exact absurd h (by simp)
      · rw [if_neg hhc] at h
        by_cases hg : (!md && (lc x).isInt && (lc y).isInt) = true
        · rw [if_pos hg] at h
          simp only [Option.some.injEq, Prod.mk.injEq] at h
          obtain ⟨-, -, h3, h4⟩ := h
          exact ⟨fun _ => ⟨h3.symm, h4.symm⟩,
                 fun hf => absurd hg (by simp [hf])⟩
        · rw [if_neg hg] at h
          simp only [Option.some.injEq, Prod.mk.injEq] at h
          obtain ⟨-, -, h3, h4⟩ := h
          exact ⟨fun ht => absurd ht hg, fun _ => ⟨h3.symm, h4.symm⟩⟩
    · rw [if_neg hxy] at h
      have hx : x.isVal = false := by
        cases hx : x.isVal <;> simp [hx] at hxy ⊢
      have hy : y.isVal = false := by
        cases hy : y.isVal <;> simp [hy] at hxy ⊢
      have hlx : lc x.hi = lc x := by
        cases x with
        | val r => simp [PDD.isVal] at hx
        | node l lo hi => rfl
      have hly : lc y.hi = lc y := by
        cases y with
        | val r => simp [PDD.isVal] at hy
        | node l lo hi => rfl
      by_cases he : x.level = y.level
      · rw [if_pos he] at h
        have := ih x.hi y.hi pl ql true pl' ql' pc qc h
        rwa [hlx, hly] at this
      · rw [if_neg he] at h
        by_cases hgt : x.level > y.level
        · rw [if_pos hgt] at h
          have := ih x.hi y (pl ++ [x.level]) ql hc pl' ql' pc qc h
          rwa [hlx] at this
        · rw [if_neg hgt] at h
          have := ih x y.hi pl (ql ++ [y.level]) hc pl' ql' pc qc h
          rwa [hly] at this

/-- C8 (amended): for nonzero `a`, `b`, when `common_factors` succeeds in
Q-mode the returned coefficients are the leading coefficients of `a` and
`b`, divided by their gcd exactly when both are integers, and returned
unreduced otherwise. -/
theorem commonFactors_coeffs :
    ∀ (f : Nat) (a b : PDD) (pl ql : List Nat) (pc qc : ℚ),
      a ≠ pddZero → b ≠ pddZero →
      commonFactors false f a b = some (some (pl, ql, pc, qc)) →
      (((lc a).isInt && (lc b).isInt) = true →
          pc = lc a / ratGcd (lc a) (lc b) ∧
          qc = lc b / ratGcd (lc a) (lc b)) ∧
      (((lc a).isInt && (lc b).isInt) = false → pc = lc a ∧ qc = lc b) := by
  intro f a b pl ql pc qc _ _ h
  have := cfWalk_coeffs false f a b [] [] false pl ql pc qc h
  simpa using this

unseal Rat.add Rat.mul Rat.inv in
/-- Witness for the amended C8 at `a = 2·v0`, `b = 4·v0`: the integer
leading coefficients 2 and 4 come back divided by their gcd 2. -/
theorem commonFactors_coeffs_witness :
    commonFactors false 10 (PDD.node 0 pddZero (PDD.val 2))
        (PDD.node 0 pddZero (PDD.val 4)) = some (some ([], [], 1, 2)) ∧
    (1 : ℚ) = lc (PDD.node 0 pddZero (PDD.val 2)) /
        ratGcd (lc (PDD.node 0 pddZero (PDD.val 2)))
          (lc (PDD.node 0 pddZero (PDD.val 4))) := by
  have h := commonFactors_coeffs 10 (PDD.node 0 pddZero (PDD.val 2))
    (PDD.node 0 pddZero (PDD.val 4)) [] [] 1 2 (by decide) (by decide)
    (by decide)
  exact ⟨by decide, (h.1 (by decide)).1⟩

/-- A property preserved by every step of a fold is preserved by the
whole fold. -/
theorem foldl_preserve {α β : Type} (P : β → Prop) (f : β → α → β)
    (hf : ∀ b a, P b → P (f b a)) :
    ∀ (l : List α) (b : β), P b → P (l.foldl f b) := by
  intro l
  induction l with
  | nil => intro b hb; exact hb
  | cons a l ih => intro b hb; exact ih (f b a) (hf b a hb)

/-- One sweep step only rewrites a node slot in place: lengths and all
fields other than `nodes`, `freeValues`, `mpqTable`, `freeNodes` are kept. -/
theorem sweepStep_fields (reach : List Bool) (acc : MState) (i : Nat) :
    (sweepStep reach acc i).nodes.length = acc.nodes.length ∧
    (sweepStep reach acc i).maxNodes = acc.maxNodes ∧
    (sweepStep reach acc i).disableGc = acc.disableGc ∧
    (sweepStep reach acc i).values = acc.values ∧
    (sweepStep reach acc i).level2var = acc.level2var ∧
    (sweepStep reach acc i).var2level = acc.var2level ∧
    (sweepStep reach acc i).var2pdd = acc.var2pdd ∧
    (sweepStep reach acc i).mod2 = acc.mod2 ∧
    (sweepStep reach acc i).pddStack = acc.pddStack := by
  unfold sweepStep
  split
  · simp
  · split
    · simp
    · split
      · simp
      · split <;> simp [List.length_set]

/-- `gc` does not change the size of the node store, the configuration
fields, the value pool, or the variable maps. -/
theorem gcF_preserves {f : Nat} {s s' : MState} (h : gcF f s = some s') :
    s'.nodes.length = s.nodes.length ∧ s'.maxNodes = s.maxNodes ∧
    s'.disableGc = s.disableGc ∧ s'.values = s.values ∧
    s'.level2var = s.level2var ∧ s'.var2level = s.var2level ∧
    s'.var2pdd = s.var2pdd ∧ s'.mod2 = s.mod2 := by
  unfold gcF at h
  dsimp only [] at h
  split at h
  · exact absurd h (by simp)
  · rename_i reach hc
    simp only [Option.some.injEq] at h
    subst h
    unfold gcSweep
    have := foldl_preserve
      (fun acc : MState =>
        acc.nodes.length = s.nodes.length ∧ acc.maxNodes = s.maxNodes ∧
        acc.disableGc = s.disableGc ∧ acc.values = s.values ∧
        acc.level2var = s.level2var ∧ acc.var2level = s.var2level ∧
        acc.var2pdd = s.var2pdd ∧ acc.mod2 = s.mod2)
      (sweepStep reach)
      (fun b a hb => by
        obtain ⟨e1, e2, e3, e4, e5, e6, e7, e8⟩ := hb
        obtain ⟨g1, g2, g3, g4, g5, g6, g7, g8, -⟩ := sweepStep_fields reach b a
        exact ⟨g1.trans e1, g2.trans e2, g3.trans e3, g4.trans e4,
               g5.trans e5, g6.trans e6, g7.trans e7, g8.trans e8⟩)
      (idsDesc { s with freeNodes := [] }) { s with freeNodes := [] }
      ⟨rfl, rfl, rfl, rfl, rfl, rfl, rfl, rfl⟩
    simpa using this

/-- C6 (amended): when `insert_node` misses the unique table and finds
the free list empty (`do_gc`), it runs `gc` (GC enabled); then —
regardless of whether the collection freed slots — it raises out of
memory exactly when the node store already holds more than
`max_num_nodes` slots, and otherwise appends 50% more slots and
completes. -/
theorem insertNode_gc_ceiling
    (g : Nat) (s : MState) (n : PNode) (s₂ : MState)
    (hidx : n.index = 0)
    (hfind : s.nodeTable.find? (fun e => nodeKeyEq e n) = none)
    (hfree : s.freeNodes = [])
    (hdg : s.disableGc = false)
    (hgc : gcF g (pendingInsert s n) = some s₂) :
    (s.maxNodes < s.nodes.length → insertNodeF g s n = some none) ∧
    (s.nodes.length ≤ s.maxNodes →
      ∃ (id : Nat) (s' : MState),
        insertNodeF g s n = some (some (id, s')) ∧
        s'.nodes.length = s.nodes.length + s.nodes.length / 2) := by
  obtain ⟨hL, hM, -, -, -, -, -, -⟩ := gcF_preserves hgc
  simp only [pendingInsert] at hL hM
  unfold pendingInsert at hgc
  rw [hfree, hdg] at hgc
  have hins : tableInsertIfNotThere s.nodeTable n = (n, s.nodeTable ++ [n]) := by
    unfold tableInsertIfNotThere
    rw [hfind]
  unfold insertNodeF
  rw [hins]
  dsimp only []
  rw [if_neg (by simp [hidx])]
  simp only [hfree, hdg, List.isEmpty_nil, Bool.not_false, Bool.and_self,
    if_true, hgc, Option.map_some']
  dsimp only []
  constructor
  · intro hover
    rw [if_pos]
    simp only [Bool.true_and, decide_eq_true_eq, gt_iff_lt]
    rw [hL, hM]
    exact hover
  · intro hunder
    rw [if_neg]
    · refine ⟨_, _, rfl, ?_⟩
      simp [allocFreeNodes, List.length_set, hL]
    · simp only [Bool.true_and, decide_eq_true_eq, gt_iff_lt, not_lt]
      rw [hL, hM]
      exact hunder

/-- C6 as stated is false: in `cexState` the free list is empty and the
store holds 3 slots against a ceiling of 2; the collection run by
`insert_node` frees slot 2, so a free slot *does* exist and the claim
says the insertion must succeed without raising out-of-memory — but the
source checks the pre-collection flag and the current store size, and
throws `mem_out` anyway. -/
theorem insertNode_memout_despite_freed_slot :
    insertNodeF 20 cexState ⟨2, 0, 1, 0, 0⟩ = some none ∧
    (gcF 20 (pendingInsert cexState ⟨2, 0, 1, 0, 0⟩)).map MState.freeNodes
      = some [2] := by
  exact ⟨by decide, by decide⟩

/-- Witness for the amended C6: with the ceiling raised to 100 the same
insertion grows the pool by 50% (3 slots to 4) and succeeds. -/
theorem insertNode_gc_ceiling_witness :
    ∃ (id : Nat) (s' : MState),
      insertNodeF 20 growState ⟨2, 0, 1, 0, 0⟩ = some (some (id, s')) ∧
      s'.nodes.length = 4 := by
  obtain ⟨s₂, hgc⟩ :
      ∃ s₂, gcF 20 (pendingInsert growState ⟨2, 0, 1, 0, 0⟩) = some s₂ :=
    ⟨_, rfl⟩
  obtain ⟨id, s', h1, h2⟩ :=
    (insertNode_gc_ceiling 20 growState ⟨2, 0, 1, 0, 0⟩ s₂ (by decide)
      (by decide) rfl rfl hgc).2 (by decide)
  exact ⟨id, s', h1, by rw [h2]; decide⟩

/-- Appending one element and reading at the old length returns it. -/
theorem getD_concat_self {α : Type} (l : List α) (x : α) (d : α) :
    (l ++ [x]).getD l.length d = x := by
  induction l with
  | nil => rfl
  | cons a l ih => simp only [List.cons_append, List.length_cons, List.getD_cons_succ]; exact ih

/-- The back of a non-empty vector is one of its elements. -/
theorem getLastD_mem {α : Type} (l : List α) (d : α) (h : l ≠ []) :
    l.getLastD d ∈ l := by
  induction l with
  | nil => exact absurd rfl h
  | cons a l ih =>
    cases l with
    | nil => simp [List.getLastD]
    | cons b l => simpa using Or.inr (ih (by simp))

/-- Reading back an in-bounds write. -/
theorem getD_set_self {α : Type} (l : List α) (i : Nat) (a d : α)
    (h : i < l.length) : (l.set i a).getD i d = a := by
  induction l generalizing i with
  | nil => simp at h
  | cons b l ih =>
    cases i with
    | zero => rfl
    | succ i => simpa using ih i (by simpa using h)

/-- `get?` of an in-bounds write. -/
theorem get?_set_self {α : Type} (l : List α) (i : Nat) (a : α)
    (h : i < l.length) : (l.set i a).get? i = some a := by
  induction l generalizing i with
  | nil => simp at h
  | cons b l ih =>
    cases i with
    | zero => rfl
    | succ i => simpa using ih i (by simpa using h)

/-- `insert_node` on the fast path returns the popped id and
`insertedState`. -/
theorem insertNode_no_gc (g : Nat) (s : MState) (n : PNode)
    (hidx : n.index = 0)
    (hfind : s.nodeTable.find? (fun e => nodeKeyEq e n) = none)
    (hfree : s.freeNodes.isEmpty = false) :
    insertNodeF g s n
      = some (some (s.freeNodes.getLastD 0, insertedState s n)) := by
  have hins : tableInsertIfNotThere s.nodeTable n = (n, s.nodeTable ++ [n]) := by
    unfold tableInsertIfNotThere
    rw [hfind]
  unfold insertNodeF
  rw [hins]
  dsimp only []
  rw [if_neg (by simp [hidx])]
  simp only [hfree, Bool.false_and, Bool.false_eq_true, if_false]
  rfl

/-- C7 (amended): a fresh `reserve_var` iteration creates the pinned node
`(v, 0, 1)` with `refcount = max_rc` and records `var2level[v] = v`, the
level of the node *at reservation time*; and `set_level2var` rewrites
only the two maps, leaving `var2pdd` and every node record unchanged —
so after a non-identity permutation the claimed equality
`level(var2pdd[v]) = var2level[v]` no longer holds. -/
theorem reserve_var_pins_node :
    (∀ (g : Nat) (s s' : MState),
      s.nodeTable.find? (fun e =>
        nodeKeyEq e ⟨s.var2level.length, 0, 1, 0, 0⟩) = none →
      s.freeNodes.isEmpty = false →
      (∀ i ∈ s.freeNodes, i < s.nodes.length) →
      s.var2pdd.length = s.var2level.length →
      reserveVarStep g s = some (some s') →
      s'.var2level.getD s.var2level.length 0 = s.var2level.length ∧
      s'.nodes.get? (s'.var2pdd.getD s.var2level.length 0) =
        some ⟨s.var2level.length, 0, 1, maxRc,
              s'.var2pdd.getD s.var2level.length 0⟩) ∧
    (∀ (s : MState) (l2v : List Nat),
      (setLevel2Var s l2v).nodes = s.nodes ∧
      (setLevel2Var s l2v).var2pdd = s.var2pdd) := by
  constructor
  · intro g s s' hfind hfree hfb halign hstep
    unfold reserveVarStep at hstep
    dsimp only [] at hstep
    rw [insertNode_no_gc g s ⟨s.var2level.length, 0, 1, 0, 0⟩ rfl hfind hfree]
      at hstep
    dsimp only [] at hstep
    simp only [Option.some.injEq] at hstep
    subst hstep
    have hresult : s.freeNodes.getLastD 0 < s.nodes.length :=
      hfb _ (getLastD_mem _ _ (by
        intro hnil
        rw [hnil] at hfree
        exact absurd hfree (by simp)))
    have hpdd : (s.var2pdd ++ [s.freeNodes.getLastD 0]).getD
        s.var2level.length 0 = s.freeNodes.getLastD 0 := by
      rw [← halign]
      exact getD_concat_self _ _ _
    constructor
    · exact getD_concat_self _ _ _
    · dsimp only [insertedState]
      rw [hpdd]
      have hlen1 : s.freeNodes.getLastD 0 <
          (s.nodes.set (s.freeNodes.getLastD 0)
            { level := s.var2level.length, lo := 0, hi := 1, refcount := 0,
              index := s.freeNodes.getLastD 0 }).length := by
        rw [List.length_set]
        exact hresult
      have hget : (s.nodes.set (s.freeNodes.getLastD 0)
          { level := s.var2level.length, lo := 0, hi := 1, refcount := 0,
            index := s.freeNodes.getLastD 0 }).getD
          (s.freeNodes.getLastD 0) default =
          { level := s.var2level.length, lo := 0, hi := 1, refcount := 0,
            index := s.freeNodes.getLastD 0 } :=
        getD_set_self _ _ _ _ hresult
      rw [hget]
      exact get?_set_self _ _ _ hlen1
  · intro s l2v
    have := foldl_preserve
      (fun acc : MState => acc.nodes = s.nodes ∧ acc.var2pdd = s.var2pdd)
      (fun acc i =>
        { acc with var2level := acc.var2level.set (l2v.getD i 0) i,
                   level2var := acc.level2var.set i (l2v.getD i 0) })
      (fun b a hb => hb) (List.range l2v.length) s ⟨rfl, rfl⟩
    exact this

/-- Witness for the `reserve_var` part of the amended C7, at a state with
one free slot and no variables: the new variable 0 is pinned at node 3
with level 0 = var2level[0]. -/
theorem reserve_var_pins_node_witness :
    ∃ s' : MState, reserveVarStep 10 reserveState = some (some s') ∧
      s'.var2level.getD 0 0 = 0 ∧
      s'.nodes.get? (s'.var2pdd.getD 0 0) =
        some ⟨0, 0, 1, maxRc, s'.var2pdd.getD 0 0⟩ := by
  obtain ⟨s', hs⟩ : ∃ s', reserveVarStep 10 reserveState = some (some s') :=
    ⟨_, rfl⟩
  have h := reserve_var_pins_node.1 10 reserveState s' (by decide) (by decide)
    (by decide) rfl hs
  exact ⟨s', hs, h.1, h.2⟩

set_option maxRecDepth 10000 in
/-- C7 as stated is false once `set_level2var` has permuted the maps: in
the freshly constructed two-variable manager, after
`set_level2var([1, 0])` the pinned node of variable 0 still has level 0
while `var2level[0] = 1`. -/
theorem level_mismatch_after_permutation :
    (mkManagerF 10 2).map (Option.map (fun s =>
      let s2 := setLevel2Var s [1, 0]
      ((s2.nodes.getD (s2.var2pdd.getD 0 0) default).level,
        s2.var2level.getD 0 0))) = some (some (0, 1)) ∧ (0 : Nat) ≠ 1 := by
  exact ⟨by decide, by decide⟩

/-- An in-bounds `getD` ignores its default. -/
theorem getD_lt_irrel {α : Type} (l : List α) (i : Nat) (d d' : α)
    (h : i < l.length) : l.getD i d = l.getD i d' := by
  induction l generalizing i with
  | nil => simp at h
  | cons a l ih =>
    cases i with
    | zero => rfl
    | succ i =>
      simp only [List.getD_cons_succ]
      exact ih i (by simpa using h)

/-- An in-bounds `getD` picks a member of the list. -/
theorem getD_mem {α : Type} (l : List α) (i : Nat) (d : α)
    (h : i < l.length) : l.getD i d ∈ l := by
  induction l generalizing i with
  | nil => simp at h
  | cons a l ih =>
    cases i with
    | zero => simp [List.getD]
    | succ i =>
      simp only [List.getD_cons_succ]
      exact List.mem_cons_of_mem _ (ih i (by simpa using h))

/-- Writing elsewhere does not change a read. -/
theorem getD_set_ne {α : Type} (l : List α) (i j : Nat) (a d : α)
    (h : i ≠ j) : (l.set j a).getD i d = l.getD i d := by
  induction l generalizing i j with
  | nil => rfl
  | cons b l ih =>
    cases j with
    | zero =>
      cases i with
      | zero => exact absurd rfl h
      | succ i => rfl
    | succ j =>
      cases i with
      | zero => rfl
      | succ i =>
        simp only [List.set, List.getD_cons_succ]
        exact ih i j (fun e => h (by rw [e]))

/-- An out-of-bounds write is a no-op. -/
theorem set_oob {α : Type} (l : List α) (j : Nat) (a : α)
    (h : l.length ≤ j) : l.set j a = l := by
  induction l generalizing j with
  | nil => rfl
  | cons b l ih =>
    cases j with
    | zero => simp at h
    | succ j => simp only [List.set]; rw [ih j (by simpa using h)]

/-- Marking is monotone: an already marked id stays marked. -/
theorem marked_mono (W : List Bool) (j i : Nat)
    (h : W.getD i false = true) : (W.set j true).getD i false = true := by
  by_cases hij : i = j
  · subst hij
    by_cases hlt : i < W.length
    · rw [getD_set_self _ _ _ _ hlt]
    · rw [set_oob _ _ _ (Nat.le_of_not_lt hlt)]; exact h
  · rw [getD_set_ne _ _ _ _ _ hij]; exact h

/-- A step property holding for the members of the fold list is enough. -/
theorem foldl_preserve_mem {α β : Type} (P : β → Prop) (f : β → α → β) :
    ∀ (l : List α), (∀ b a, a ∈ l → P b → P (f b a)) →
      ∀ b, P b → P (l.foldl f b) := by
  intro l
  induction l with
  | nil => intro _ b hb; exact hb
  | cons a l ih =>
    intro hf b hb
    exact ih (fun b x hx hbx => hf b x (List.mem_cons_of_mem _ hx) hbx)
      (f b a) (hf b a (List.mem_cons_self _ _) hb)

/-- `markChild` preserves the mark-vector length. -/
theorem markChild_len (rt : List Bool × List Nat) (c : Nat) :
    (markChild rt c).1.length = rt.1.length := by
  unfold markChild
  split
  · rfl
  · simp

/-- `markChild` never clears a mark. -/
theorem markChild_mono (rt : List Bool × List Nat) (c i : Nat)
    (h : rt.1.getD i false = true) : (markChild rt c).1.getD i false = true := by
  unfold markChild
  split
  · exact h
  · exact marked_mono _ _ _ h

/-- After `markChild`, an in-bounds child is marked. -/
theorem markChild_marks (rt : List Bool × List Nat) (c : Nat)
    (h : c < rt.1.length) : (markChild rt c).1.getD c false = true := by
  unfold markChild
  split
  · rename_i hc
    rw [getD_lt_irrel _ _ false true h]
    exact hc
  · exact getD_set_self _ _ _ _ h

/-- `markChild` keeps the todo stack. -/
theorem markChild_todo_sub (rt : List Bool × List Nat) (c j : Nat)
    (h : j ∈ rt.2) : j ∈ (markChild rt c).2 := by
  unfold markChild
  split
  · exact h
  · exact List.mem_cons_of_mem _ h

/-- What `markChild` puts on the todo stack. -/
theorem markChild_todo_char (rt : List Bool × List Nat) (c j : Nat)
    (h : j ∈ (markChild rt c).2) : j = c ∨ j ∈ rt.2 := by
  unfold markChild at h
  split at h
  · exact Or.inr h
  · rcases List.mem_cons.mp h with rfl | h'
    · exact Or.inl rfl
    · exact Or.inr h'

/-- A mark present after `markChild` was present before or is the child. -/
theorem markChild_new (rt : List Bool × List Nat) (c i : Nat)
    (h : (markChild rt c).1.getD i false = true) :
    rt.1.getD i false = true ∨ i = c := by
  unfold markChild at h
  split at h
  · exact Or.inl h
  · by_cases hic : i = c
    · exact Or.inr hic
    · rw [getD_set_ne _ _ _ _ _ hic] at h
      exact Or.inl h

/-- An in-bounds unmarked child gets pushed by `markChild`. -/
theorem markChild_pushed (rt : List Bool × List Nat) (c : Nat)
    (hlt : c < rt.1.length) (h : ¬(rt.1.getD c false = true)) :
    c ∈ (markChild rt c).2 := by
  unfold markChild
  rw [if_neg (by rw [getD_lt_irrel _ _ true false hlt]; exact h)]
  exact List.mem_cons_self _ _

/-- Soundness of the marking loop of `gc`: if everything on the todo
stack is marked and every marked non-value either sits on the todo stack
or has both children marked, then on completion no mark is lost and
every marked non-value has both children marked. -/
theorem closeF_sound (st : MState)
    (hb : ∀ n ∈ st.nodes, n.lo < st.nodes.length ∧ n.hi < st.nodes.length) :
    ∀ (f : Nat) (W : List Bool) (todo : List Nat) (W' : List Bool),
      W.length = st.nodes.length →
      closeF st f W todo = some W' →
      (∀ j ∈ todo, W.getD j false = true) →
      (∀ i n, W.getD i false = true → st.nodes.get? i = some n →
        isValN n = false →
        i ∈ todo ∨ (W.getD n.lo false = true ∧ W.getD n.hi false = true)) →
      (∀ i, W.getD i false = true → W'.getD i false = true) ∧
      (∀ i n, W'.getD i false = true → st.nodes.get? i = some n →
        isValN n = false →
        W'.getD n.lo false = true ∧ W'.getD n.hi false = true) := by
  intro f
  induction f with
  | zero =>
    intro W todo W' _ h
    exact absurd h (by simp [closeF])
  | succ f ih =>
    intro W todo W' hlen h htodo hinv
    cases todo with
    | nil =>
      rw [closeF] at h
      simp only [Option.some.injEq] at h
      subst h
      refine ⟨fun i hi => hi, fun i n hi hn hv => ?_⟩
      rcases hinv i n hi hn hv with hmem | hch
      · exact absurd hmem (List.not_mem_nil i)
      · exact hch
    | cons p rest =>
      rw [closeF] at h
      split at h
      · exact absurd h (by simp)
      · rename_i np hget
        by_cases hval : isValN np = true
        · rw [if_pos hval] at h
          refine ih W rest W' hlen h
            (fun j hj => htodo j (List.mem_cons_of_mem _ hj))
            (fun i n hi hn hv => ?_)
          rcases hinv i n hi hn hv with hmem | hch
          · rcases List.mem_cons.mp hmem with rfl | hmem'
            · rw [hn] at hget
              cases hget
              rw [hval] at hv
              cases hv
            · exact Or.inl hmem'
          · exact Or.inr hch
        · rw [if_neg hval] at h
          dsimp only [] at h
          have hnp : np ∈ st.nodes := List.get?_mem hget
          obtain ⟨hblo, hbhi⟩ := hb np hnp
          have hblo' : np.lo < (W, rest).1.length := by rw [hlen]; exact hblo
          have hlenIn : (markChild (W, rest) np.lo).1.length = W.length :=
            markChild_len _ _
          have hbhi' : np.hi < (markChild (W, rest) np.lo).1.length := by
            rw [hlenIn, hlen]; exact hbhi
          have hlen2 : (markChild (markChild (W, rest) np.lo) np.hi).1.length
              = st.nodes.length := by
            rw [markChild_len, hlenIn, hlen]
          have hmono : ∀ i, W.getD i false = true →
              (markChild (markChild (W, rest) np.lo) np.hi).1.getD i false
                = true :=
            fun i hi => markChild_mono _ _ _ (markChild_mono _ _ _ hi)
          have hlomark :
              (markChild (markChild (W, rest) np.lo) np.hi).1.getD np.lo false
                = true :=
            markChild_mono _ _ _ (markChild_marks _ _ hblo')
          have hhimark :
              (markChild (markChild (W, rest) np.lo) np.hi).1.getD np.hi false
                = true :=
            markChild_marks _ _ hbhi'
          have hintodo : ∀ j ∈ rest,
              j ∈ (markChild (markChild (W, rest) np.lo) np.hi).2 :=
            fun j hj => markChild_todo_sub _ _ _ (markChild_todo_sub _ _ _ hj)
          have hloIn : np.lo ∈ (markChild (markChild (W, rest) np.lo) np.hi).2
              ∨ W.getD np.lo false = true := by
            by_cases hw : W.getD np.lo false = true
            · exact Or.inr hw
            · exact Or.inl (markChild_todo_sub _ _ _
                (markChild_pushed (W, rest) np.lo hblo' hw))
          have htodo2 : ∀ j ∈ (markChild (markChild (W, rest) np.lo) np.hi).2,
              (markChild (markChild (W, rest) np.lo) np.hi).1.getD j false
                = true := by
            intro j hj
            rcases markChild_todo_char _ _ _ hj with rfl | hj1
            · exact hhimark
            · rcases markChild_todo_char _ _ _ hj1 with rfl | hj2
              · exact hlomark
              · exact hmono j (htodo j (List.mem_cons_of_mem _ hj2))
          have hinv2 : ∀ i n,
              (markChild (markChild (W, rest) np.lo) np.hi).1.getD i false
                = true →
              st.nodes.get? i = some n → isValN n = false →
              i ∈ (markChild (markChild (W, rest) np.lo) np.hi).2 ∨
              ((markChild (markChild (W, rest) np.lo) np.hi).1.getD n.lo false
                  = true ∧
               (markChild (markChild (W, rest) np.lo) np.hi).1.getD n.hi false
                  = true) := by
            intro i n hi hn hv
            by_cases hw : W.getD i false = true
            · rcases hinv i n hw hn hv with hmem | hch
              · rcases List.mem_cons.mp hmem with rfl | hmem'
                · rw [hn] at hget
                  cases hget
                  exact Or.inr ⟨hlomark, hhimark⟩
                · exact Or.inl (hintodo _ hmem')
              · exact Or.inr ⟨hmono _ hch.1, hmono _ hch.2⟩
            · left
              rcases markChild_new _ _ _ hi with hi1 | rfl
              · rcases markChild_new _ _ _ hi1 with hi2 | rfl
                · exact absurd hi2 hw
                · rcases hloIn with hmem | hmarked
                  · exact hmem
                  · exact absurd hmarked hw
              · by_cases hin : (markChild (W, rest) np.lo).1.getD np.hi false
                    = true
                · rcases markChild_new _ _ _ hin with hi2 | heq
                  · exact absurd hi2 hw
                  · rcases hloIn with hmem | hmarked
                    · nth_rewrite 2 [heq]
                      exact hmem
                    · rw [heq] at hw
                      exact absurd hmarked hw
                · exact markChild_pushed _ _ hbhi' hin
          obtain ⟨hm, hc⟩ := ih _ _ W' hlen2 h htodo2 hinv2
          exact ⟨fun i hi => hm i (hmono i hi), hc⟩

unseal Rat.add Rat.mul Rat.inv in
/-- C8 as stated fails on non-integer leading coefficients: with
`a = (1/2)·v0` and `b = (1/3)·v0` (they share `v0`, so `common_factors`
returns true), the source skips the gcd reduction entirely and returns
`pc = 1/2, qc = 1/3`, whereas dividing by the rational gcd `1/6` would
give 3 and 2. -/
theorem commonFactors_no_gcd_on_fractions :
    (do
      let a ← pmulQ 20 (PDD.val (1 / 2)) (mkVar 0)
      let b ← pmulQ 20 (PDD.val (1 / 3)) (mkVar 0)
      commonFactors false 30 a b) = some (some ([], [], 1 / 2, 1 / 3)) ∧
    lc (PDD.node 0 pddZero (PDD.val (1 / 2))) = 1 / 2 ∧
    lc (PDD.node 0 pddZero (PDD.val (1 / 3))) = 1 / 3 ∧
    ¬((1 / 2 : ℚ) = (1 / 2 : ℚ) / ratGcd (1 / 2) (1 / 3)) := by
  exact ⟨by decide, by decide, by decide, by decide⟩

/-- After setting one mark, every set mark was either already set or is
the written position. -/
theorem set_true_new (l : List Bool) (j i : Nat)
    (h : (l.set j true).getD i false = true) :
    l.getD i false = true ∨ i = j := by
  by_cases hij : i = j
  · exact Or.inr hij
  · rw [getD_set_ne _ _ _ _ _ hij] at h
    exact Or.inl h

/-- A freshly allocated mark vector is all clear. -/
theorem getD_replicate_false (n i : Nat) :
    (List.replicate n false).getD i false = false := by
  induction n generalizing i with
  | zero => rfl
  | succ n ih =>
    cases i with
    | zero => rfl
    | succ i =>
      simp only [List.replicate_succ, List.getD_cons_succ]
      exact ih i

/-- Reading a slot after writing a different one is unchanged (`get?`
version of `getD_set_ne`). -/
theorem get?_set_ne {α : Type} (l : List α) (i j : Nat) (a : α)
    (h : i ≠ j) : (l.set j a).get? i = l.get? i := by
  induction l generalizing i j with
  | nil => rfl
  | cons b l ih =>
    cases j with
    | zero =>
      cases i with
      | zero => exact absurd rfl h
      | succ i => rfl
    | succ j =>
      cases i with
      | zero => rfl
      | succ i => simpa using ih i j (fun e => h (by rw [e]))

/-- The ids visited by the `gc` loops are exactly `2 ≤ i < size`. -/
theorem idsDesc_bounds (s : MState) (i : Nat) (h : i ∈ idsDesc s) :
    2 ≤ i ∧ i < s.nodes.length := by
  unfold idsDesc at h
  obtain ⟨h1, h2⟩ := List.mem_filter.mp h
  exact ⟨by simpa using h2, List.mem_range.mp (List.mem_reverse.mp h1)⟩

/-- The seeding loops keep the mark vector at the node-store length,
mark everything they push, and push everything they mark. -/
theorem seedReach_inv (s : MState)
    (hstack : ∀ i ∈ s.pddStack, i < s.nodes.length) :
    (seedReach s).1.length = s.nodes.length ∧
    (∀ j ∈ (seedReach s).2, (seedReach s).1.getD j false = true) ∧
    (∀ i, (seedReach s).1.getD i false = true → i ∈ (seedReach s).2) := by
  unfold seedReach
  refine foldl_preserve_mem
    (fun rt : List Bool × List Nat =>
      rt.1.length = s.nodes.length ∧
      (∀ j ∈ rt.2, rt.1.getD j false = true) ∧
      (∀ i, rt.1.getD i false = true → i ∈ rt.2))
    (rcSeedStep s) (idsDesc s) ?_ _ ?_
  · rintro rt a ha ⟨hlen, htm, hmt⟩
    have ha2 : a < s.nodes.length := (idsDesc_bounds s a ha).2
    unfold rcSeedStep
    split
    · refine ⟨by dsimp only; simpa using hlen, ?_, ?_⟩
      · intro j hj
        rcases List.mem_cons.mp hj with rfl | hj'
        · exact getD_set_self _ _ _ _ (by rw [hlen]; exact ha2)
        · exact marked_mono _ _ _ (htm j hj')
      · intro i hi
        rcases set_true_new _ _ _ hi with hi' | rfl
        · exact List.mem_cons_of_mem _ (hmt i hi')
        · exact List.mem_cons_self _ _
    · exact ⟨hlen, htm, hmt⟩
  · refine foldl_preserve_mem
      (fun rt : List Bool × List Nat =>
        rt.1.length = s.nodes.length ∧
        (∀ j ∈ rt.2, rt.1.getD j false = true) ∧
        (∀ i, rt.1.getD i false = true → i ∈ rt.2))
      (stackSeedStep s) ((List.range s.pddStack.length).reverse) ?_ _ ?_
    · rintro rt a ha ⟨hlen, htm, hmt⟩
      have ha2 : a < s.pddStack.length :=
        List.mem_range.mp (List.mem_reverse.mp ha)
      have hid : s.pddStack.getD a 0 < s.nodes.length :=
        hstack _ (getD_mem _ _ _ ha2)
      unfold stackSeedStep
      refine ⟨by dsimp only; simpa using hlen, ?_, ?_⟩
      · intro j hj
        rcases List.mem_cons.mp hj with rfl | hj'
        · exact getD_set_self _ _ _ _ (by rw [hlen]; exact hid)
        · exact marked_mono _ _ _ (htm j hj')
      · intro i hi
        rcases set_true_new _ _ _ hi with hi' | rfl
        · exact List.mem_cons_of_mem _ (hmt i hi')
        · exact List.mem_cons_self _ _
    · refine ⟨by simp, ?_, ?_⟩
      · intro j hj
        exact absurd hj (List.not_mem_nil j)
      · intro i hi
        rw [getD_replicate_false] at hi
        cases hi

/-- The refcount seeding step never clears a mark. -/
theorem rcSeedStep_mono (s : MState) (rt : List Bool × List Nat) (a i : Nat)
    (h : rt.1.getD i false = true) :
    (rcSeedStep s rt a).1.getD i false = true := by
  unfold rcSeedStep
  split
  · exact marked_mono _ _ _ h
  · exact h

/-- Marks survive the whole refcount seeding loop. -/
theorem rcSeed_fold_mono (s : MState) (l : List Nat) :
    ∀ (rt : List Bool × List Nat) (i : Nat), rt.1.getD i false = true →
      (l.foldl (rcSeedStep s) rt).1.getD i false = true := by
  induction l with
  | nil => intro rt i h; exact h
  | cons a l ih => intro rt i h; exact ih _ i (rcSeedStep_mono s rt a i h)

/-- The refcount seeding step keeps the mark vector length. -/
theorem rcSeedStep_len (s : MState) (rt : List Bool × List Nat) (a : Nat) :
    (rcSeedStep s rt a).1.length = rt.1.length := by
  unfold rcSeedStep
  split
  · simp
  · rfl

/-- Every visited id with a positive refcount ends up marked by the
refcount seeding loop. -/
theorem rcSeed_fold_marks (s : MState) (l : List Nat) :
    ∀ rt : List Bool × List Nat, rt.1.length = s.nodes.length →
      ∀ i ∈ l, i < s.nodes.length →
        0 < ((s.nodes.getD i default).refcount) →
        (l.foldl (rcSeedStep s) rt).1.getD i false = true := by
  induction l with
  | nil => intro rt _ i hi; exact absurd hi (List.not_mem_nil i)
  | cons a l ih =>
    intro rt hlen i hi hilt hrc
    rcases List.mem_cons.mp hi with rfl | hi'
    · rw [List.foldl_cons]
      apply rcSeed_fold_mono
      unfold rcSeedStep
      rw [if_pos hrc]
      exact getD_set_self _ _ _ _ (by rw [hlen]; exact hilt)
    · exact ih _ (by rw [rcSeedStep_len]; exact hlen) i hi' hilt hrc

/-- The stack seeding step keeps the mark vector length. -/
theorem stackSeedStep_len (s : MState) (rt : List Bool × List Nat) (a : Nat) :
    (stackSeedStep s rt a).1.length = rt.1.length := by
  unfold stackSeedStep
  simp

/-- The stack seeding loop keeps the mark vector length. -/
theorem stackSeed_fold_len (s : MState) (l : List Nat) :
    ∀ rt : List Bool × List Nat,
      (l.foldl (stackSeedStep s) rt).1.length = rt.1.length := by
  induction l with
  | nil => intro rt; rfl
  | cons a l ih =>
    intro rt
    rw [List.foldl_cons, ih]
    exact stackSeedStep_len s rt a

/-- After seeding, every id `≥ 2` with a positive refcount is marked. -/
theorem seedReach_marks (s : MState) (i : Nat) (h2 : 2 ≤ i)
    (hlt : i < s.nodes.length)
    (hrc : 0 < ((s.nodes.getD i default).refcount)) :
    (seedReach s).1.getD i false = true := by
  unfold seedReach
  refine rcSeed_fold_marks s _ _ ?_ i ?_ hlt hrc
  · rw [stackSeed_fold_len]
    simp
  · unfold idsDesc
    exact List.mem_filter.mpr
      ⟨List.mem_reverse.mpr (List.mem_range.mpr hlt), by simpa using h2⟩

/-- A sweep step leaves marked slots and the two constant slots alone. -/
theorem sweepStep_frame (reach : List Bool) (b : MState) (a i : Nat)
    (ha2 : 2 ≤ a)
    (hi : reach.getD i false = true ∨ i < 2) :
    (sweepStep reach b a).nodes.get? i = b.nodes.get? i := by
  unfold sweepStep
  split
  · rfl
  · rename_i hra
    split
    · rfl
    · split
      · rfl
      · dsimp only
        have hne : i ≠ a := by
          intro he
          rcases hi with hm | hl
          · rw [he] at hm
            exact hra hm
          · omega
        split
        · exact get?_set_ne _ _ _ _ hne
        · exact get?_set_ne _ _ _ _ hne

/-- The whole sweep leaves marked slots and the constant slots alone. -/
theorem gcSweep_frame (s0 : MState) (reach : List Bool) (i : Nat)
    (hi : reach.getD i false = true ∨ i < 2) :
    (gcSweep s0 reach).nodes.get? i = s0.nodes.get? i := by
  unfold gcSweep
  dsimp only
  exact foldl_preserve_mem
    (fun acc : MState => acc.nodes.get? i = s0.nodes.get? i)
    (sweepStep reach) (idsDesc s0)
    (fun b a ha hb => by
      show (sweepStep reach b a).nodes.get? i = s0.nodes.get? i
      rw [sweepStep_frame reach b a i (idsDesc_bounds s0 a ha).1 hi]
      exact hb)
    s0 rfl

/-- A mark vector closed under children covers everything reachable
from a marked root. -/
theorem reach_closed (st : MState) (W : List Bool) (r : Nat)
    (hroot : W.getD r false = true)
    (hclosed : ∀ i n, W.getD i false = true → st.nodes.get? i = some n →
      isValN n = false → W.getD n.lo false = true ∧ W.getD n.hi false = true) :
    ∀ i, ReachRel st r i → W.getD i false = true := by
  intro i h
  induction h with
  | refl => exact hroot
  | toLo n h hn hv ih => exact (hclosed _ n ih hn hv).1
  | toHi n h hn hv ih => exact (hclosed _ n ih hn hv).2

/-- A successful `get?` agrees with `getD`. -/
theorem get?_getD {α : Type} (l : List α) (i : Nat) (d a : α)
    (h : l.get? i = some a) : l.getD i d = a := by
  induction l generalizing i with
  | nil => cases h
  | cons b l ih =>
    cases i with
    | zero => cases h; rfl
    | succ i => exact ih i (by simpa using h)

/-- From a constant root (id `< 2`, a value leaf) nothing else is
reachable. -/
theorem reach_lt_two (s : MState) (r : Nat) (hr : r < 2)
    (h0 : isValN (s.nodes.getD 0 default) = true)
    (h1 : isValN (s.nodes.getD 1 default) = true) :
    ∀ i, ReachRel s r i → i = r := by
  intro i h
  induction h with
  | refl => rfl
  | toLo n h hn hv ih =>
    rw [ih] at hn
    have hT : isValN n = true := by
      rcases (by omega : r = 0 ∨ r = 1) with h' | h'
      · rw [h'] at hn
        rw [← get?_getD _ _ default _ hn]
        exact h0
      · rw [h'] at hn
        rw [← get?_getD _ _ default _ hn]
        exact h1
    rw [hT] at hv
    cases hv
  | toHi n h hn hv ih =>
    rw [ih] at hn
    have hT : isValN n = true := by
      rcases (by omega : r = 0 ∨ r = 1) with h' | h'
      · rw [h'] at hn
        rw [← get?_getD _ _ default _ hn]
        exact h0
      · rw [h'] at hn
        rw [← get?_getD _ _ default _ hn]
        exact h1
    rw [hT] at hv
    cases hv

/-- `to_monomials` only looks at the node records on the reachable set,
the value table and the level-to-variable map. -/
theorem toMonF_agree (sA sB : MState) (r : Nat)
    (hv : sB.values = sA.values) (hl : sB.level2var = sA.level2var)
    (hagree : ∀ i, ReachRel sA r i → sB.nodes.get? i = sA.nodes.get? i) :
    ∀ (f i : Nat), ReachRel sA r i → toMonF sB f i = toMonF sA f i := by
  intro f
  induction f with
  | zero => intro i _; rfl
  | succ f ih =>
    intro i hri
    rw [toMonF, toMonF, hagree i hri]
    cases hn : sA.nodes.get? i with
    | none => rfl
    | some ni =>
      dsimp only
      by_cases hval : isValN ni = true
      · rw [if_pos hval, if_pos hval, hv]
      · have hvF : isValN ni = false := by simpa using hval
        rw [if_neg hval, if_neg hval,
            ih ni.hi (ReachRel.toHi ni hri hn hvF),
            ih ni.lo (ReachRel.toLo ni hri hn hvF), hl]

/-- C4: `try_gc` never reclaims a node reachable from a referenced root:
in a well-formed store (children and stack ids in bounds, ids 0 and 1
value leaves), a successful `try_gc` leaves the monomial expansion of
every root with a positive refcount unchanged at every fuel. -/
theorem tryGc_preserves_monomials
    (g : Nat) (s s' : MState) (r : Nat)
    (hb : ∀ n ∈ s.nodes, n.lo < s.nodes.length ∧ n.hi < s.nodes.length)
    (hstack : ∀ i ∈ s.pddStack, i < s.nodes.length)
    (h0 : isValN (s.nodes.getD 0 default) = true)
    (h1 : isValN (s.nodes.getD 1 default) = true)
    (hr : r < s.nodes.length)
    (hrc : 0 < ((s.nodes.getD r default).refcount))
    (hgc : tryGcF g s = some s') :
    ∀ f, toMonF s' f r = toMonF s f r := by
  intro f
  unfold tryGcF at hgc
  cases hg : gcF g s with
  | none =>
    rw [hg] at hgc
    exact absurd hgc (by simp)
  | some s1 =>
    obtain ⟨-, -, -, hval, hl2v, -, -, -⟩ := gcF_preserves hg
    rw [hg] at hgc
    simp only [Option.map_some', Option.some.injEq] at hgc
    subst hgc
    unfold gcF at hg
    dsimp only at hg
    split at hg
    · exact absurd hg (by simp)
    · rename_i reach hclose
      simp only [Option.some.injEq] at hg
      obtain ⟨hlenW, htdm, hmtd⟩ := seedReach_inv { s with freeNodes := [] } hstack
      obtain ⟨hmono, hclosed⟩ :=
        closeF_sound { s with freeNodes := [] } hb g _ _ reach hlenW hclose htdm
          (fun i _ hi _ _ => Or.inl (hmtd i hi))
      have hagree : ∀ i, ReachRel s r i → s1.nodes.get? i = s.nodes.get? i := by
        intro i hi
        rw [← hg]
        by_cases hr2 : 2 ≤ r
        · have hroot : reach.getD r false = true :=
            hmono r (seedReach_marks { s with freeNodes := [] } r hr2 hr hrc)
          exact gcSweep_frame _ reach i
            (Or.inl (reach_closed s reach r hroot hclosed i hi))
        · have hir := reach_lt_two s r (by omega) h0 h1 i hi
          exact gcSweep_frame _ reach i (Or.inr (by omega))
      exact toMonF_agree s { s1 with opCache := [] } r hval hl2v hagree f r
        ReachRel.refl

set_option maxRecDepth 10000 in
/-- Witness: in the concrete four-node store `gcWitState` (id 3 garbage,
id 2 a referenced decision node for `v1`), `try_gc` succeeds and the
monomials of root 2 are unchanged, namely `[(1, [v1])]`. -/
theorem tryGc_preserves_monomials_witness :
    ∃ s', tryGcF 20 gcWitState = some s' ∧
      toMonF s' 10 2 = toMonF gcWitState 10 2 ∧
      toMonF gcWitState 10 2 = some [(1, [1])] := by
  refine ⟨_, rfl, ?_, by decide⟩
  exact tryGc_preserves_monomials 20 gcWitState _ 2
    (by decide) (by decide) (by decide) (by decide) (by decide) (by decide)
    rfl 10

/-- `lt` on monomials is irreflexive. -/
theorem monLt_irrefl : ∀ s, monLt s s = false := by
  intro s
  induction s with
  | nil => rfl
  | cons a s ih => unfold monLt; rw [if_pos rfl]; exact ih

/-- `lt` on monomials is asymmetric. -/
theorem monLt_asymm : ∀ s t, monLt s t = true → monLt t s = false := by
  intro s
  induction s with
  | nil =>
    intro t h
    cases t with
    | nil => cases h
    | cons b t => rfl
  | cons a s ih =>
    intro t h
    cases t with
    | nil => cases h
    | cons b t =>
      unfold monLt at h ⊢
      by_cases hab : a = b
      · subst hab
        rw [if_pos rfl] at h ⊢
        exact ih t h
      · rw [if_neg hab] at h
        rw [if_neg (Ne.symm hab)]
        simp only [decide_eq_true_eq] at h
        exact decide_eq_false (Nat.not_lt.mpr (Nat.le_of_lt h))

/-- `lt` on monomials is total: mutually incomparable monomials are equal. -/
theorem monLt_total : ∀ s t, monLt s t = false → monLt t s = false → s = t := by
  intro s
  induction s with
  | nil =>
    intro t h _
    cases t with
    | nil => rfl
    | cons b t => cases h
  | cons a s ih =>
    intro t h h'
    cases t with
    | nil => cases h'
    | cons b t =>
      unfold monLt at h h'
      by_cases hab : a = b
      · subst hab
        rw [if_pos rfl] at h h'
        rw [ih t h h']
      · rw [if_neg hab] at h
        rw [if_neg (Ne.symm hab)] at h'
        simp only [decide_eq_false_iff_not] at h h'
        omega

/-- The tail of a descending list is descending. -/
theorem desc_tail (a : Nat) (s : List Nat) (h : desc (a :: s) = true) :
    desc s = true := by
  cases s with
  | nil => rfl
  | cons b t =>
    simp only [desc, Bool.and_eq_true, decide_eq_true_eq] at h
    exact h.2

/-- The head of a descending list dominates every element below it. -/
theorem desc_head_dom : ∀ (s : List Nat) (a : Nat), desc (a :: s) = true →
    ∀ e ∈ s, e ≤ a := by
  intro s
  induction s with
  | nil =>
    intro a _ e he
    cases he
  | cons b t ih =>
    intro a h e he
    simp only [desc, Bool.and_eq_true, decide_eq_true_eq] at h
    rcases List.mem_cons.mp he with rfl | he'
    · exact h.1
    · exact le_trans (ih b h.2 e he') h.1

/-- Extending a descending list by a dominating head. -/
theorem desc_cons_of (a : Nat) (s : List Nat) (hs : desc s = true)
    (hb : ∀ e ∈ s, e ≤ a) : desc (a :: s) = true := by
  cases s with
  | nil => rfl
  | cons b t =>
    simp only [desc, Bool.and_eq_true, decide_eq_true_eq]
    exact ⟨hb b (List.mem_cons_self b t), hs⟩

/-- Destructuring the well-formedness of a decision node. -/
theorem wfb_parts (lvl : Nat) (l h : PDD) (hw : wfb (.node lvl l h) = true) :
    wfb l = true ∧ wfb h = true ∧ h ≠ pddZero ∧
    (l.isVal = true ∨ l.level < lvl) ∧ (h.isVal = true ∨ h.level ≤ lvl) := by
  unfold wfb at hw
  simp only [Bool.and_eq_true, Bool.or_eq_true, decide_eq_true_eq] at hw
  exact ⟨hw.1.1.1.1, hw.1.1.1.2, hw.1.1.2, hw.1.2, hw.2⟩

/-- The `hi` spine of a well-formed pdd is descending and bounded by the
root level. -/
theorem spine_desc_bound : ∀ p, wfb p = true →
    desc (spine p) = true ∧ ∀ e ∈ spine p, e ≤ p.level := by
  intro p
  induction p with
  | val r =>
    intro _
    exact ⟨rfl, fun e he => absurd he (List.not_mem_nil e)⟩
  | node lvl l h ihl ihh =>
    intro hw
    obtain ⟨-, hwh, -, -, hlev⟩ := wfb_parts lvl l h hw
    obtain ⟨hd, hb⟩ := ihh hwh
    have hble : ∀ e ∈ spine h, e ≤ lvl := by
      intro e he
      rcases hlev with hv | hle
      · cases h with
        | val _ => cases he
        | node _ _ _ => cases hv
      · exact le_trans (hb e he) hle
    refine ⟨desc_cons_of lvl _ hd hble, ?_⟩
    intro e he
    rcases List.mem_cons.mp he with rfl | he'
    · exact le_rfl
    · exact hble e he'

/-- The leading coefficient of a nonzero well-formed pdd is nonzero. -/
theorem lc_ne_zero : ∀ p, wfb p = true → p ≠ pddZero → lc p ≠ 0 := by
  intro p
  induction p with
  | val r =>
    intro _ hz h0
    exact hz (by rw [show r = 0 from h0]; rfl)
  | node lvl l h ihl ihh =>
    intro hw _
    obtain ⟨-, hwh, hne, -, -⟩ := wfb_parts lvl l h hw
    exact ihh hwh hne

/-- A pdd with nonzero leading coefficient is nonzero. -/
theorem ne_zero_of_lc (p : PDD) (h : lc p ≠ 0) : p ≠ pddZero := by
  intro he
  rw [he] at h
  exact h rfl

/-- `make_node` with a nonzero `hi` argument builds a decision node. -/
theorem mkNode_node (lvl : Nat) (l h : PDD) (hne : h ≠ pddZero) :
    mkNode lvl l h = PDD.node lvl l h := by
  unfold mkNode
  rw [if_neg hne]

/-- In Q-mode `imk_val` is the plain constructor. -/
theorem imkVal_q (c : ℚ) : imkVal false c = PDD.val c := by
  unfold imkVal
  by_cases h0 : c = 0
  · rw [if_pos h0, h0]; rfl
  · rw [if_neg h0]
    by_cases h1 : c = 1
    · rw [if_pos h1, h1]; rfl
    · rw [if_neg h1]; rfl

/-- A monomial chain with nonzero coefficient is a nonzero pdd. -/
theorem monChain_ne_zero (m : List Nat) (c : ℚ) (hc : c ≠ 0) :
    monChain m c ≠ pddZero := by
  cases m with
  | nil =>
    intro h
    simp only [monChain, pddZero, PDD.val.injEq] at h
    exact hc h
  | cons v t => exact fun h => PDD.noConfusion h

/-- The spine of a monomial chain is its level list. -/
theorem monChain_spine : ∀ (m : List Nat) (c : ℚ), spine (monChain m c) = m := by
  intro m c
  induction m with
  | nil => rfl
  | cons v t ih => unfold monChain spine; rw [ih]

/-- The leading coefficient of a monomial chain is its coefficient. -/
theorem monChain_lc : ∀ (m : List Nat) (c : ℚ), lc (monChain m c) = c := by
  intro m c
  induction m with
  | nil => rfl
  | cons v t ih => exact ih

/-- A monomial chain over a descending list with nonzero coefficient is
well-formed. -/
theorem monChain_wfb : ∀ (m : List Nat) (c : ℚ), desc m = true → c ≠ 0 →
    wfb (monChain m c) = true := by
  intro m c
  induction m with
  | nil => intro _ _; rfl
  | cons v t ih =>
    intro hd hc
    unfold monChain wfb
    simp only [Bool.and_eq_true, Bool.or_eq_true, decide_eq_true_eq]
    refine ⟨⟨⟨⟨rfl, ih (desc_tail _ _ hd) hc⟩, monChain_ne_zero t c hc⟩,
      Or.inl rfl⟩, ?_⟩
    cases t with
    | nil => exact Or.inl rfl
    | cons u t' =>
      right
      exact desc_head_dom _ _ hd u (List.mem_cons_self u t')

/-- Multiplying by the empty monomial. -/
theorem monMul_nil_right : ∀ s, monMul s [] = s := by
  intro s
  induction s with
  | nil => rfl
  | cons a s ih => show a :: monMul s [] = a :: s; rw [ih]

/-- The cons-cons equation of the monomial merge. -/
theorem monMul_cons_cons (a : Nat) (s : List Nat) (b : Nat) (t : List Nat) :
    monMul (a :: s) (b :: t) =
      if b ≤ a then a :: monMul s (b :: t) else b :: monMul (a :: s) t := rfl

/-- Multiplying a monomial headed by a dominating level. -/
theorem monMul_cons_left (a : Nat) (s t : List Nat) (hb : ∀ e ∈ t, e ≤ a) :
    monMul (a :: s) t = a :: monMul s t := by
  cases t with
  | nil => rw [monMul_nil_right, monMul_nil_right]
  | cons b t =>
    rw [monMul_cons_cons, if_pos (hb b (List.mem_cons_self b t))]

/-- Every level of a monomial product comes from one of the factors. -/
theorem monMul_mem : ∀ (s t : List Nat) (e : Nat), e ∈ monMul s t →
    e ∈ s ∨ e ∈ t := by
  intro s
  induction s with
  | nil => intro t e he; exact Or.inr he
  | cons a s ihs =>
    intro t
    induction t with
    | nil =>
      intro e he
      rw [monMul_nil_right] at he
      exact Or.inl he
    | cons b t iht =>
      intro e he
      rw [monMul_cons_cons] at he
      by_cases hba : b ≤ a
      · rw [if_pos hba] at he
        rcases List.mem_cons.mp he with rfl | he'
        · exact Or.inl (List.mem_cons_self _ _)
        · rcases ihs (b :: t) e he' with h | h
          · exact Or.inl (List.mem_cons_of_mem _ h)
          · exact Or.inr h
      · rw [if_neg hba] at he
        rcases List.mem_cons.mp he with rfl | he'
        · exact Or.inr (List.mem_cons_self _ _)
        · rcases iht e he' with h | h
          · exact Or.inl h
          · exact Or.inr (List.mem_cons_of_mem _ h)

/-- The product of two descending monomials is descending. -/
theorem monMul_desc : ∀ s t, desc s = true → desc t = true →
    desc (monMul s t) = true := by
  intro s
  induction s with
  | nil => intro t _ ht; exact ht
  | cons a s ihs =>
    intro t
    induction t with
    | nil =>
      intro hs _
      rw [monMul_nil_right]
      exact hs
    | cons b t iht =>
      intro hs ht
      rw [monMul_cons_cons]
      by_cases hba : b ≤ a
      · rw [if_pos hba]
        refine desc_cons_of a _ (ihs (b :: t) (desc_tail _ _ hs) ht) ?_
        intro e he
        rcases monMul_mem _ _ _ he with h | h
        · exact desc_head_dom _ _ hs e h
        · rcases List.mem_cons.mp h with rfl | h'
          · exact hba
          · exact le_trans (desc_head_dom _ _ ht e h') hba
      · rw [if_neg hba]
        have hab : a ≤ b := Nat.le_of_lt (Nat.lt_of_not_le hba)
        refine desc_cons_of b _ (iht hs (desc_tail _ _ ht)) ?_
        intro e he
        rcases monMul_mem _ _ _ he with h | h
        · rcases List.mem_cons.mp h with rfl | h'
          · exact hab
          · exact le_trans (desc_head_dom _ _ hs e h') hab
        · exact desc_head_dom _ _ ht e h

/-- Multiplicities add under monomial multiplication. -/
theorem monMul_count : ∀ (s t : List Nat) (v : Nat),
    (monMul s t).count v = s.count v + t.count v := by
  intro s
  induction s with
  | nil =>
    intro t v
    show t.count v = ([] : List Nat).count v + t.count v
    simp
  | cons a s ihs =>
    intro t
    induction t with
    | nil =>
      intro v
      rw [monMul_nil_right]
      simp
    | cons b t iht =>
      intro v
      rw [monMul_cons_cons]
      by_cases hba : b ≤ a
      · rw [if_pos hba]
        simp only [List.count_cons, ihs (b :: t) v, List.count_cons]
        omega
      · rw [if_neg hba]
        simp only [List.count_cons, iht v, List.count_cons]
        omega

/-- Pulling a maximal level to the front of a product. -/
theorem monMul_pull : ∀ (s t : List Nat) (v : Nat), (∀ e ∈ s, e ≤ v) →
    (∀ e ∈ t, e ≤ v) → monMul s (v :: t) = v :: monMul s t := by
  intro s
  induction s with
  | nil => intro t v _ _; rfl
  | cons a s ih =>
    intro t v hs ht
    have hav : a ≤ v := hs a (List.mem_cons_self a s)
    by_cases hva : v ≤ a
    · have hveq : a = v := le_antisymm hav hva
      subst hveq
      rw [monMul_cons_cons, if_pos le_rfl,
        ih t a (fun e he => hs e (List.mem_cons_of_mem _ he)) ht]
      cases t with
      | nil => rw [monMul_nil_right, monMul_nil_right]
      | cons b t' =>
        rw [monMul_cons_cons, if_pos (ht b (List.mem_cons_self b t'))]
    · rw [monMul_cons_cons, if_neg hva]

/-- `lcm` against the empty monomial. -/
theorem monLcm_nil_right : ∀ s, monLcm s [] = s := by
  intro s
  induction s with
  | nil => rfl
  | cons a s ih => show a :: monLcm s [] = a :: s; rw [ih]

/-- The cons-cons equation of the monomial lcm. -/
theorem monLcm_cons_cons (a : Nat) (s : List Nat) (b : Nat) (t : List Nat) :
    monLcm (a :: s) (b :: t) =
      if a = b then a :: monLcm s t
      else if b < a then a :: monLcm s (b :: t)
      else b :: monLcm (a :: s) t := rfl

/-- The `lcm` of monomials with a nonempty factor is nonempty. -/
theorem monLcm_cons_ne_nil (a : Nat) (s t : List Nat) :
    monLcm (a :: s) t ≠ [] := by
  cases t with
  | nil => exact fun h => List.noConfusion h
  | cons b t =>
    rw [monLcm_cons_cons]
    by_cases hab : a = b
    · rw [if_pos hab]
      exact fun h => List.noConfusion h
    · rw [if_neg hab]
      by_cases hba : b < a
      · rw [if_pos hba]
        exact fun h => List.noConfusion h
      · rw [if_neg hba]
        exact fun h => List.noConfusion h

/-- Monomials with strictly fewer occurrences of the bounding level are
smaller in the monomial order. -/
theorem count_lt_monLt (v : Nat) : ∀ (s t : List Nat), desc s = true →
    desc t = true → (∀ e ∈ s, e ≤ v) → (∀ e ∈ t, e ≤ v) →
    t.count v < s.count v → monLt t s = true := by
  intro s
  induction s with
  | nil =>
    intro t _ _ _ _ hc
    simp at hc
  | cons a s ih =>
    intro t hs ht hbs hbt hc
    cases t with
    | nil => rfl
    | cons b t =>
      unfold monLt
      by_cases hba : b = a
      · rw [if_pos hba]
        subst hba
        apply ih t (desc_tail _ _ hs) (desc_tail _ _ ht)
          (fun e he => hbs e (List.mem_cons_of_mem _ he))
          (fun e he => hbt e (List.mem_cons_of_mem _ he))
        simp only [List.count_cons] at hc
        omega
      · rw [if_neg hba]
        have hveq : a = v := by
          have hpos : 0 < (a :: s).count v := lt_of_le_of_lt (Nat.zero_le _) hc
          have hvin : v ∈ a :: s := List.count_pos_iff.mp hpos
          have hva : v ≤ a := by
            rcases List.mem_cons.mp hvin with rfl | h'
            · exact le_rfl
            · exact desc_head_dom _ _ hs v h'
          exact le_antisymm (hbs a (List.mem_cons_self a s)) hva
        have hblt : b < a := by
          have := hbt b (List.mem_cons_self b t)
          omega
        exact decide_eq_true hblt

/-- The rational gcd of the source (gcd of numerators over lcm of
denominators) is nonzero on a nonzero first argument. -/
theorem ratGcd_ne_zero (a b : ℚ) (ha : a ≠ 0) : ratGcd a b ≠ 0 := by
  unfold ratGcd
  apply div_ne_zero
  · have hnum : a.num ≠ 0 := Rat.num_ne_zero.mpr ha
    have hg : Int.gcd a.num b.num ≠ 0 := fun h =>
      hnum (Int.gcd_eq_zero_iff.mp h).1
    exact_mod_cast hg
  · have hlcm : Nat.lcm a.den b.den ≠ 0 :=
      Nat.lcm_ne_zero a.den_pos.ne' b.den_pos.ne'
    exact_mod_cast hlcm

/-- A value node has level 0. -/
theorem isVal_level (q : PDD) (h : q.isVal = true) : q.level = 0 := by
  cases q with
  | val _ => rfl
  | node _ _ _ => cases h

/-- What the two sequential swaps of `apply_rec` produce: either the
arguments stay (first nonval, in particular not of smaller level than a
nonval second), or they swap (second nonval, first a value or of larger
level), or both are values. -/
theorem canonSwap_eq (p q : PDD) :
    (canonSwap p q = (p, q) ∧ p.isVal = false ∧
      (q.isVal = true ∨ ¬ p.level < q.level)) ∨
    (canonSwap p q = (q, p) ∧ q.isVal = false ∧
      (p.isVal = true ∨ p.level < q.level)) ∨
    (p.isVal = true ∧ q.isVal = true) := by
  cases p with
  | val r =>
    cases q with
    | val c => exact Or.inr (Or.inr ⟨rfl, rfl⟩)
    | node lq ql qh =>
      right; left
      refine ⟨?_, rfl, Or.inl rfl⟩
      simp [canonSwap, PDD.isVal, PDD.level]
  | node lp pl ph =>
    cases q with
    | val c =>
      left
      refine ⟨?_, rfl, Or.inl rfl⟩
      simp [canonSwap, PDD.isVal, PDD.level]
    | node lq ql qh =>
      by_cases hlt : lp < lq
      · right; left
        refine ⟨?_, rfl, Or.inr ?_⟩
        · simp [canonSwap, PDD.isVal, PDD.level, hlt]
        · simpa [PDD.level] using hlt
      · left
        refine ⟨?_, rfl, Or.inr ?_⟩
        · simp [canonSwap, PDD.isVal, PDD.level, hlt]
        · simpa [PDD.level] using hlt

/-- The non-shortcut branches of `apply_rec` for `add`, after the swaps:
the sum of well-formed pdds is well-formed, its level is bounded by the
levels of the operands.  `ih` is the induction hypothesis for the full
statement one fuel lower. -/
theorem padd_branch_wfb (f : Nat)
    (ih : ∀ u v w, wfb u = true → wfb v = true →
      padd false f u v = some w →
      wfb w = true ∧ w.level ≤ max u.level v.level ∧
        (u.isVal = true → v.isVal = true → w.isVal = true))
    (p q w : PDD) (hp : wfb p = true) (hq : wfb q = true)
    (hpv : p.isVal = false) (hlv : q.isVal = true ∨ ¬ p.level < q.level)
    (h : (if q.isVal then do
            let l ← padd false f p.lo q
            some (mkNode p.level l p.hi)
          else if p.level = q.level then do
            let l ← padd false f p.lo q.lo
            let h2 ← padd false f p.hi q.hi
            some (mkNode p.level l h2)
          else do
            let l ← padd false f p.lo q
            some (mkNode p.level l p.hi)) = some w) :
    wfb w = true ∧ w.level ≤ max p.level q.level := by
  cases p with
  | val r => cases hpv
  | node lvl pl ph =>
  obtain ⟨hwpl, hwph, hphz, hplc, hphc⟩ := wfb_parts lvl pl ph hp
  simp only [PDD.lo, PDD.hi, PDD.level] at h ⊢
  by_cases hqval : q.isVal = true
  · rw [if_pos hqval] at h
    cases hl : padd false f pl q with
    | none => rw [hl] at h; exact absurd h (by simp)
    | some l =>
      rw [hl] at h
      simp only [Option.bind_eq_bind, Option.some_bind, Option.some.injEq] at h
      subst h
      obtain ⟨hwl, hll, hlv2⟩ := ih pl q l hwpl hq hl
      rw [mkNode_node lvl l ph hphz]
      refine ⟨?_, by simp [PDD.level]⟩
      unfold wfb
      simp only [Bool.and_eq_true, Bool.or_eq_true, decide_eq_true_eq]
      refine ⟨⟨⟨⟨hwl, hwph⟩, hphz⟩, ?_⟩, hphc⟩
      rcases hplc with hplval | hpll
      · exact Or.inl (hlv2 hplval hqval)
      · right
        have hq0 : q.level = 0 := isVal_level q hqval
        omega
  · rw [if_neg hqval] at h
    cases q with
    | val c => exact absurd rfl hqval
    | node lq ql qh =>
    obtain ⟨hwql, hwqh, hqhz, hqlc, hqhc⟩ := wfb_parts lq ql qh hq
    simp only [PDD.lo, PDD.hi, PDD.level] at h ⊢
    by_cases hpq : lvl = lq
    · rw [if_pos hpq] at h
      subst hpq
      cases hl : padd false f pl ql with
      | none => rw [hl] at h; exact absurd h (by simp)
      | some l =>
        cases hh : padd false f ph qh with
        | none => rw [hl, hh] at h; exact absurd h (by simp)
        | some h2 =>
          rw [hl, hh] at h
          simp only [Option.bind_eq_bind, Option.some_bind, Option.some.injEq] at h
          subst h
          obtain ⟨hwl, hll, hlvv⟩ := ih pl ql l hwpl hwql hl
          obtain ⟨hwh, hhl, -⟩ := ih ph qh h2 hwph hwqh hh
          have hpl_le : pl.level ≤ lvl := by
            rcases hplc with hv | hv
            · rw [isVal_level pl hv]; exact Nat.zero_le _
            · exact Nat.le_of_lt hv
          have hql_le : ql.level ≤ lvl := by
            rcases hqlc with hv | hv
            · rw [isVal_level ql hv]; exact Nat.zero_le _
            · exact Nat.le_of_lt hv
          have hph_le : ph.level ≤ lvl := by
            rcases hphc with hv | hv
            · rw [isVal_level ph hv]; exact Nat.zero_le _
            · exact hv
          have hqh_le : qh.level ≤ lvl := by
            rcases hqhc with hv | hv
            · rw [isVal_level qh hv]; exact Nat.zero_le _
            · exact hv
          by_cases hz : h2 = pddZero
          · subst hz
            rw [show mkNode lvl l pddZero = l from rfl]
            exact ⟨hwl, le_trans hll (by omega)⟩
          · rw [mkNode_node lvl l h2 hz]
            refine ⟨?_, by simp [PDD.level]⟩
            unfold wfb
            simp only [Bool.and_eq_true, Bool.or_eq_true, decide_eq_true_eq]
            refine ⟨⟨⟨⟨hwl, hwh⟩, hz⟩, ?_⟩, Or.inr (le_trans hhl (by omega))⟩
            by_cases hlval : l.isVal = true
            · exact Or.inl hlval
            · right
              rcases hplc with hv1 | hv1
              · rcases hqlc with hv2 | hv2
                · exact absurd (hlvv hv1 hv2) hlval
                · have := isVal_level pl hv1
                  omega
              · rcases hqlc with hv2 | hv2
                · have := isVal_level ql hv2
                  omega
                · omega
    · rw [if_neg hpq] at h
      have hlq_lt : lq < lvl := by
        rcases hlv with hv | hv
        · simp [PDD.isVal] at hv
        · simp only [PDD.level] at hv
          omega
      cases hl : padd false f pl (PDD.node lq ql qh) with
      | none => rw [hl] at h; exact absurd h (by simp)
      | some l =>
        rw [hl] at h
        simp only [Option.bind_eq_bind, Option.some_bind, Option.some.injEq] at h
        subst h
        obtain ⟨hwl, hll, -⟩ := ih pl (PDD.node lq ql qh) l hwpl hq hl
        rw [mkNode_node lvl l ph hphz]
        refine ⟨?_, by simp [PDD.level]⟩
        unfold wfb
        simp only [Bool.and_eq_true, Bool.or_eq_true, decide_eq_true_eq]
        refine ⟨⟨⟨⟨hwl, hwph⟩, hphz⟩, ?_⟩, hphc⟩
        right
        have hpl_lt : pl.level < lvl := by
          rcases hplc with hv | hv
          · rw [isVal_level pl hv]; omega
          · exact hv
        have hll' : l.level ≤ max pl.level lq := by
          have he : (PDD.node lq ql qh).level = lq := rfl
          rw [he] at hll
          exact hll
        have hmax : max pl.level lq < lvl := Nat.max_lt.mpr ⟨hpl_lt, hlq_lt⟩
        omega

/-- `apply_rec` for `add` in Q-mode preserves well-formedness, never
raises the level above its operands, and maps two values to a value. -/
theorem padd_wfb_level : ∀ (fuel : Nat) (u v w : PDD),
    wfb u = true → wfb v = true → padd false fuel u v = some w →
    wfb w = true ∧ w.level ≤ max u.level v.level ∧
      (u.isVal = true → v.isVal = true → w.isVal = true) := by
  intro fuel
  induction fuel with
  | zero => intro u v w _ _ h; cases h
  | succ f ih =>
    intro u v w hu hv h
    rw [padd] at h
    by_cases hu0 : u = pddZero
    · rw [if_pos hu0] at h
      simp only [Option.some.injEq] at h
      subst h
      refine ⟨hv, le_max_right _ _, fun _ hvv => hvv⟩
    · rw [if_neg hu0] at h
      by_cases hv0 : v = pddZero
      · rw [if_pos hv0] at h
        simp only [Option.some.injEq] at h
        subst h
        exact ⟨hu, le_max_left _ _, fun huu _ => huu⟩
      · rw [if_neg hv0] at h
        by_cases hval : (u.isVal && v.isVal) = true
        · rw [if_pos hval] at h
          simp only [Option.some.injEq] at h
          subst h
          rw [imkVal_q]
          exact ⟨rfl, Nat.zero_le _, fun _ _ => rfl⟩
        · rw [if_neg hval] at h
          rcases canonSwap_eq u v with ⟨hcs, hpv, hlv⟩ | ⟨hcs, hpv, hlv⟩ |
            ⟨h1, h2⟩
          · rw [hcs] at h
            obtain ⟨hw, hlev⟩ := padd_branch_wfb f ih u v w hu hv hpv hlv h
            exact ⟨hw, hlev, fun huu _ => absurd huu (by rw [hpv]; simp)⟩
          · rw [hcs] at h
            have hlv' : u.isVal = true ∨ ¬ v.level < u.level := by
              rcases hlv with hv1 | hv1
              · exact Or.inl hv1
              · exact Or.inr (by omega)
            obtain ⟨hw, hlev⟩ := padd_branch_wfb f ih v u w hv hu hpv hlv' h
            exact ⟨hw, by rw [Nat.max_comm] at hlev; exact hlev,
              fun _ hvv => absurd hvv (by rw [hpv]; simp)⟩
          · exact absurd (by rw [h1, h2]; rfl) hval

/-- A value node has an empty spine. -/
theorem isVal_spine (q : PDD) (h : q.isVal = true) : spine q = [] := by
  cases q with
  | val _ => rfl
  | node _ _ _ => cases h

/-- A pdd with empty spine is a value node. -/
theorem spine_nil_isVal (q : PDD) (h : spine q = []) : q.isVal = true := by
  cases q with
  | val _ => rfl
  | node _ _ _ => simp [spine] at h

/-- A value node with zero leading coefficient is the zero pdd. -/
theorem isVal_zero (q : PDD) (hv : q.isVal = true) (h0 : lc q = 0) :
    q = pddZero := by
  cases q with
  | val c =>
    have hc : c = 0 := h0
    rw [hc]
    rfl
  | node _ _ _ => cases hv

/-- Nothing is below the empty monomial. -/
theorem monLt_nil_right : ∀ s, monLt s [] = false := by
  intro s
  cases s <;> rfl

/-- Comparing monomials sharing their top level compares the tails. -/
theorem monLt_cons_same (a : Nat) (s t : List Nat) :
    monLt (a :: s) (a :: t) = monLt s t := by
  conv_lhs => rw [monLt]
  rw [if_pos rfl]

/-- A smaller top level decides the monomial comparison. -/
theorem monLt_head_lt (a b : Nat) (s t : List Nat) (h : a < b) :
    monLt (a :: s) (b :: t) = true := by
  unfold monLt
  rw [if_neg (by omega : ¬ a = b)]
  exact decide_eq_true h

/-- The leading-term characterisation of `add` is symmetric in its
operands. -/
theorem paddLeadS_symm (u v w : PDD) (h : PaddLeadS u v w) :
    PaddLeadS v u w := by
  obtain ⟨h1, h2, h3⟩ := h
  refine ⟨h2, h1, ?_⟩
  intro he
  obtain ⟨h4, h5⟩ := h3 he.symm
  constructor
  · intro hsum
    rcases h4 (by rw [add_comm] at hsum; exact hsum) with h' | h'
    · exact Or.inl h'
    · right
      rw [he]
      exact h'
  · intro hsum
    obtain ⟨hs, hlc⟩ := h5 (fun h0 => hsum (by rw [add_comm] at h0; exact h0))
    exact ⟨by rw [he]; exact hs, by rw [add_comm]; exact hlc⟩

/-- The non-shortcut branches of `apply_rec` for `add`, after the swaps:
the leading-term characterisation. -/
theorem padd_branch_lead (f : Nat)
    (ihL : ∀ u v w, wfb u = true → wfb v = true →
      padd false f u v = some w → PaddLeadS u v w)
    (p q w : PDD) (hp : wfb p = true) (hq : wfb q = true)
    (hpv : p.isVal = false) (hlv : q.isVal = true ∨ ¬ p.level < q.level)
    (h : (if q.isVal then do
            let l ← padd false f p.lo q
            some (mkNode p.level l p.hi)
          else if p.level = q.level then do
            let l ← padd false f p.lo q.lo
            let h2 ← padd false f p.hi q.hi
            some (mkNode p.level l h2)
          else do
            let l ← padd false f p.lo q
            some (mkNode p.level l p.hi)) = some w) :
    PaddLeadS p q w := by
  cases p with
  | val r => cases hpv
  | node lvl pl ph =>
  obtain ⟨hwpl, hwph, hphz, hplc, hphc⟩ := wfb_parts lvl pl ph hp
  simp only [PDD.lo, PDD.hi, PDD.level] at h
  by_cases hqval : q.isVal = true
  · rw [if_pos hqval] at h
    cases hl : padd false f pl q with
    | none => rw [hl] at h; exact absurd h (by simp)
    | some l =>
      rw [hl] at h
      simp only [Option.bind_eq_bind, Option.some_bind, Option.some.injEq] at h
      subst h
      rw [mkNode_node lvl l ph hphz]
      refine ⟨?_, fun _ => ⟨rfl, rfl⟩, ?_⟩
      · intro h'
        rw [isVal_spine q hqval,
          show spine (PDD.node lvl pl ph) = lvl :: spine ph from rfl,
          monLt_nil_right] at h'
        cases h'
      · intro he
        rw [isVal_spine q hqval] at he
        simp [spine] at he
  · rw [if_neg hqval] at h
    cases q with
    | val c => exact absurd rfl hqval
    | node lq ql qh =>
    obtain ⟨hwql, hwqh, hqhz, hqlc, hqhc⟩ := wfb_parts lq ql qh hq
    simp only [PDD.lo, PDD.hi, PDD.level] at h
    by_cases hpq : lvl = lq
    · rw [if_pos hpq] at h
      subst hpq
      cases hl : padd false f pl ql with
      | none => rw [hl] at h; exact absurd h (by simp)
      | some l =>
        cases hh : padd false f ph qh with
        | none => rw [hl, hh] at h; exact absurd h (by simp)
        | some h2 =>
          rw [hl, hh] at h
          simp only [Option.bind_eq_bind, Option.some_bind,
            Option.some.injEq] at h
          subst h
          have hihh := ihL ph qh h2 hwph hwqh hh
          have hlcq : lc qh ≠ 0 := lc_ne_zero qh hwqh hqhz
          have hlcp : lc ph ≠ 0 := lc_ne_zero ph hwph hphz
          have hsp : spine (PDD.node lvl pl ph) = lvl :: spine ph := rfl
          have hsq : spine (PDD.node lvl ql qh) = lvl :: spine qh := rfl
          refine ⟨?_, ?_, ?_⟩
          · intro h'
            rw [hsp, hsq, monLt_cons_same] at h'
            obtain ⟨hse, hlce⟩ := hihh.1 h'
            have hz : h2 ≠ pddZero :=
              ne_zero_of_lc h2 (by rw [hlce]; exact hlcq)
            rw [mkNode_node lvl l h2 hz]
            refine ⟨?_, hlce⟩
            rw [hsq, show spine (PDD.node lvl l h2) = lvl :: spine h2 from rfl,
              hse]
          · intro h'
            rw [hsp, hsq, monLt_cons_same] at h'
            obtain ⟨hse, hlce⟩ := hihh.2.1 h'
            have hz : h2 ≠ pddZero :=
              ne_zero_of_lc h2 (by rw [hlce]; exact hlcp)
            rw [mkNode_node lvl l h2 hz]
            refine ⟨?_, hlce⟩
            rw [hsp, show spine (PDD.node lvl l h2) = lvl :: spine h2 from rfl,
              hse]
          · intro he
            rw [hsp, hsq] at he
            have he' : spine ph = spine qh := by injection he
            obtain ⟨hcase0, hcaseN⟩ := hihh.2.2 he'
            constructor
            · intro hsum
              have hsum' : lc ph + lc qh = 0 := hsum
              by_cases hz : h2 = pddZero
              · rw [hz, show mkNode lvl l pddZero = l from rfl]
                obtain ⟨hwlw, hllev, hlvv⟩ := padd_wfb_level f pl ql l hwpl hwql hl
                by_cases hl0 : l = pddZero
                · exact Or.inl hl0
                · right
                  rw [hsp]
                  by_cases hlval : l.isVal = true
                  · rw [isVal_spine l hlval]
                    rfl
                  · have hboth : pl.level < lvl ∧ ql.level < lvl := by
                      rcases hplc with hv1 | hv1 <;> rcases hqlc with hv2 | hv2
                      · exact absurd (hlvv hv1 hv2) hlval
                      · have := isVal_level pl hv1
                        omega
                      · have := isVal_level ql hv2
                        omega
                      · exact ⟨hv1, hv2⟩
                    have hmax : max pl.level ql.level < lvl :=
                      Nat.max_lt.mpr hboth
                    have hlt : l.level < lvl := by omega
                    cases l with
                    | val c => exact absurd rfl hlval
                    | node la lb lh =>
                      exact monLt_head_lt la lvl _ _ hlt
              · rcases hcase0 hsum' with hz0 | hmlt
                · exact absurd hz0 hz
                · right
                  rw [mkNode_node lvl l h2 hz, hsp,
                    show spine (PDD.node lvl l h2) = lvl :: spine h2 from rfl,
                    monLt_cons_same]
                  exact hmlt
            · intro hsum
              have hsum' : lc ph + lc qh ≠ 0 := hsum
              obtain ⟨hse, hlce⟩ := hcaseN hsum'
              have hz : h2 ≠ pddZero :=
                ne_zero_of_lc h2 (by rw [hlce]; exact hsum')
              rw [mkNode_node lvl l h2 hz]
              refine ⟨?_, hlce⟩
              rw [hsp, show spine (PDD.node lvl l h2) = lvl :: spine h2 from rfl,
                hse]
    · rw [if_neg hpq] at h
      have hlq_lt : lq < lvl := by
        rcases hlv with hv | hv
        · simp [PDD.isVal] at hv
        · simp only [PDD.level] at hv
          omega
      cases hl : padd false f pl (PDD.node lq ql qh) with
      | none => rw [hl] at h; exact absurd h (by simp)
      | some l =>
        rw [hl] at h
        simp only [Option.bind_eq_bind, Option.some_bind, Option.some.injEq] at h
        subst h
        rw [mkNode_node lvl l ph hphz]
        refine ⟨?_, fun _ => ⟨rfl, rfl⟩, ?_⟩
        · intro h'
          rw [show spine (PDD.node lvl pl ph) = lvl :: spine ph from rfl,
            show spine (PDD.node lq ql qh) = lq :: spine qh from rfl] at h'
          unfold monLt at h'
          rw [if_neg (by omega : ¬ lvl = lq)] at h'
          simp only [decide_eq_true_eq] at h'
          omega
        · intro he
          rw [show spine (PDD.node lvl pl ph) = lvl :: spine ph from rfl,
            show spine (PDD.node lq ql qh) = lq :: spine qh from rfl] at he
          have : lvl = lq := by injection he
          exact absurd this hpq

/-- The leading-term behaviour of `apply_rec` for `add` in Q-mode: the
sum keeps the larger leading term; equal leading monomials add their
coefficients, or cancel and strictly lower the leading monomial. -/
theorem padd_lead : ∀ (fuel : Nat) (u v w : PDD), wfb u = true →
    wfb v = true → padd false fuel u v = some w → PaddLeadS u v w := by
  intro fuel
  induction fuel with
  | zero => intro u v w _ _ h; cases h
  | succ f ih =>
    intro u v w hu hv h
    rw [padd] at h
    by_cases hu0 : u = pddZero
    · rw [if_pos hu0] at h
      simp only [Option.some.injEq] at h
      subst h
      subst hu0
      refine ⟨fun _ => ⟨rfl, rfl⟩, ?_, ?_⟩
      · intro h'
        rw [show spine pddZero = ([] : List Nat) from rfl,
          monLt_nil_right] at h'
        cases h'
      · intro he
        have hvval : v.isVal = true := spine_nil_isVal v he.symm
        constructor
        · intro hsum
          have hlcv : lc v = 0 := by
            have h0 : (0 : ℚ) + lc v = 0 := hsum
            rw [zero_add] at h0
            exact h0
          exact Or.inl (isVal_zero v hvval hlcv)
        · intro _
          refine ⟨he.symm, ?_⟩
          show lc v = lc pddZero + lc v
          rw [show lc pddZero = (0 : ℚ) from rfl, zero_add]
    · rw [if_neg hu0] at h
      by_cases hv0 : v = pddZero
      · rw [if_pos hv0] at h
        simp only [Option.some.injEq] at h
        subst h
        subst hv0
        refine ⟨?_, fun _ => ⟨rfl, rfl⟩, ?_⟩
        · intro h'
          rw [show spine pddZero = ([] : List Nat) from rfl,
            monLt_nil_right] at h'
          cases h'
        · intro he
          have huval : u.isVal = true := spine_nil_isVal u he
          constructor
          · intro hsum
            have hlcu : lc u = 0 := by
              have h0 : lc u + (0 : ℚ) = 0 := hsum
              rw [add_zero] at h0
              exact h0
            exact Or.inl (isVal_zero u huval hlcu)
          · intro _
            refine ⟨rfl, ?_⟩
            show lc u = lc u + lc pddZero
            rw [show lc pddZero = (0 : ℚ) from rfl, add_zero]
      · rw [if_neg hv0] at h
        by_cases hval : (u.isVal && v.isVal) = true
        · rw [if_pos hval] at h
          simp only [Option.some.injEq] at h
          subst h
          simp only [Bool.and_eq_true] at hval
          cases u with
          | node _ _ _ => simp [PDD.isVal] at hval
          | val uc =>
          cases v with
          | node _ _ _ => simp [PDD.isVal] at hval
          | val vc =>
          rw [show (PDD.val uc).value + (PDD.val vc).value = uc + vc from rfl,
            imkVal_q]
          refine ⟨?_, ?_, ?_⟩
          · intro h'
            simp [spine, monLt] at h'
          · intro h'
            simp [spine, monLt] at h'
          · intro _
            constructor
            · intro hsum
              have hsum' : uc + vc = 0 := hsum
              left
              rw [hsum']
              rfl
            · intro _
              exact ⟨rfl, rfl⟩
        · rw [if_neg hval] at h
          rcases canonSwap_eq u v with ⟨hcs, hpv, hlv⟩ | ⟨hcs, hpv, hlv⟩ |
            ⟨h1, h2⟩
          · rw [hcs] at h
            exact padd_branch_lead f ih u v w hu hv hpv hlv h
          · rw [hcs] at h
            have hlv' : u.isVal = true ∨ ¬ v.level < u.level := by
              rcases hlv with hv1 | hv1
              · exact Or.inl hv1
              · exact Or.inr (by omega)
            exact paddLeadS_symm v u w
              (padd_branch_lead f ih v u w hv hu hpv hlv' h)
          · exact absurd (by rw [h1, h2]; rfl) hval

/-- Equal spines force equal valness and equal levels. -/
theorem spine_shape (a b : PDD) (h : spine a = spine b) :
    a.isVal = b.isVal ∧ a.level = b.level := by
  cases a with
  | val r =>
    cases b with
    | val c => exact ⟨rfl, rfl⟩
    | node lb bl bh => simp [spine] at h
  | node la al ah =>
    cases b with
    | val c => simp [spine] at h
    | node lb bl bh =>
      simp only [spine, List.cons.injEq] at h
      exact ⟨rfl, by simpa [PDD.level] using h.1⟩

/-- Multiplying a well-formed pdd by a nonzero constant (in either
argument order) preserves well-formedness and the spine, and scales the
leading coefficient. -/
theorem pmul_val : ∀ (fuel : Nat) (p : PDD) (c : ℚ) (x y w : PDD),
    wfb p = true → c ≠ 0 →
    ((x = p ∧ y = PDD.val c) ∨ (x = PDD.val c ∧ y = p)) →
    pmulQ fuel x y = some w →
    wfb w = true ∧ spine w = spine p ∧ lc w = lc p * c := by
  intro fuel
  induction fuel with
  | zero => intro p c x y w _ _ _ h; cases h
  | succ f ih =>
    intro p c x y w hp hc harr h
    rw [pmulQ] at h
    by_cases h0 : (x = pddZero || y = pddZero) = true
    · rw [if_pos h0] at h
      simp only [Option.some.injEq] at h
      subst h
      have hp0 : p = pddZero := by
        simp only [Bool.or_eq_true, decide_eq_true_eq] at h0
        rcases harr with ⟨rfl, rfl⟩ | ⟨rfl, rfl⟩
        · rcases h0 with h1 | h1
          · exact h1
          · exact absurd (by injection h1) hc
        · rcases h0 with h1 | h1
          · exact absurd (by injection h1) hc
          · exact h1
      subst hp0
      refine ⟨rfl, rfl, ?_⟩
      rw [show lc pddZero = (0 : ℚ) from rfl, zero_mul]
    · rw [if_neg h0] at h
      by_cases h1 : x = pddOne
      · rw [if_pos h1] at h
        simp only [Option.some.injEq] at h
        subst h
        rcases harr with ⟨rfl, rfl⟩ | ⟨rfl, rfl⟩
        · subst h1
          refine ⟨rfl, rfl, ?_⟩
          rw [show lc pddOne = (1 : ℚ) from rfl, one_mul]
          rfl
        · have hc1 : c = 1 := by
            have h' : PDD.val c = PDD.val 1 := h1
            injection h'
          refine ⟨hp, rfl, ?_⟩
          rw [hc1, mul_one]
      · rw [if_neg h1] at h
        by_cases h2 : y = pddOne
        · rw [if_pos h2] at h
          simp only [Option.some.injEq] at h
          subst h
          rcases harr with ⟨rfl, rfl⟩ | ⟨rfl, rfl⟩
          · have hc1 : c = 1 := by
              have h' : PDD.val c = PDD.val 1 := h2
              injection h'
            refine ⟨hp, rfl, ?_⟩
            rw [hc1, mul_one]
          · subst h2
            refine ⟨rfl, rfl, ?_⟩
            rw [show lc pddOne = (1 : ℚ) from rfl, one_mul]
            rfl
        · rw [if_neg h2] at h
          by_cases hval : (x.isVal && y.isVal) = true
          · rw [if_pos hval] at h
            simp only [Option.some.injEq] at h
            subst h
            rcases harr with ⟨rfl, rfl⟩ | ⟨rfl, rfl⟩
            · cases x with
              | node _ _ _ => simp [PDD.isVal] at hval
              | val d =>
                rw [show (PDD.val d).value * (PDD.val c).value = d * c
                  from rfl, imkVal_q]
                exact ⟨rfl, rfl, rfl⟩
            · cases y with
              | node _ _ _ => simp [PDD.isVal] at hval
              | val d =>
                rw [show (PDD.val c).value * (PDD.val d).value = c * d
                  from rfl, imkVal_q]
                exact ⟨rfl, rfl, mul_comm c d⟩
          · rw [if_neg hval] at h
            have hpnv : p.isVal = false := by
              rcases harr with ⟨he1, he2⟩ | ⟨he1, he2⟩
              · by_cases hh : p.isVal = true
                · exact absurd (by rw [he1, he2, hh]; rfl) hval
                · simpa using hh
              · by_cases hh : p.isVal = true
                · exact absurd (by rw [he1, he2, hh]; rfl) hval
                · simpa using hh
            have hcs : canonSwap x y = (p, PDD.val c) := by
              rcases harr with ⟨he1, he2⟩ | ⟨he1, he2⟩
              · rw [he1, he2]
                rcases canonSwap_eq p (PDD.val c) with ⟨e1, -, -⟩ |
                  ⟨-, e2, -⟩ | ⟨e1, -⟩
                · exact e1
                · cases e2
                · rw [e1] at hpnv; cases hpnv
              · rw [he1, he2]
                rcases canonSwap_eq (PDD.val c) p with ⟨-, e2, -⟩ |
                  ⟨e1, -, -⟩ | ⟨-, e2⟩
                · cases e2
                · exact e1
                · rw [e2] at hpnv; cases hpnv
            rw [hcs] at h
            cases p with
            | val _ => cases hpnv
            | node lvl pl ph =>
            obtain ⟨hwpl, hwph, hphz, hplc, hphc⟩ := wfb_parts lvl pl ph hp
            have hred : (do
                let l ← pmulQ f pl (PDD.val c)
                let h2 ← pmulQ f ph (PDD.val c)
                some (mkNode lvl l h2)) = some w := h
            cases hl : pmulQ f pl (PDD.val c) with
            | none => rw [hl] at hred; exact absurd hred (by simp)
            | some l =>
              cases hh : pmulQ f ph (PDD.val c) with
              | none => rw [hl, hh] at hred; exact absurd hred (by simp)
              | some h2 =>
                rw [hl, hh] at hred
                simp only [Option.bind_eq_bind, Option.some_bind,
                  Option.some.injEq] at hred
                subst hred
                obtain ⟨hwl, hsl, hcl⟩ :=
                  ih pl c pl (PDD.val c) l hwpl hc (Or.inl ⟨rfl, rfl⟩) hl
                obtain ⟨hwh, hsh, hch⟩ :=
                  ih ph c ph (PDD.val c) h2 hwph hc (Or.inl ⟨rfl, rfl⟩) hh
                have hz : h2 ≠ pddZero := ne_zero_of_lc h2 (by
                  rw [hch]
                  exact mul_ne_zero (lc_ne_zero ph hwph hphz) hc)
                rw [mkNode_node lvl l h2 hz]
                obtain ⟨hvv, hle⟩ := spine_shape l pl hsl
                obtain ⟨hvv2, hle2⟩ := spine_shape h2 ph hsh
                refine ⟨?_, ?_, hch⟩
                · unfold wfb
                  simp only [Bool.and_eq_true, Bool.or_eq_true,
                    decide_eq_true_eq]
                  refine ⟨⟨⟨⟨hwl, hwh⟩, hz⟩, ?_⟩, ?_⟩
                  · rcases hplc with hv | hv
                    · exact Or.inl (by rw [hvv]; exact hv)
                    · exact Or.inr (by omega)
                  · rcases hphc with hv | hv
                    · exact Or.inl (by rw [hvv2]; exact hv)
                    · exact Or.inr (by omega)
                · rw [show spine (PDD.node lvl l h2) = lvl :: spine h2
                    from rfl,
                    show spine (PDD.node lvl pl ph) = lvl :: spine ph
                    from rfl, hsh]

/-- A zero factor makes the Q-mode product zero. -/
theorem pmulQ_zero (f : Nat) (x y w : PDD) (h0 : x = pddZero ∨ y = pddZero)
    (h : pmulQ f x y = some w) : w = pddZero := by
  cases f with
  | zero => cases h
  | succ f =>
    rw [pmulQ] at h
    have hc : (x = pddZero || y = pddZero) = true := by
      rcases h0 with rfl | rfl <;> simp
    rw [if_pos hc] at h
    simp only [Option.some.injEq] at h
    exact h.symm

/-- Adding to zero on the left returns the other operand. -/
theorem padd_zero_left (f : Nat) (y w : PDD)
    (h : padd false f pddZero y = some w) : w = y := by
  cases f with
  | zero => cases h
  | succ f =>
    rw [padd] at h
    rw [if_pos rfl] at h
    simp only [Option.some.injEq] at h
    exact h.symm

/-- Adding zero on the right returns the other operand. -/
theorem padd_zero_right (f : Nat) (x w : PDD)
    (h : padd false f x pddZero = some w) : w = x := by
  cases f with
  | zero => cases h
  | succ f =>
    rw [padd] at h
    by_cases hx : x = pddZero
    · rw [if_pos hx] at h
      simp only [Option.some.injEq] at h
      rw [← h, hx]
    · rw [if_neg hx, if_pos rfl] at h
      simp only [Option.some.injEq] at h
      exact h.symm

/-- The equal-level combination of the Q-mode multiplication when the
second factor is a monomial: with `ac` the product of the `hi` cofactor
and `n` the product of the `lo` cofactor with the monomial tail, the
result is `x_lvl^2 * ac + x_lvl * n`, whose spine prepends `lvl` twice
to the spine of `ac`. -/
theorem pmul_chain_core (f : Nat) (lvl : Nat) (pl ph : PDD) (m' : List Nat)
    (c : ℚ) (ac n w : PDD)
    (hwpl : wfb pl = true) (hwph : wfb ph = true) (hphz : ph ≠ pddZero)
    (hplc : pl.isVal = true ∨ pl.level < lvl)
    (hphc : ph.isVal = true ∨ ph.level ≤ lvl)
    (hm : ∀ e ∈ m', e ≤ lvl) (hdm : desc m' = true) (hc : c ≠ 0)
    (hwac : wfb ac = true) (hsac : spine ac = monMul (spine ph) m')
    (hlac : lc ac = lc ph * c)
    (hwn : wfb n = true)
    (hn0 : pl = pddZero → n = pddZero)
    (hnS : pl ≠ pddZero → spine n = monMul (spine pl) m' ∧ lc n = lc pl * c)
    (h : (if !n.isVal && decide (n.level = lvl) then do
            let h3 ← padd false f ac n.hi
            some (mkNode lvl pddZero (mkNode lvl n.lo h3))
          else
            some (mkNode lvl pddZero (mkNode lvl n ac))) = some w) :
    wfb w = true ∧ spine w = lvl :: lvl :: spine ac ∧ lc w = lc ac := by
  have hlcph : lc ph ≠ 0 := lc_ne_zero ph hwph hphz
  have hlacne : lc ac ≠ 0 := by
    rw [hlac]
    exact mul_ne_zero hlcph hc
  have hacz : ac ≠ pddZero := ne_zero_of_lc ac hlacne
  have hphlev : ∀ e ∈ spine ph, e ≤ lvl := by
    intro e he
    rcases hphc with hv | hv
    · rw [isVal_spine ph hv] at he
      cases he
    · exact le_trans ((spine_desc_bound ph hwph).2 e he) hv
  have hb_ac : ∀ e ∈ spine ac, e ≤ lvl := by
    rw [hsac]
    intro e he
    rcases monMul_mem _ _ _ he with h' | h'
    · exact hphlev e h'
    · exact hm e h'
  have hac_cond : ac.isVal = true ∨ ac.level ≤ lvl := by
    cases hacv : ac with
    | val _ => exact Or.inl rfl
    | node la al ah =>
      right
      have : la ∈ spine ac := by rw [hacv]; exact List.mem_cons_self _ _
      simpa [PDD.level] using hb_ac la this
  have hplb : ∀ e ∈ spine pl, e < lvl := by
    rcases hplc with hv | hv
    · rw [isVal_spine pl hv]
      intro e he
      cases he
    · intro e he
      exact lt_of_le_of_lt ((spine_desc_bound pl hwpl).2 e he) hv
  by_cases hcond : (!n.isVal && decide (n.level = lvl)) = true
  · rw [if_pos hcond] at h
    simp only [Bool.and_eq_true, Bool.not_eq_true', decide_eq_true_eq]
      at hcond
    have hplne : pl ≠ pddZero := by
      intro h0
      rw [hn0 h0] at hcond
      cases hcond.1
    obtain ⟨hsn, hlcn⟩ := hnS hplne
    cases n with
    | val _ => cases hcond.1
    | node ln nl nh =>
      have hln : lvl = ln := hcond.2.symm
      subst hln
      obtain ⟨hwnl, hwnh, hnhz, hnlc, hnhc⟩ := wfb_parts _ _ _ hwn
      simp only [PDD.hi, PDD.lo] at h
      have hsn' : lvl :: spine nh = monMul (spine pl) m' := hsn
      have hplcnt : (spine pl).count lvl = 0 := by
        rw [List.count_eq_zero]
        intro hmem
        have := hplb lvl hmem
        omega
      have hcnt_nh : (spine nh).count lvl + 1 = m'.count lvl := by
        have hc1 : (lvl :: spine nh).count lvl
            = (spine pl).count lvl + m'.count lvl := by
          rw [hsn', monMul_count]
        rw [List.count_cons_self] at hc1
        omega
      have hcnt_ac : (spine ac).count lvl
          = (spine ph).count lvl + m'.count lvl := by
        rw [hsac, monMul_count]
      have hd_ac : desc (spine ac) = true := by
        rw [hsac]
        exact monMul_desc _ _ (spine_desc_bound ph hwph).1 hdm
      have hd_nh : desc (spine nh) = true := (spine_desc_bound nh hwnh).1
      have hb_nh : ∀ e ∈ spine nh, e ≤ lvl := by
        intro e he
        have hmem : e ∈ lvl :: spine nh := List.mem_cons_of_mem _ he
        rw [hsn'] at hmem
        rcases monMul_mem _ _ _ hmem with h' | h'
        · exact Nat.le_of_lt (hplb e h')
        · exact hm e h'
      have hmlt : monLt (spine nh) (spine ac) = true := by
        apply count_lt_monLt lvl _ _ hd_ac hd_nh hb_ac hb_nh
        omega
      cases hh3 : padd false f ac nh with
      | none => rw [hh3] at h; exact absurd h (by simp)
      | some h3 =>
        rw [hh3] at h
        simp only [Option.bind_eq_bind, Option.some_bind,
          Option.some.injEq] at h
        subst h
        obtain ⟨hse3, hlc3⟩ := (padd_lead f ac nh h3 hwac hwnh hh3).2.1 hmlt
        have h3z : h3 ≠ pddZero := ne_zero_of_lc h3 (by rw [hlc3]; exact hlacne)
        obtain ⟨hwh3, -, -⟩ := padd_wfb_level f ac nh h3 hwac hwnh hh3
        rw [mkNode_node lvl nl h3 h3z,
          mkNode_node lvl pddZero _ (fun hx => PDD.noConfusion hx)]
        refine ⟨?_, ?_, ?_⟩
        · unfold wfb
          simp only [Bool.and_eq_true, Bool.or_eq_true, decide_eq_true_eq]
          refine ⟨⟨⟨⟨rfl, ?_⟩, fun hx => PDD.noConfusion hx⟩, Or.inl rfl⟩,
            Or.inr le_rfl⟩
          unfold wfb
          simp only [Bool.and_eq_true, Bool.or_eq_true, decide_eq_true_eq]
          refine ⟨⟨⟨⟨hwnl, hwh3⟩, h3z⟩, hnlc⟩, ?_⟩
          obtain ⟨hvv, hlev⟩ := spine_shape h3 ac hse3
          rcases hac_cond with hv | hv
          · exact Or.inl (by rw [hvv]; exact hv)
          · exact Or.inr (by omega)
        · rw [show spine (PDD.node lvl pddZero (PDD.node lvl nl h3))
            = lvl :: lvl :: spine h3 from rfl, hse3]
        · show lc h3 = lc ac
          exact hlc3
  · rw [if_neg hcond] at h
    simp only [Option.some.injEq] at h
    subst h
    rw [mkNode_node lvl n ac hacz,
      mkNode_node lvl pddZero _ (fun hx => PDD.noConfusion hx)]
    refine ⟨?_, rfl, rfl⟩
    unfold wfb
    simp only [Bool.and_eq_true, Bool.or_eq_true, decide_eq_true_eq]
    refine ⟨⟨⟨⟨rfl, ?_⟩, fun hx => PDD.noConfusion hx⟩, Or.inl rfl⟩,
      Or.inr le_rfl⟩
    unfold wfb
    simp only [Bool.and_eq_true, Bool.or_eq_true, decide_eq_true_eq]
    refine ⟨⟨⟨⟨hwn, hwac⟩, hacz⟩, ?_⟩, hac_cond⟩
    by_cases hnv : n.isVal = true
    · exact Or.inl hnv
    · right
      have hnlv : ¬ n.level = lvl := by
        intro he
        exact hcond (by
          simp only [Bool.and_eq_true, Bool.not_eq_true', decide_eq_true_eq]
          exact ⟨by simpa using hnv, he⟩)
      have hplne : pl ≠ pddZero := by
        intro h0
        rw [hn0 h0] at hnv
        exact hnv rfl
      obtain ⟨hsn, -⟩ := hnS hplne
      cases n with
      | val _ => exact absurd rfl hnv
      | node ln nl nh =>
        have hmem : ln ∈ monMul (spine pl) m' := by
          rw [← hsn]
          exact List.mem_cons_self _ _
        have hle : ln ≤ lvl := by
          rcases monMul_mem _ _ _ hmem with h' | h'
          · exact Nat.le_of_lt (hplb ln h')
          · exact hm ln h'
        have : ¬ (PDD.node ln nl nh).level = lvl := hnlv
        simp only [PDD.level] at this ⊢
        omega

/-- Multiplying a well-formed pdd by a monomial `x^m * c` (in either
argument order) yields a well-formed pdd whose leading monomial is the
monomial product and whose leading coefficient is scaled by `c`. -/
theorem pmul_chain : ∀ (fuel : Nat) (p : PDD) (m : List Nat) (c : ℚ)
    (x y w : PDD), wfb p = true → desc m = true → c ≠ 0 →
    ((x = p ∧ y = monChain m c) ∨ (x = monChain m c ∧ y = p)) →
    pmulQ fuel x y = some w →
    wfb w = true ∧ (p = pddZero → w = pddZero) ∧
      (p ≠ pddZero → spine w = monMul (spine p) m ∧ lc w = lc p * c) := by
  intro fuel
  induction fuel with
  | zero => intro p m c x y w _ _ _ _ h; cases h
  | succ f ih =>
    intro p m c x y w hp hdm hc harr h
    cases m with
    | nil =>
      obtain ⟨hw, hs, hl⟩ := pmul_val (f + 1) p c x y w hp hc (by
        rcases harr with ⟨h1, h2⟩ | ⟨h1, h2⟩
        · exact Or.inl ⟨h1, h2⟩
        · exact Or.inr ⟨h1, h2⟩) h
      refine ⟨hw, ?_, ?_⟩
      · intro h0
        subst h0
        apply isVal_zero w (spine_nil_isVal w (by rw [hs]; rfl))
        rw [hl, show lc pddZero = (0 : ℚ) from rfl, zero_mul]
      · intro _
        exact ⟨by rw [hs, monMul_nil_right], hl⟩
    | cons v m' =>
      rw [pmulQ] at h
      have hCz : monChain (v :: m') c ≠ pddZero := fun hx => PDD.noConfusion hx
      have hCv : (monChain (v :: m') c).isVal = false := rfl
      have hdm' : desc m' = true := desc_tail _ _ hdm
      have hmv : ∀ e ∈ m', e ≤ v := desc_head_dom _ _ hdm
      by_cases h0 : (x = pddZero || y = pddZero) = true
      · rw [if_pos h0] at h
        simp only [Option.some.injEq] at h
        subst h
        have hp0 : p = pddZero := by
          simp only [Bool.or_eq_true, decide_eq_true_eq] at h0
          rcases harr with ⟨rfl, rfl⟩ | ⟨rfl, rfl⟩
          · rcases h0 with h1 | h1
            · exact h1
            · exact absurd h1 hCz
          · rcases h0 with h1 | h1
            · exact absurd h1 hCz
            · exact h1
        exact ⟨rfl, fun _ => rfl, fun hne => absurd hp0 hne⟩
      · rw [if_neg h0] at h
        simp only [Bool.or_eq_true, decide_eq_true_eq, not_or] at h0
        by_cases h1 : x = pddOne
        · rw [if_pos h1] at h
          simp only [Option.some.injEq] at h
          subst h
          rcases harr with ⟨rfl, rfl⟩ | ⟨rfl, rfl⟩
          · subst h1
            refine ⟨monChain_wfb _ _ hdm hc, ?_, ?_⟩
            · intro h0'
              simp [pddOne, pddZero] at h0'
            · intro _
              refine ⟨?_, ?_⟩
              · rw [monChain_spine]
                rfl
              · rw [monChain_lc, show lc pddOne = (1 : ℚ) from rfl, one_mul]
          · exact absurd h1 (fun hx => PDD.noConfusion hx)
        · rw [if_neg h1] at h
          by_cases h2 : y = pddOne
          · rw [if_pos h2] at h
            simp only [Option.some.injEq] at h
            subst h
            rcases harr with ⟨rfl, rfl⟩ | ⟨rfl, rfl⟩
            · exact absurd h2 (fun hx => PDD.noConfusion hx)
            · subst h2
              refine ⟨monChain_wfb _ _ hdm hc, ?_, ?_⟩
              · intro h0'
                simp [pddOne, pddZero] at h0'
              · intro _
                refine ⟨?_, ?_⟩
                · rw [monChain_spine]
                  rfl
                · rw [monChain_lc, show lc pddOne = (1 : ℚ) from rfl, one_mul]
          · rw [if_neg h2] at h
            by_cases hval : (x.isVal && y.isVal) = true
            · exfalso
              simp only [Bool.and_eq_true] at hval
              rcases harr with ⟨he1, he2⟩ | ⟨he1, he2⟩
              · have h' := hval.2
                rw [he2, hCv] at h'
                cases h'
              · have h' := hval.1
                rw [he1, hCv] at h'
                cases h'
            · rw [if_neg hval] at h
              have hpz : p ≠ pddZero := by
                rcases harr with ⟨he1, -⟩ | ⟨-, he2⟩
                · rw [← he1]; exact h0.1
                · rw [← he2]; exact h0.2
              by_cases hpval : p.isVal = true
              · -- the general factor is a constant: the result is the
                -- monomial with scaled coefficient
                have hcsA : canonSwap x y = (monChain (v :: m') c, p) := by
                  rcases harr with ⟨he1, he2⟩ | ⟨he1, he2⟩
                  · rw [he1, he2]
                    rcases canonSwap_eq p (monChain (v :: m') c) with
                      ⟨-, e2, -⟩ | ⟨e1, -, -⟩ | ⟨-, e2⟩
                    · rw [e2] at hpval; cases hpval
                    · exact e1
                    · rw [hCv] at e2; cases e2
                  · rw [he1, he2]
                    rcases canonSwap_eq (monChain (v :: m') c) p with
                      ⟨e1, -, -⟩ | ⟨-, e2, -⟩ | ⟨e1, -⟩
                    · exact e1
                    · rw [e2] at hpval; cases hpval
                    · rw [hCv] at e1; cases e1
                rw [hcsA] at h
                cases p with
                | node _ _ _ => cases hpval
                | val d =>
                have hdz : d ≠ 0 := fun h' => hpz (by rw [h']; rfl)
                have hred : (do
                    let l ← pmulQ f pddZero (PDD.val d)
                    let h2 ← pmulQ f (monChain m' c) (PDD.val d)
                    some (mkNode v l h2)) = some w := h
                cases hl : pmulQ f pddZero (PDD.val d) with
                | none => rw [hl] at hred; exact absurd hred (by simp)
                | some l =>
                  rw [hl] at hred
                  simp only [Option.bind_eq_bind, Option.some_bind] at hred
                  have hl0 : l = pddZero := pmulQ_zero f _ _ _ (Or.inl rfl) hl
                  subst hl0
                  cases hh : pmulQ f (monChain m' c) (PDD.val d) with
                  | none => rw [hh] at hred; exact absurd hred (by simp)
                  | some h2 =>
                    rw [hh] at hred
                    simp only [Option.bind_eq_bind, Option.some_bind,
                      Option.some.injEq] at hred
                    subst hred
                    obtain ⟨hwh2, hsh2, hlh2⟩ := pmul_val f (monChain m' c) d
                      (monChain m' c) (PDD.val d) h2
                      (monChain_wfb m' c hdm' hc) hdz (Or.inl ⟨rfl, rfl⟩) hh
                    rw [monChain_spine] at hsh2
                    rw [monChain_lc] at hlh2
                    have hz : h2 ≠ pddZero := ne_zero_of_lc h2 (by
                      rw [hlh2]
                      exact mul_ne_zero hc hdz)
                    rw [mkNode_node v pddZero h2 hz]
                    refine ⟨?_, fun h0' => absurd h0' hpz, fun _ => ⟨?_, ?_⟩⟩
                    · unfold wfb
                      simp only [Bool.and_eq_true, Bool.or_eq_true,
                        decide_eq_true_eq]
                      refine ⟨⟨⟨⟨rfl, hwh2⟩, hz⟩, Or.inl rfl⟩, ?_⟩
                      cases hh2v : h2 with
                      | val _ => exact Or.inl rfl
                      | node lb bl bh =>
                        right
                        have hhead : lb ∈ m' := by
                          rw [← hsh2, hh2v]
                          exact List.mem_cons_self _ _
                        simpa [PDD.level] using hmv lb hhead
                    · rw [show spine (PDD.node v pddZero h2) = v :: spine h2
                        from rfl, hsh2]
                      rfl
                    · show lc h2 = lc (PDD.val d) * c
                      rw [hlh2, show lc (PDD.val d) = d from rfl, mul_comm]
              · -- both factors are decision nodes
                have hpvF : p.isVal = false := by simpa using hpval
                cases p with
                | val _ => cases hpvF
                | node lvl pl ph =>
                obtain ⟨hwpl, hwph, hphz, hplc, hphc⟩ := wfb_parts lvl pl ph hp
                have hlcph : lc ph ≠ 0 := lc_ne_zero ph hwph hphz
                have hphlev : ∀ e ∈ spine ph, e ≤ lvl := by
                  intro e he
                  rcases hphc with hv | hv
                  · rw [isVal_spine ph hv] at he
                    cases he
                  · exact le_trans ((spine_desc_bound ph hwph).2 e he) hv
                have hplb : ∀ e ∈ spine pl, e < lvl := by
                  rcases hplc with hv | hv
                  · rw [isVal_spine pl hv]
                    intro e he
                    cases he
                  · intro e he
                    exact lt_of_le_of_lt ((spine_desc_bound pl hwpl).2 e he) hv
                have harr2 :
                    (canonSwap x y
                        = (PDD.node lvl pl ph, monChain (v :: m') c) ∧
                      ¬ lvl < v) ∨
                    (canonSwap x y
                        = (monChain (v :: m') c, PDD.node lvl pl ph) ∧
                      ¬ v < lvl) := by
                  rcases harr with ⟨he1, he2⟩ | ⟨he1, he2⟩
                  · rw [he1, he2]
                    rcases canonSwap_eq (PDD.node lvl pl ph)
                        (monChain (v :: m') c) with
                      ⟨e1, -, e3⟩ | ⟨e1, -, e3⟩ | ⟨-, e2⟩
                    · refine Or.inl ⟨e1, ?_⟩
                      rcases e3 with e4 | e4
                      · rw [hCv] at e4; cases e4
                      · simpa [monChain, PDD.level] using e4
                    · refine Or.inr ⟨e1, ?_⟩
                      rcases e3 with e4 | e4
                      · rw [e4] at hpvF; cases hpvF
                      · simp only [monChain, PDD.level] at e4
                        omega
                    · rw [hCv] at e2; cases e2
                  · rw [he1, he2]
                    rcases canonSwap_eq (monChain (v :: m') c)
                        (PDD.node lvl pl ph) with
                      ⟨e1, -, e3⟩ | ⟨e1, -, e3⟩ | ⟨e2, -⟩
                    · refine Or.inr ⟨e1, ?_⟩
                      rcases e3 with e4 | e4
                      · rw [e4] at hpvF; cases hpvF
                      · simpa [monChain, PDD.level] using e4
                    · refine Or.inl ⟨e1, ?_⟩
                      rcases e3 with e4 | e4
                      · rw [hCv] at e4; cases e4
                      · simp only [monChain, PDD.level] at e4
                        omega
                    · rw [hCv] at e2; cases e2
                rcases harr2 with ⟨hcs, hnl⟩ | ⟨hcs, hnl⟩
                · -- the general node leads
                  rw [hcs] at h
                  have hred : (if lvl = v then
                      (do
                        let ac ← pmulQ f ph (monChain m' c)
                        let ad ← pmulQ f ph pddZero
                        let bc ← pmulQ f pl (monChain m' c)
                        let bd ← pmulQ f pl pddZero
                        let n ← padd false f ad bc
                        if !n.isVal && decide (n.level = lvl) then do
                          let h3 ← padd false f ac n.hi
                          some (mkNode lvl bd (mkNode lvl n.lo h3))
                        else some (mkNode lvl bd (mkNode lvl n ac)))
                    else (do
                      let l ← pmulQ f pl (monChain (v :: m') c)
                      let h2 ← pmulQ f ph (monChain (v :: m') c)
                      some (mkNode lvl l h2))) = some w := h
                  by_cases hlv : lvl = v
                  · rw [if_pos hlv] at hred
                    subst hlv
                    cases hac : pmulQ f ph (monChain m' c) with
                    | none => rw [hac] at hred; exact absurd hred (by simp)
                    | some ac =>
                      rw [hac] at hred
                      simp only [Option.bind_eq_bind, Option.some_bind] at hred
                      obtain ⟨hwac, -, hacS⟩ := ih ph m' c ph (monChain m' c)
                        ac hwph hdm' hc (Or.inl ⟨rfl, rfl⟩) hac
                      obtain ⟨hsac, hlac⟩ := hacS hphz
                      cases had : pmulQ f ph pddZero with
                      | none => rw [had] at hred; exact absurd hred (by simp)
                      | some ad =>
                        rw [had] at hred
                        simp only [Option.bind_eq_bind, Option.some_bind]
                          at hred
                        have had0 : ad = pddZero :=
                          pmulQ_zero f _ _ _ (Or.inr rfl) had
                        subst had0
                        cases hbc : pmulQ f pl (monChain m' c) with
                        | none => rw [hbc] at hred; exact absurd hred (by simp)
                        | some bc =>
                          rw [hbc] at hred
                          simp only [Option.bind_eq_bind, Option.some_bind]
                            at hred
                          obtain ⟨hwbc, hbc0, hbcS⟩ := ih pl m' c pl
                            (monChain m' c) bc hwpl hdm' hc
                            (Or.inl ⟨rfl, rfl⟩) hbc
                          cases hbd : pmulQ f pl pddZero with
                          | none =>
                            rw [hbd] at hred
                            exact absurd hred (by simp)
                          | some bd =>
                            rw [hbd] at hred
                            simp only [Option.bind_eq_bind, Option.some_bind]
                              at hred
                            have hbd0 : bd = pddZero :=
                              pmulQ_zero f _ _ _ (Or.inr rfl) hbd
                            subst hbd0
                            cases hn : padd false f pddZero bc with
                            | none =>
                              rw [hn] at hred
                              exact absurd hred (by simp)
                            | some n =>
                              rw [hn] at hred
                              simp only [Option.bind_eq_bind,
                                Option.some_bind] at hred
                              have hnbc : n = bc := padd_zero_left f bc n hn
                              subst hnbc
                              obtain ⟨hww, hsw, hlw⟩ := pmul_chain_core f lvl
                                pl ph m' c ac n w hwpl hwph hphz hplc hphc
                                (desc_head_dom _ _ hdm) hdm' hc hwac hsac hlac
                                hwbc hbc0 hbcS hred
                              refine ⟨hww, fun h0' => absurd h0' hpz,
                                fun _ => ⟨?_, ?_⟩⟩
                              · rw [hsw,
                                  show spine (PDD.node lvl pl ph)
                                    = lvl :: spine ph from rfl,
                                  monMul_cons_cons, if_pos (le_refl lvl),
                                  monMul_pull (spine ph) m' lvl hphlev
                                    (desc_head_dom _ _ hdm), ← hsac]
                              · rw [hlw, hlac]
                                rfl
                  · rw [if_neg hlv] at hred
                    have hvlt : v < lvl := by omega
                    cases hl : pmulQ f pl (monChain (v :: m') c) with
                    | none => rw [hl] at hred; exact absurd hred (by simp)
                    | some l =>
                      rw [hl] at hred
                      simp only [Option.bind_eq_bind, Option.some_bind] at hred
                      obtain ⟨hwl, hl0, hlS⟩ := ih pl (v :: m') c pl
                        (monChain (v :: m') c) l hwpl hdm hc
                        (Or.inl ⟨rfl, rfl⟩) hl
                      cases hh : pmulQ f ph (monChain (v :: m') c) with
                      | none => rw [hh] at hred; exact absurd hred (by simp)
                      | some h2 =>
                        rw [hh] at hred
                        simp only [Option.bind_eq_bind, Option.some_bind,
                          Option.some.injEq] at hred
                        subst hred
                        obtain ⟨hwh2, -, hh2S⟩ := ih ph (v :: m') c ph
                          (monChain (v :: m') c) h2 hwph hdm hc
                          (Or.inl ⟨rfl, rfl⟩) hh
                        obtain ⟨hsh2, hlh2⟩ := hh2S hphz
                        have hz : h2 ≠ pddZero := ne_zero_of_lc h2 (by
                          rw [hlh2]
                          exact mul_ne_zero hlcph hc)
                        rw [mkNode_node lvl l h2 hz]
                        have hbl : ∀ e ∈ monMul (spine pl) (v :: m'),
                            e < lvl := by
                          intro e he
                          rcases monMul_mem _ _ _ he with h' | h'
                          · exact hplb e h'
                          · rcases List.mem_cons.mp h' with rfl | h''
                            · exact hvlt
                            · exact lt_of_le_of_lt (hmv e h'') hvlt
                        refine ⟨?_, fun h0' => absurd h0' hpz,
                          fun _ => ⟨?_, ?_⟩⟩
                        · unfold wfb
                          simp only [Bool.and_eq_true, Bool.or_eq_true,
                            decide_eq_true_eq]
                          refine ⟨⟨⟨⟨hwl, hwh2⟩, hz⟩, ?_⟩, ?_⟩
                          · by_cases hlval : l.isVal = true
                            · exact Or.inl hlval
                            · right
                              have hplne : pl ≠ pddZero := by
                                intro hq
                                rw [hl0 hq] at hlval
                                exact hlval rfl
                              obtain ⟨hsl, -⟩ := hlS hplne
                              cases l with
                              | val _ => exact absurd rfl hlval
                              | node la al ah =>
                                have : la ∈ monMul (spine pl) (v :: m') := by
                                  rw [← hsl]
                                  exact List.mem_cons_self _ _
                                simpa [PDD.level] using hbl la this
                          · cases hh2v : h2 with
                            | val _ => exact Or.inl rfl
                            | node lb bl bh =>
                              right
                              have : lb ∈ monMul (spine ph) (v :: m') := by
                                rw [← hsh2, hh2v]
                                exact List.mem_cons_self _ _
                              rcases monMul_mem _ _ _ this with h' | h'
                              · simpa [PDD.level] using hphlev lb h'
                              · rcases List.mem_cons.mp h' with he | h''
                                · simp only [PDD.level]
                                  omega
                                · have := hmv lb h''
                                  simp only [PDD.level]
                                  omega
                        · rw [show spine (PDD.node lvl l h2)
                              = lvl :: spine h2 from rfl, hsh2,
                            show spine (PDD.node lvl pl ph)
                              = lvl :: spine ph from rfl,
                            monMul_cons_cons, if_pos (Nat.le_of_lt hvlt)]
                        · show lc h2 = lc (PDD.node lvl pl ph) * c
                          rw [hlh2]
                          rfl
                · -- the monomial leads
                  rw [hcs] at h
                  have hred : (if v = lvl then
                      (do
                        let ac ← pmulQ f (monChain m' c) ph
                        let ad ← pmulQ f (monChain m' c) pl
                        let bc ← pmulQ f pddZero ph
                        let bd ← pmulQ f pddZero pl
                        let n ← padd false f ad bc
                        if !n.isVal && decide (n.level = v) then do
                          let h3 ← padd false f ac n.hi
                          some (mkNode v bd (mkNode v n.lo h3))
                        else some (mkNode v bd (mkNode v n ac)))
                    else (do
                      let l ← pmulQ f pddZero (PDD.node lvl pl ph)
                      let h2 ← pmulQ f (monChain m' c) (PDD.node lvl pl ph)
                      some (mkNode v l h2))) = some w := h
                  by_cases hlv : v = lvl
                  · rw [if_pos hlv] at hred
                    have hlv' : lvl = v := hlv.symm
                    subst hlv'
                    cases hac : pmulQ f (monChain m' c) ph with
                    | none => rw [hac] at hred; exact absurd hred (by simp)
                    | some ac =>
                      rw [hac] at hred
                      simp only [Option.bind_eq_bind, Option.some_bind] at hred
                      obtain ⟨hwac, -, hacS⟩ := ih ph m' c (monChain m' c) ph
                        ac hwph hdm' hc (Or.inr ⟨rfl, rfl⟩) hac
                      obtain ⟨hsac, hlac⟩ := hacS hphz
                      cases had : pmulQ f (monChain m' c) pl with
                      | none => rw [had] at hred; exact absurd hred (by simp)
                      | some ad =>
                        rw [had] at hred
                        simp only [Option.bind_eq_bind, Option.some_bind]
                          at hred
                        obtain ⟨hwad, had0, hadS⟩ := ih pl m' c
                          (monChain m' c) pl ad hwpl hdm' hc
                          (Or.inr ⟨rfl, rfl⟩) had
                        cases hbc : pmulQ f pddZero ph with
                        | none => rw [hbc] at hred; exact absurd hred (by simp)
                        | some bc =>
                          rw [hbc] at hred
                          simp only [Option.bind_eq_bind, Option.some_bind]
                            at hred
                          have hbc0 : bc = pddZero :=
                            pmulQ_zero f _ _ _ (Or.inl rfl) hbc
                          subst hbc0
                          cases hbd : pmulQ f pddZero pl with
                          | none =>
                            rw [hbd] at hred
                            exact absurd hred (by simp)
                          | some bd =>
                            rw [hbd] at hred
                            simp only [Option.bind_eq_bind, Option.some_bind]
                              at hred
                            have hbd0 : bd = pddZero :=
                              pmulQ_zero f _ _ _ (Or.inl rfl) hbd
                            subst hbd0
                            cases hn : padd false f ad pddZero with
                            | none =>
                              rw [hn] at hred
                              exact absurd hred (by simp)
                            | some n =>
                              rw [hn] at hred
                              simp only [Option.bind_eq_bind,
                                Option.some_bind] at hred
                              have hnad : n = ad := padd_zero_right f ad n hn
                              subst hnad
                              obtain ⟨hww, hsw, hlw⟩ := pmul_chain_core f lvl
                                pl ph m' c ac n w hwpl hwph hphz hplc hphc
                                (desc_head_dom _ _ hdm) hdm' hc hwac hsac hlac
                                hwad had0 hadS hred
                              refine ⟨hww, fun h0' => absurd h0' hpz,
                                fun _ => ⟨?_, ?_⟩⟩
                              · rw [hsw,
                                  show spine (PDD.node lvl pl ph)
                                    = lvl :: spine ph from rfl,
                                  monMul_cons_cons, if_pos (le_refl lvl),
                                  monMul_pull (spine ph) m' lvl hphlev
                                    (desc_head_dom _ _ hdm), ← hsac]
                              · rw [hlw, hlac]
                                rfl
                  · rw [if_neg hlv] at hred
                    have hvgt : lvl < v := by omega
                    cases hl : pmulQ f pddZero (PDD.node lvl pl ph) with
                    | none => rw [hl] at hred; exact absurd hred (by simp)
                    | some l =>
                      rw [hl] at hred
                      simp only [Option.bind_eq_bind, Option.some_bind] at hred
                      have hl0 : l = pddZero :=
                        pmulQ_zero f _ _ _ (Or.inl rfl) hl
                      subst hl0
                      cases hh : pmulQ f (monChain m' c)
                          (PDD.node lvl pl ph) with
                      | none => rw [hh] at hred; exact absurd hred (by simp)
                      | some h2 =>
                        rw [hh] at hred
                        simp only [Option.bind_eq_bind, Option.some_bind,
                          Option.some.injEq] at hred
                        subst hred
                        obtain ⟨hwh2, -, hh2S⟩ := ih (PDD.node lvl pl ph) m' c
                          (monChain m' c) (PDD.node lvl pl ph) h2 hp hdm' hc
                          (Or.inr ⟨rfl, rfl⟩) hh
                        obtain ⟨hsh2, hlh2⟩ :=
                          hh2S (fun hx => PDD.noConfusion hx)
                        have hz : h2 ≠ pddZero := ne_zero_of_lc h2 (by
                          rw [hlh2]
                          exact mul_ne_zero
                            (lc_ne_zero _ hp (fun hx => PDD.noConfusion hx)) hc)
                        rw [mkNode_node v pddZero h2 hz]
                        have hpb : ∀ e ∈ spine (PDD.node lvl pl ph),
                            e ≤ v := by
                          intro e he
                          rcases List.mem_cons.mp he with rfl | h'
                          · exact Nat.le_of_lt hvgt
                          · exact le_trans (hphlev e h') (Nat.le_of_lt hvgt)
                        refine ⟨?_, fun h0' => absurd h0' hpz,
                          fun _ => ⟨?_, ?_⟩⟩
                        · unfold wfb
                          simp only [Bool.and_eq_true, Bool.or_eq_true,
                            decide_eq_true_eq]
                          refine ⟨⟨⟨⟨rfl, hwh2⟩, hz⟩, Or.inl rfl⟩, ?_⟩
                          cases hh2v : h2 with
                          | val _ => exact Or.inl rfl
                          | node lb bl bh =>
                            right
                            have : lb ∈ monMul (spine (PDD.node lvl pl ph))
                                m' := by
                              rw [← hsh2, hh2v]
                              exact List.mem_cons_self _ _
                            rcases monMul_mem _ _ _ this with h' | h'
                            · simpa [PDD.level] using hpb lb h'
                            · have := hmv lb h'
                              simp only [PDD.level]
                              omega
                        · rw [show spine (PDD.node v pddZero h2)
                              = v :: spine h2 from rfl, hsh2,
                            monMul_pull (spine (PDD.node lvl pl ph)) m' v hpb
                              hmv]
                        · show lc h2 = lc (PDD.node lvl pl ph) * c
                          exact hlh2

/-- Multiplying by one on the left returns the other operand. -/
theorem pmulQ_one_left (f : Nat) (y w : PDD)
    (h : pmulQ f pddOne y = some w) : w = y := by
  cases f with
  | zero => cases h
  | succ f =>
    rw [pmulQ] at h
    by_cases hy : y = pddZero
    · rw [if_pos (by simp [hy])] at h
      simp only [Option.some.injEq] at h
      rw [← h, hy]
    · have hno : ¬ (pddOne = pddZero ∨ y = pddZero) := by
        rintro (hx | hx)
        · have h1 : (1 : ℚ) = 0 := by injection hx
          exact one_ne_zero h1
        · exact hy hx
      rw [if_neg (by
          simpa only [Bool.or_eq_true, decide_eq_true_eq] using hno),
        if_pos rfl] at h
      simp only [Option.some.injEq] at h
      exact h.symm

/-- Multiplying a variable node by a monomial chain of dominated levels
extends the chain by the variable. -/
theorem pmul_var_chain (fuel : Nat) (v : Nat) (t : List Nat) (c : ℚ) (w : PDD)
    (hd : ∀ e ∈ t, e ≤ v) (hc : c ≠ 0)
    (h : pmulQ fuel (mkVar v) (monChain t c) = some w) :
    w = monChain (v :: t) c := by
  cases fuel with
  | zero => cases h
  | succ f =>
    rw [pmulQ] at h
    have hx0 : mkVar v ≠ pddZero := fun hx => PDD.noConfusion hx
    have hy0 : monChain t c ≠ pddZero := monChain_ne_zero t c hc
    rw [if_neg (by simp [hx0, hy0])] at h
    rw [if_neg (fun hx => PDD.noConfusion hx : ¬ mkVar v = pddOne)] at h
    cases t with
    | nil =>
      by_cases hc1 : c = 1
      · rw [if_pos (by rw [show monChain [] c = PDD.val c from rfl, hc1]; rfl)]
          at h
        simp only [Option.some.injEq] at h
        rw [← h, hc1]
        rfl
      · rw [if_neg (by
          intro hx
          have hx' : PDD.val c = PDD.val 1 := hx
          exact hc1 (by injection hx'))] at h
        rw [if_neg (by simp [mkVar, PDD.isVal])] at h
        have hcs : canonSwap (mkVar v) (monChain [] c)
            = (mkVar v, monChain [] c) := by
          rcases canonSwap_eq (mkVar v) (monChain [] c) with
            ⟨e1, -, -⟩ | ⟨-, e2, -⟩ | ⟨e1, -⟩
          · exact e1
          · cases e2
          · cases e1
        rw [hcs] at h
        have hred : (do
            let l ← pmulQ f pddZero (PDD.val c)
            let h2 ← pmulQ f pddOne (PDD.val c)
            some (mkNode v l h2)) = some w := h
        cases hl : pmulQ f pddZero (PDD.val c) with
        | none => rw [hl] at hred; exact absurd hred (by simp)
        | some l =>
          rw [hl] at hred
          simp only [Option.bind_eq_bind, Option.some_bind] at hred
          have hl0 : l = pddZero := pmulQ_zero f _ _ _ (Or.inl rfl) hl
          subst hl0
          cases hh : pmulQ f pddOne (PDD.val c) with
          | none => rw [hh] at hred; exact absurd hred (by simp)
          | some h2 =>
            rw [hh] at hred
            simp only [Option.bind_eq_bind, Option.some_bind,
              Option.some.injEq] at hred
            have hh2 : h2 = PDD.val c := pmulQ_one_left f _ _ hh
            subst hh2
            rw [← hred,
              mkNode_node v pddZero (PDD.val c) (by
                intro hx
                exact hc (by injection hx))]
            rfl
    | cons u t' =>
      have huv : u ≤ v := hd u (List.mem_cons_self u t')
      rw [if_neg (fun hx => PDD.noConfusion hx
        : ¬ monChain (u :: t') c = pddOne)] at h
      rw [if_neg (by simp [mkVar, PDD.isVal])] at h
      have hcs : canonSwap (mkVar v) (monChain (u :: t') c)
          = (mkVar v, monChain (u :: t') c) := by
        rcases canonSwap_eq (mkVar v) (monChain (u :: t') c) with
          ⟨e1, -, -⟩ | ⟨-, -, e3⟩ | ⟨e1, -⟩
        · exact e1
        · rcases e3 with e4 | e4
          · cases e4
          · exact absurd e4 (by simp [mkVar, monChain, PDD.level]; omega)
        · cases e1
      rw [hcs] at h
      have hred : (if v = u then (do
          let ac ← pmulQ f pddOne (monChain t' c)
          let ad ← pmulQ f pddOne pddZero
          let bc ← pmulQ f pddZero (monChain t' c)
          let bd ← pmulQ f pddZero pddZero
          let n ← padd false f ad bc
          if !n.isVal && decide (n.level = v) then do
            let h3 ← padd false f ac n.hi
            some (mkNode v bd (mkNode v n.lo h3))
          else some (mkNode v bd (mkNode v n ac)))
        else (do
          let l ← pmulQ f pddZero (monChain (u :: t') c)
          let h2 ← pmulQ f pddOne (monChain (u :: t') c)
          some (mkNode v l h2))) = some w := h
      by_cases hvu : v = u
      · rw [if_pos hvu] at hred
        subst hvu
        cases hac : pmulQ f pddOne (monChain t' c) with
        | none => rw [hac] at hred; exact absurd hred (by simp)
        | some ac =>
          rw [hac] at hred
          simp only [Option.bind_eq_bind, Option.some_bind] at hred
          have hac' : ac = monChain t' c := pmulQ_one_left f _ _ hac
          subst hac'
          cases had : pmulQ f pddOne pddZero with
          | none => rw [had] at hred; exact absurd hred (by simp)
          | some ad =>
            rw [had] at hred
            simp only [Option.bind_eq_bind, Option.some_bind] at hred
            have had' : ad = pddZero := pmulQ_zero f _ _ _ (Or.inr rfl) had
            subst had'
            cases hbc : pmulQ f pddZero (monChain t' c) with
            | none => rw [hbc] at hred; exact absurd hred (by simp)
            | some bc =>
              rw [hbc] at hred
              simp only [Option.bind_eq_bind, Option.some_bind] at hred
              have hbc' : bc = pddZero := pmulQ_zero f _ _ _ (Or.inl rfl) hbc
              subst hbc'
              cases hbd : pmulQ f pddZero pddZero with
              | none => rw [hbd] at hred; exact absurd hred (by simp)
              | some bd =>
                rw [hbd] at hred
                simp only [Option.bind_eq_bind, Option.some_bind] at hred
                have hbd' : bd = pddZero := pmulQ_zero f _ _ _ (Or.inl rfl) hbd
                subst hbd'
                cases hn : padd false f pddZero pddZero with
                | none => rw [hn] at hred; exact absurd hred (by simp)
                | some n =>
                  rw [hn] at hred
                  simp only [Option.bind_eq_bind, Option.some_bind] at hred
                  have hn' : n = pddZero := padd_zero_left f _ _ hn
                  subst hn'
                  rw [if_neg (by simp [pddZero, PDD.isVal])] at hred
                  simp only [Option.some.injEq] at hred
                  rw [← hred,
                    mkNode_node v pddZero (monChain t' c)
                      (monChain_ne_zero t' c hc),
                    mkNode_node v pddZero _ (fun hx => PDD.noConfusion hx)]
                  rfl
      · rw [if_neg hvu] at hred
        cases hl : pmulQ f pddZero (monChain (u :: t') c) with
        | none => rw [hl] at hred; exact absurd hred (by simp)
        | some l =>
          rw [hl] at hred
          simp only [Option.bind_eq_bind, Option.some_bind] at hred
          have hl0 : l = pddZero := pmulQ_zero f _ _ _ (Or.inl rfl) hl
          subst hl0
          cases hh : pmulQ f pddOne (monChain (u :: t') c) with
          | none => rw [hh] at hred; exact absurd hred (by simp)
          | some h2 =>
            rw [hh] at hred
            simp only [Option.bind_eq_bind, Option.some_bind,
              Option.some.injEq] at hred
            have hh2 : h2 = monChain (u :: t') c := pmulQ_one_left f _ _ hh
            subst hh2
            rw [← hred,
              mkNode_node v pddZero _ (fun hx => PDD.noConfusion hx)]
            rfl

/-- The right fold of `spoly` builds the monomial `x^l * c`. -/
theorem spoly_fold_chain : ∀ (l : List Nat) (fuel : Nat) (c : ℚ) (r : PDD),
    desc l = true → c ≠ 0 →
    (l.foldr (fun v acc => do
        let r ← acc
        pmulEntry false fuel (mkVar v) r) (some (imkVal false c))) = some r →
    r = monChain l c := by
  intro l
  induction l with
  | nil =>
    intro fuel c r _ _ h
    simp only [List.foldr_nil, Option.some.injEq] at h
    rw [← h, imkVal_q]
    rfl
  | cons v t ih =>
    intro fuel c r hd hc h
    rw [List.foldr_cons] at h
    cases hr0 : (t.foldr (fun v acc => do
        let r ← acc
        pmulEntry false fuel (mkVar v) r) (some (imkVal false c))) with
    | none => rw [hr0] at h; exact absurd h (by simp)
    | some r0 =>
      rw [hr0] at h
      simp only [Option.bind_eq_bind, Option.some_bind] at h
      have hr0' : r0 = monChain t c := ih fuel c r0 (desc_tail _ _ hd) hc hr0
      subst hr0'
      exact pmul_var_chain fuel v t c r (desc_head_dom _ _ hd) hc h

/-- The invariant of the `common_factors` walk: on success the returned
variable lists complete each operand's leading monomial to the lcm of
the two leading monomials, and the returned coefficients are the leading
coefficients divided by a common nonzero factor. -/
theorem cfWalk_inv : ∀ (fuel : Nat) (x y : PDD) (pl ql : List Nat)
    (hcm : Bool) (pl' ql' : List Nat) (pc qc : ℚ),
    wfb x = true → wfb y = true → x ≠ pddZero → y ≠ pddZero →
    cfWalk false fuel x y pl ql hcm = some (some (pl', ql', pc, qc)) →
    ∃ pl0 ql0 g, pl' = pl ++ pl0 ∧ ql' = ql ++ ql0 ∧
      (∀ e ∈ pl0, e ∈ spine x) ∧ (∀ e ∈ ql0, e ∈ spine y) ∧
      desc pl0 = true ∧ desc ql0 = true ∧
      monMul (spine x) ql0 = monLcm (spine x) (spine y) ∧
      monMul (spine y) pl0 = monLcm (spine x) (spine y) ∧
      g ≠ 0 ∧ pc = lc x / g ∧ qc = lc y / g := by
  intro fuel
  induction fuel with
  | zero => intro x y pl ql hcm pl' ql' pc qc _ _ _ _ h; cases h
  | succ f ih =>
    intro x y pl ql hcm pl' ql' pc qc hwx hwy hxz hyz h
    rw [cfWalk] at h
    by_cases hexit : (x.isVal || y.isVal) = true
    · rw [if_pos hexit] at h
      cases hcm with
      | false => simp at h
      | true =>
        rw [if_neg (by simp)] at h
        dsimp only at h
        have hlcx : lc x ≠ 0 := lc_ne_zero x hwx hxz
        simp only [Bool.or_eq_true] at hexit
        have hmm1 : monMul (spine x) (spine y)
            = monLcm (spine x) (spine y) := by
          rcases hexit with hv | hv
          · rw [isVal_spine x hv]
            rfl
          · rw [isVal_spine y hv, monMul_nil_right, monLcm_nil_right]
        have hmm2 : monMul (spine y) (spine x)
            = monLcm (spine x) (spine y) := by
          rcases hexit with hv | hv
          · rw [isVal_spine x hv, monMul_nil_right]
            rfl
          · rw [isVal_spine y hv, monLcm_nil_right]
            rfl
        by_cases hint : ((!false && (lc x).isInt) && (lc y).isInt) = true
        · rw [if_pos hint] at h
          simp only [Option.some.injEq, Prod.mk.injEq] at h
          obtain ⟨h1, h2, h3, h4⟩ := h
          exact ⟨spine x, spine y, ratGcd (lc x) (lc y), h1.symm, h2.symm,
            fun e he => he, fun e he => he,
            (spine_desc_bound x hwx).1, (spine_desc_bound y hwy).1,
            hmm1, hmm2, ratGcd_ne_zero _ _ hlcx, h3.symm, h4.symm⟩
        · rw [if_neg hint] at h
          simp only [Option.some.injEq, Prod.mk.injEq] at h
          obtain ⟨h1, h2, h3, h4⟩ := h
          refine ⟨spine x, spine y, 1, h1.symm, h2.symm,
            fun e he => he, fun e he => he,
            (spine_desc_bound x hwx).1, (spine_desc_bound y hwy).1,
            hmm1, hmm2, one_ne_zero, ?_, ?_⟩
          · rw [div_one]
            exact h3.symm
          · rw [div_one]
            exact h4.symm
    · rw [if_neg hexit] at h
      simp only [Bool.or_eq_true, not_or] at hexit
      obtain ⟨hxv, hyv⟩ := hexit
      cases x with
      | val _ => exact absurd rfl hxv
      | node lx xl xh =>
      cases y with
      | val _ => exact absurd rfl hyv
      | node ly yl yh =>
      obtain ⟨hwxl, hwxh, hxhz, hxlc, hxhc⟩ := wfb_parts lx xl xh hwx
      obtain ⟨hwyl, hwyh, hyhz, hylc, hyhc⟩ := wfb_parts ly yl yh hwy
      simp only [PDD.level, PDD.hi] at h
      have hxhb : ∀ e ∈ spine xh, e ≤ lx := by
        intro e he
        rcases hxhc with hv | hv
        · rw [isVal_spine xh hv] at he
          cases he
        · exact le_trans ((spine_desc_bound xh hwxh).2 e he) hv
      have hyhb : ∀ e ∈ spine yh, e ≤ ly := by
        intro e he
        rcases hyhc with hv | hv
        · rw [isVal_spine yh hv] at he
          cases he
        · exact le_trans ((spine_desc_bound yh hwyh).2 e he) hv
      by_cases heq : lx = ly
      · rw [if_pos heq] at h
        subst heq
        obtain ⟨pl0, ql0, g, h1, h2, h3, h4, h5, h6, h7, h8, h9, h10, h11⟩ :=
          ih xh yh pl ql true pl' ql' pc qc hwxh hwyh hxhz hyhz h
        refine ⟨pl0, ql0, g, h1, h2, ?_, ?_, h5, h6, ?_, ?_, h9, h10, h11⟩
        · exact fun e he => List.mem_cons_of_mem _ (h3 e he)
        · exact fun e he => List.mem_cons_of_mem _ (h4 e he)
        · show monMul (lx :: spine xh) ql0
            = monLcm (lx :: spine xh) (lx :: spine yh)
          rw [monMul_cons_left lx (spine xh) ql0
              (fun e he => hyhb e (h4 e he)), h7,
            monLcm_cons_cons, if_pos rfl]
        · show monMul (lx :: spine yh) pl0
            = monLcm (lx :: spine xh) (lx :: spine yh)
          rw [monMul_cons_left lx (spine yh) pl0
              (fun e he => hxhb e (h3 e he)), h8,
            monLcm_cons_cons, if_pos rfl]
      · rw [if_neg heq] at h
        have hyb : ∀ e ∈ ly :: spine yh, e ≤ ly := by
          intro e he
          rcases List.mem_cons.mp he with rfl | h'
          · exact le_rfl
          · exact hyhb e h'
        have hxb : ∀ e ∈ lx :: spine xh, e ≤ lx := by
          intro e he
          rcases List.mem_cons.mp he with rfl | h'
          · exact le_rfl
          · exact hxhb e h'
        by_cases hgt : lx > ly
        · rw [if_pos hgt] at h
          obtain ⟨pl0, ql0, g, h1, h2, h3, h4, h5, h6, h7, h8, h9, h10, h11⟩ :=
            ih xh (PDD.node ly yl yh) (pl ++ [lx]) ql hcm pl' ql' pc qc
              hwxh hwy hxhz hyz h
          rw [show spine (PDD.node ly yl yh) = ly :: spine yh from rfl]
            at h4 h7 h8
          refine ⟨lx :: pl0, ql0, g, ?_, h2, ?_, ?_, ?_, h6, ?_, ?_,
            h9, h10, h11⟩
          · rw [h1, List.append_assoc]
            rfl
          · intro e he
            rcases List.mem_cons.mp he with rfl | h'
            · exact List.mem_cons_self _ _
            · exact List.mem_cons_of_mem _ (h3 e h')
          · exact h4
          · refine desc_cons_of lx pl0 h5 ?_
            intro e he
            exact hxhb e (h3 e he)
          · show monMul (lx :: spine xh) ql0
              = monLcm (lx :: spine xh) (ly :: spine yh)
            rw [monMul_cons_left lx (spine xh) ql0
                (fun e he => le_trans (hyb e (h4 e he)) (Nat.le_of_lt hgt)),
              h7, monLcm_cons_cons, if_neg heq, if_pos hgt]
          · show monMul (ly :: spine yh) (lx :: pl0)
              = monLcm (lx :: spine xh) (ly :: spine yh)
            rw [monMul_cons_cons, if_neg (by omega : ¬ lx ≤ ly), h8,
              monLcm_cons_cons, if_neg heq, if_pos hgt]
        · rw [if_neg hgt] at h
          have hlt : lx < ly := by omega
          obtain ⟨pl0, ql0, g, h1, h2, h3, h4, h5, h6, h7, h8, h9, h10, h11⟩ :=
            ih (PDD.node lx xl xh) yh pl (ql ++ [ly]) hcm pl' ql' pc qc
              hwx hwyh hxz hyhz h
          rw [show spine (PDD.node lx xl xh) = lx :: spine xh from rfl]
            at h3 h7 h8
          refine ⟨pl0, ly :: ql0, g, h1, ?_, ?_, ?_, h5, ?_, ?_, ?_,
            h9, h10, h11⟩
          · rw [h2, List.append_assoc]
            rfl
          · exact h3
          · intro e he
            rcases List.mem_cons.mp he with rfl | h'
            · exact List.mem_cons_self _ _
            · exact List.mem_cons_of_mem _ (h4 e h')
          · refine desc_cons_of ly ql0 h6 ?_
            intro e he
            exact hyhb e (h4 e he)
          · show monMul (lx :: spine xh) (ly :: ql0)
              = monLcm (lx :: spine xh) (ly :: spine yh)
            rw [monMul_cons_cons, if_neg (by omega : ¬ ly ≤ lx), h7,
              monLcm_cons_cons, if_neg heq, if_neg (by omega : ¬ ly < lx)]
          · show monMul (ly :: spine yh) pl0
              = monLcm (lx :: spine xh) (ly :: spine yh)
            rw [monMul_cons_left ly (spine yh) pl0
                (fun e he => le_trans (hxb e (h3 e he)) (Nat.le_of_lt hlt)),
              h8, monLcm_cons_cons, if_neg heq, if_neg (by omega : ¬ ly < lx)]

/-- C3 (amended): whenever `try_spoly(a, b)` returns a result `r` for
well-formed pdds, the leading monomial of `r` is strictly below
`lcm(lm(a), lm(b))` in the monomial order (the S-polynomial combination
cancels the joint leading term; note the manager's own `lt` misorders
unequal levels, so the comparison is stated in the monomial order). -/
theorem spoly_cancels_lcm (fuel : Nat) (a b r : PDD)
    (ha : wfb a = true) (hb : wfb b = true)
    (h : trySpoly false fuel a b = some (some r)) :
    monLt (spine r) (monLcm (spine a) (spine b)) = true := by
  unfold trySpoly at h
  cases hcf : commonFactors false fuel a b with
  | none => rw [hcf] at h; exact absurd h (by simp)
  | some cf =>
    rw [hcf] at h
    simp only [Option.bind_eq_bind, Option.some_bind] at h
    cases cf with
    | none => simp at h
    | some quad =>
      obtain ⟨pl', ql', pc, qc⟩ := quad
      have hred : (do
          let r0 ← spolyFn false fuel a b pl' ql' pc qc
          some (some r0)) = some (some r) := h
      cases hsp : spolyFn false fuel a b pl' ql' pc qc with
      | none => rw [hsp] at hred; exact absurd hred (by simp)
      | some r0 =>
        rw [hsp] at hred
        simp only [Option.bind_eq_bind, Option.some_bind,
          Option.some.injEq] at hred
        have heq0 : r0 = r := hred
        rw [← heq0]
        have hval : a.isVal = false ∧ b.isVal = false := by
          by_cases hv : (a.isVal || b.isVal) = true
          · exfalso
            unfold commonFactors at hcf
            cases fuel with
            | zero => cases hcf
            | succ f =>
              rw [cfWalk] at hcf
              rw [if_pos hv] at hcf
              simp at hcf
          · constructor
            · by_cases hh : a.isVal = true
              · exact absurd (by rw [hh]; simp) hv
              · simpa using hh
            · by_cases hh : b.isVal = true
              · exact absurd (by rw [hh]; simp) hv
              · simpa using hh
        have haz : a ≠ pddZero := by
          intro he
          rw [he] at hval
          cases hval.1
        have hbz : b ≠ pddZero := by
          intro he
          rw [he] at hval
          cases hval.2
        obtain ⟨pl0, ql0, g, hpleq, hqleq, -, -, hdpl, hdql, hmul1, hmul2,
          hg, hpc, hqc⟩ := cfWalk_inv fuel a b [] [] false pl' ql' pc qc
            ha hb haz hbz hcf
        rw [List.nil_append] at hpleq hqleq
        rw [← hpleq] at hdpl hmul2
        rw [← hqleq] at hdql hmul1
        have hlca : lc a ≠ 0 := lc_ne_zero a ha haz
        have hlcb : lc b ≠ 0 := lc_ne_zero b hb hbz
        have hqcne : qc ≠ 0 := by
          rw [hqc]
          exact div_ne_zero hlcb hg
        have hpcne : (-pc) ≠ 0 := by
          rw [hpc]
          simp only [ne_eq, neg_eq_zero]
          exact div_ne_zero hlca hg
        unfold spolyFn at hsp
        cases hmq : ql'.foldr (fun v acc => do
            let r ← acc
            pmulEntry false fuel (mkVar v) r) (some (imkVal false qc)) with
        | none => rw [hmq] at hsp; exact absurd hsp (by simp)
        | some mq =>
          rw [hmq] at hsp
          have hmq' : mq = monChain ql' qc :=
            spoly_fold_chain ql' fuel qc mq hdql hqcne hmq
          subst hmq'
          have hsp2 : (do
              let r1 ← pmulEntry false fuel a (monChain ql' qc)
              let mp ← pl'.foldr (fun v acc => do
                  let r ← acc
                  pmulEntry false fuel (mkVar v) r)
                (some (imkVal false (-pc)))
              let r2 ← pmulEntry false fuel b mp
              padd false fuel r1 r2) = some r0 := hsp
          cases hr1 : pmulEntry false fuel a (monChain ql' qc) with
          | none => rw [hr1] at hsp2; exact absurd hsp2 (by simp)
          | some r1 =>
            rw [hr1] at hsp2
            obtain ⟨hwr1, -, hr1S⟩ := pmul_chain fuel a ql' qc a
              (monChain ql' qc) r1 ha hdql hqcne (Or.inl ⟨rfl, rfl⟩) hr1
            obtain ⟨hsr1, hlr1⟩ := hr1S haz
            have hsp3 : (do
                let mp ← pl'.foldr (fun v acc => do
                    let r ← acc
                    pmulEntry false fuel (mkVar v) r)
                  (some (imkVal false (-pc)))
                let r2 ← pmulEntry false fuel b mp
                padd false fuel r1 r2) = some r0 := hsp2
            cases hmp : pl'.foldr (fun v acc => do
                let r ← acc
                pmulEntry false fuel (mkVar v) r)
                (some (imkVal false (-pc))) with
            | none => rw [hmp] at hsp3; exact absurd hsp3 (by simp)
            | some mp =>
              rw [hmp] at hsp3
              have hmp' : mp = monChain pl' (-pc) :=
                spoly_fold_chain pl' fuel (-pc) mp hdpl hpcne hmp
              subst hmp'
              have hsp4 : (do
                  let r2 ← pmulEntry false fuel b (monChain pl' (-pc))
                  padd false fuel r1 r2) = some r0 := hsp3
              cases hr2 : pmulEntry false fuel b (monChain pl' (-pc)) with
              | none => rw [hr2] at hsp4; exact absurd hsp4 (by simp)
              | some r2 =>
                rw [hr2] at hsp4
                have hsp : padd false fuel r1 r2 = some r0 := hsp4
                obtain ⟨hwr2, -, hr2S⟩ := pmul_chain fuel b pl' (-pc) b
                  (monChain pl' (-pc)) r2 hb hdpl hpcne
                  (Or.inl ⟨rfl, rfl⟩) hr2
                obtain ⟨hsr2, hlr2⟩ := hr2S hbz
                have hPL := padd_lead fuel r1 r2 r0 hwr1 hwr2 hsp
                have hse : spine r1 = spine r2 := by
                  rw [hsr1, hsr2, hmul1, hmul2]
                have hsum : lc r1 + lc r2 = 0 := by
                  rw [hlr1, hlr2, hpc, hqc, div_eq_mul_inv, div_eq_mul_inv]
                  ring
                have hLne : monLcm (spine a) (spine b) ≠ [] := by
                  cases a with
                  | val _ => cases hval.1
                  | node la al ah =>
                    exact monLcm_cons_ne_nil la (spine ah) (spine b)
                rcases (hPL.2.2 hse).1 hsum with hz | hlt
                · rw [hz]
                  cases hL : monLcm (spine a) (spine b) with
                  | nil => exact absurd hL hLne
                  | cons z zs => rfl
                · rw [hsr1, hmul1] at hlt
                  exact hlt

unseal Rat.add Rat.mul Rat.inv in
/-- C3 as stated fails: for `a = x0` and `b = x1*x0 + x0`, `try_spoly`
returns `r = -x0`, whose leading monomial `x0` is genuinely below
`lcm(lm a, lm b) = x1*x0` — but the manager's `lt` order returns false
on `lt(r, x1*x0)`, because its unequal-level branch compares with
`level(x) > level(y)`, inverting the comparison. -/
theorem spoly_not_lt_lcm :
    trySpoly false 40 (mkVar 0) (PDD.node 1 (mkVar 0) (mkVar 0))
        = some (some (PDD.node 0 pddZero (PDD.val (-1)))) ∧
    ltFn (PDD.node 0 pddZero (PDD.val (-1)))
      (monPdd (monLcm (spine (mkVar 0))
        (spine (PDD.node 1 (mkVar 0) (mkVar 0))))) = false ∧
    monLt (spine (PDD.node 0 pddZero (PDD.val (-1))))
      (monLcm (spine (mkVar 0)) (spine (PDD.node 1 (mkVar 0) (mkVar 0))))
      = true := by
  exact ⟨by decide, by decide, by decide⟩

unseal Rat.add Rat.mul Rat.inv in
/-- Witness for the amended C3 statement at the same concrete pair. -/
theorem spoly_cancels_lcm_witness :
    wfb (mkVar 0) = true ∧ wfb (PDD.node 1 (mkVar 0) (mkVar 0)) = true ∧
    trySpoly false 40 (mkVar 0) (PDD.node 1 (mkVar 0) (mkVar 0))
        = some (some (PDD.node 0 pddZero (PDD.val (-1)))) ∧
    monLt (spine (PDD.node 0 pddZero (PDD.val (-1))))
      (monLcm (spine (mkVar 0)) (spine (PDD.node 1 (mkVar 0) (mkVar 0))))
      = true :=
  ⟨by decide, by decide, by decide,
    spoly_cancels_lcm 40 (mkVar 0) (PDD.node 1 (mkVar 0) (mkVar 0))
      (PDD.node 0 pddZero (PDD.val (-1))) (by decide) (by decide)
      (by decide)⟩

end DD
